import Mathlib

/-!
IWI texture container decoder (package iwi)

A shallow embedding of `src/iwi.go`: the header check, the version dependent
layout, the mipmap table and the extraction of the largest mip level, together
with the parts of `bytes.Reader`, `io.ReadFull`, `encoding/binary` and `sort`
that `ReadIWI` relies on.

Conventions
* a Go `byte` is a `Fin 256`;
* a Go `int32` is an `Int` kept in range by `int32` (two's complement wrap);
* a Go `uint16` is a `Nat` below `65536`;
* a Go slice is a `List`;
* a call that can fail returns an `Outcome`: a value, a Go `error`, or a
  run-time panic.
-/

namespace iwi

/-- A Go `byte`. -/
abbrev Byte := Fin 256

/-- Go `type header struct { Magic [3]byte; Version byte }`. -/
structure header where
  Magic : Byte × Byte × Byte
  Version : Byte
deriving DecidableEq

/-- Go `type info struct { Format, Usage byte; Width, Height, Depth uint16 }`. -/
structure info where
  Format : Byte
  Usage : Byte
  Width : Nat
  Height : Nat
  Depth : Nat
deriving DecidableEq

/-- Go `type IWI struct { Header header; Info info; Data []byte }`. -/
structure IWI where
  Header : header
  Info : info
  Data : List Byte
deriving DecidableEq

/-- Go `type offsets []int32`. -/
abbrev offsets := List Int

/-- Go `type mipmap struct { offset int32; size int32 }`. -/
structure mipmap where
  offset : Int
  size : Int
deriving DecidableEq

/-- Go `type mipmaps []mipmap`. -/
abbrev mipmaps := List mipmap

/-- Conversion to `int32` / `int32` arithmetic result: two's complement wrap
into `[-2^31, 2^31)`. -/
def int32 (x : Int) : Int := (x + 2147483648) % 4294967296 - 2147483648

def IWI_VERSION_COD2 : Byte := 0x05
def IWI_VERSION_COD4 : Byte := 0x06
def IWI_VERSION_COD5 : Byte := 0x06
def IWI_VERSION_CODMW2 : Byte := 0x08
def IWI_VERSION_CODMW3 : Byte := 0x08
def IWI_VERSION_CODBO1 : Byte := 0x0D
def IWI_VERSION_CODBO2 : Byte := 0x1B

/-- Go `supportedIWiVersions()`. -/
def supportedIWiVersions : List Byte :=
  [ IWI_VERSION_COD2,
    IWI_VERSION_COD4,
    IWI_VERSION_COD5,
    IWI_VERSION_CODMW2,
    IWI_VERSION_CODMW3,
    IWI_VERSION_CODBO1,
    IWI_VERSION_CODBO2 ]

/-- Go `func (h header) isSupported() bool`: the magic must be the bytes
'I' (73), 'W' (87), 'i' (105) and the version one of the listed ones. -/
def header.isSupported (h : header) : Bool :=
  if !(h.Magic.1 == 73 && h.Magic.2.1 == 87 && h.Magic.2.2 == 105) then
    false
  else
    supportedIWiVersions.any (fun sv => sv == h.Version)

/-- Go `func (o offsets) mipMaps(first int32, size int32) mipmaps`.
`make(mipmaps, len(o))` creates `len(o)` zero-valued entries and the loop
appends one more entry per table index behind them. -/
def offsets.mipMaps (o : offsets) (first : Int) (size : Int) : mipmaps :=
  (List.range o.length).foldl
    (fun m i =>
      if i = 0 then
        m ++ [⟨o.getD i 0, int32 (size - o.getD i 0)⟩]
      else if i = o.length - 1 then
        m ++ [⟨first, int32 (o.getD i 0 - first)⟩]
      else
        m ++ [⟨o.getD i 0, int32 (o.getD (i - 1) 0 - o.getD i 0)⟩])
    (List.replicate o.length ⟨0, 0⟩)

/-- Go `func (m mipmaps) Less(i, j int) bool { return m[i].size < m[j].size }`,
on the two elements compared. -/
def mipmaps.Less (a b : mipmap) : Bool := decide (a.size < b.size)

/-- Go `sort.Reverse`: the wrapped `Less(i, j)` is the original `Less(j, i)`. -/
def sortReverse (less : mipmap → mipmap → Bool) : mipmap → mipmap → Bool :=
  fun a b => less b a

/-- What a call ends with when it does not return a value: a Go `error`. -/
inductive Error where
  /-- Go `io.EOF`: nothing at all could be read. -/
  | EOF
  /-- Go `io.ErrUnexpectedEOF`: fewer bytes than asked for were left. -/
  | ErrUnexpectedEOF
  /-- The error of `bytes.Reader.Seek` for a negative position. -/
  | negativePosition
  /-- The error `ReadIWI` builds itself: "unsupported version". -/
  | unsupported (h : header)
deriving DecidableEq

/-- The ways a call can end: with a value (`err == nil`), with an `error`
(and no value), or with a run-time panic. -/
inductive Outcome (α : Type) where
  | ok (v : α)
  | error (e : Error)
  | panic
deriving DecidableEq

/-- Sequencing: the first failure ends the run. -/
def Outcome.bind {α β : Type} (x : Outcome α) (k : α → Outcome β) : Outcome β :=
  match x with
  | Outcome.ok v => k v
  | Outcome.error e => Outcome.error e
  | Outcome.panic => Outcome.panic

instance : Monad Outcome where
  pure := Outcome.ok
  bind := Outcome.bind

/-- Go `bytes.Reader`: the bytes `s` and the read position `i` (an `int64`
that is never negative). -/
structure Reader where
  s : List Byte
  i : Nat
deriving DecidableEq

/-- Go `bytes.NewReader`. -/
def NewReader (b : List Byte) : Reader := ⟨b, 0⟩

/-- Go `io.SeekStart`, `io.SeekCurrent`, `io.SeekEnd`. -/
inductive Whence where
  | SeekStart
  | SeekCurrent
  | SeekEnd
deriving DecidableEq

/-- Go `func (r *Reader) Seek(offset int64, whence int) (int64, error)`: a
negative position is an error, any other one is accepted, also past the end. -/
def Reader.Seek (r : Reader) (offset : Int) (whence : Whence) : Outcome (Int × Reader) :=
  let abs : Int :=
    match whence with
    | Whence.SeekStart => offset
    | Whence.SeekCurrent => (r.i : Int) + offset
    | Whence.SeekEnd => (r.s.length : Int) + offset
  if abs < 0 then Outcome.error Error.negativePosition
  else Outcome.ok (abs, ⟨r.s, abs.toNat⟩)

/-- Go `func (r *Reader) Size() int64`. -/
def Reader.Size (r : Reader) : Int := (r.s.length : Int)

/-- Go `io.ReadFull(r, buf)` on a `bytes.Reader` with `len(buf) = n`: reading
nothing always succeeds; otherwise `io.EOF` when the position is at or past
the end, `io.ErrUnexpectedEOF` when fewer than `n` bytes are left, and the next
`n` bytes else. -/
def ReadFull (r : Reader) (n : Nat) : Outcome (List Byte × Reader) :=
  if n = 0 then Outcome.ok ([], r)
  else if r.s.length ≤ r.i then Outcome.error Error.EOF
  else if r.i + n ≤ r.s.length then Outcome.ok ((r.s.drop r.i).take n, ⟨r.s, r.i + n⟩)
  else Outcome.error Error.ErrUnexpectedEOF

/-- Go `binary.LittleEndian.Uint16`. -/
def Uint16 (b : List Byte) : Nat := (b.getD 0 0).val + 256 * (b.getD 1 0).val

/-- Go `binary.LittleEndian.Uint32`. -/
def Uint32 (b : List Byte) : Nat :=
  (b.getD 0 0).val + 256 * (b.getD 1 0).val + 65536 * (b.getD 2 0).val
    + 16777216 * (b.getD 3 0).val

/-- Go `binary.Read(buf, binary.LittleEndian, &h)` for `h header`: 4 bytes. -/
def binaryRead_header (r : Reader) : Outcome (header × Reader) := do
  let (bs, r) ← ReadFull r 4
  pure (⟨(bs.getD 0 0, bs.getD 1 0, bs.getD 2 0), bs.getD 3 0⟩, r)

/-- Go `binary.Read(buf, binary.LittleEndian, &i)` for `i info`: 8 bytes. -/
def binaryRead_info (r : Reader) : Outcome (info × Reader) := do
  let (bs, r) ← ReadFull r 8
  pure (⟨bs.getD 0 0, bs.getD 1 0, Uint16 (bs.drop 2), Uint16 (bs.drop 4),
    Uint16 (bs.drop 6)⟩, r)

/-- Go `binary.Read(buf, binary.LittleEndian, &ofs)` for `ofs offsets` of
length `n`: `4 * n` bytes, each entry `int32(Uint32(...))`. -/
def binaryRead_offsets (r : Reader) (n : Nat) : Outcome (offsets × Reader) := do
  let (bs, r) ← ReadFull r (4 * n)
  pure ((List.range n).map (fun k => int32 (Uint32 (bs.drop (4 * k)))), r)

/-- Go `binary.Read(buf, binary.LittleEndian, &data)` for `data []byte` of
length `n`. -/
def binaryRead_bytes (r : Reader) (n : Nat) : Outcome (List Byte × Reader) := do
  let (bs, r) ← ReadFull r n
  pure (bs, r)

/-- Lines 128 to 178 of `ReadIWI`: the header, the metadata block and the
offset table are read, with the seeks the version asks for; the result is the
header, the info, the table, the position after the table (`curr`) and the
reader. -/
def readTable (f : List Byte) : Outcome (header × info × offsets × Int × Reader) := do
  let buf := NewReader f
  let (h, buf) ← binaryRead_header buf
  if !h.isSupported then
    Outcome.error (Error.unsupported h)
  else do
    let buf ←
      (if h.Version = IWI_VERSION_CODMW2 ∨ h.Version = IWI_VERSION_CODMW3 then do
        let (_, b) ← buf.Seek 0x8 Whence.SeekStart
        pure b
      else pure buf)
    let (i, buf) ← binaryRead_info buf
    let (n, buf) ←
      (if h.Version = IWI_VERSION_CODBO1 ∨ h.Version = IWI_VERSION_CODBO2 then do
        let (_, b) ← buf.Seek 0x10 Whence.SeekStart
        if h.Version = IWI_VERSION_CODBO2 then do
          let (_, b) ← b.Seek 0x20 Whence.SeekStart
          pure (8, b)
        else pure (8, b)
      else pure (4, buf))
    let (ofs, buf) ← binaryRead_offsets buf n
    let (curr, buf) ← buf.Seek 0 Whence.SeekCurrent
    pure (h, i, ofs, curr, buf)

/-- Lines 179 and 180 of `ReadIWI`:
`mms := ofs.mipMaps(int32(curr), int32(buf.Size())); sort.Sort(sort.Reverse(mms))`.
Go's `sort.Sort` is library code; it is the parameter `sortSort`, which
receives the `Less` it has to sort by. -/
def sortedMips (sortSort : (mipmap → mipmap → Bool) → mipmaps → mipmaps)
    (ofs : offsets) (curr : Int) (buf : Reader) : mipmaps :=
  sortSort (sortReverse mipmaps.Less) (offsets.mipMaps ofs (int32 curr) (int32 buf.Size))

/-- Go `func ReadIWI(file string) (*IWI, error)` on the contents `f` of the
file (`ioutil.ReadFile` has succeeded). Indexing `mms[0]` of an empty slice
and `make([]byte, n)` with a negative `n` are run-time panics. -/
def ReadIWI (sortSort : (mipmap → mipmap → Bool) → mipmaps → mipmaps)
    (f : List Byte) : Outcome IWI := do
  let (h, i, ofs, curr, buf) ← readTable f
  match sortedMips sortSort ofs curr buf with
  | [] => Outcome.panic
  | mm :: _ => do
    let (_, buf) ← buf.Seek mm.offset Whence.SeekStart
    if mm.size < 0 then
      Outcome.panic
    else do
      let (data, _) ← binaryRead_bytes buf mm.size.toNat
      pure ⟨h, i, data⟩

/-- The documented contract of Go's `sort.Sort` for the ordering `ReadIWI`
hands it: afterwards the slice holds the same elements, and no later element
is `Less` than an earlier one. Nothing is promised about the order of
elements that compare equal ("The sort is not guaranteed to be stable"). -/
def SortContract (sortSort : (mipmap → mipmap → Bool) → mipmaps → mipmaps) : Prop :=
  ∀ m : mipmaps,
    (sortSort (sortReverse mipmaps.Less) m).Perm m ∧
    (sortSort (sortReverse mipmaps.Less) m).Pairwise
      (fun a b => sortReverse mipmaps.Less b a = false)

/-- Go's `sort.Sort` reaches the elements only through `Len`, `Less` and
`Swap`, so what it does depends on the elements only through the results of
`Less`: renaming the elements by a `g` that leaves every `less` result
unchanged renames the sorted slice in the same way. -/
def SortUniform (sortSort : (mipmap → mipmap → Bool) → mipmaps → mipmaps) : Prop :=
  ∀ (g : mipmap → mipmap) (less : mipmap → mipmap → Bool) (m : mipmaps),
    (∀ a b, less (g a) (g b) = less a b) →
    sortSort less (m.map g) = (sortSort less m).map g

/-- Insertion sort by `less`, one sorter that meets `SortContract`; it keeps
elements that compare equal in their original order. -/
def insertionSort (less : mipmap → mipmap → Bool) (m : mipmaps) : mipmaps :=
  List.insertionSort (fun a b => less b a = false) m

/-- The earliest element of the largest size among `t :: l`, in the words of
the specification ("under a tie, the earliest in original table order"): a
later element replaces the candidate `t` only when its size is larger. -/
def firstLargest : mipmap → mipmaps → mipmap
  | t, [] => t
  | t, x :: xs => firstLargest (if t.size < x.size then x else t) xs


/-! ## Go's sort.Sort

The functions of package `sort` that `sort.Sort` runs since Go 1.19 (pattern-defeating
quicksort), on the slice as a list; `less` is the `Less` of the sorted
interface value. Loops are recursive functions; where a loop is not
structural, `fuel` bounds its rounds and is set above the number of rounds
the loop can take. -/

/-- Go `data.Less(i, j)` for the slice `data` sorted by `less`. -/
def gosort.lessAt (less : mipmap → mipmap → Bool) (data : mipmaps) (i j : Nat) : Bool :=
  less (data.getD i ⟨0, 0⟩) (data.getD j ⟨0, 0⟩)

/-- Go `data.Swap(i, j)`. -/
def gosort.swapAt (data : mipmaps) (i j : Nat) : mipmaps :=
  (data.set i (data.getD j ⟨0, 0⟩)).set j (data.getD i ⟨0, 0⟩)

/-- The inner loop of Go's `insertionSort`,
`for j := i; j > a && data.Less(j, j-1); j-- { data.Swap(j, j-1) }`:
the element `x = data[i]` moves to the left past every element it is `Less`
than. `left` is `data[a:i]` read from right to left, and so is the result,
`data[a:i+1]` after the loop. -/
def gosort.insertLeft (less : mipmap → mipmap → Bool) (x : mipmap) : mipmaps → mipmaps
  | [] => [x]
  | y :: left => if less x y then y :: gosort.insertLeft less x left else x :: y :: left

/-- The outer loop of Go's `insertionSort`, `for i := a + 1; i < b; i++`: `left`
is the part `data[a:i]` already handled, read from right to left, and `right`
is `data[i:b]`. -/
def gosort.insertionLoop (less : mipmap → mipmap → Bool) : mipmaps → mipmaps → mipmaps
  | left, [] => left.reverse
  | left, x :: right => gosort.insertionLoop less (gosort.insertLeft less x left) right

/-- Go `func insertionSort(data Interface, a, b int)`: sorts `data[a:b]`. -/
def gosort.insertionSort (less : mipmap → mipmap → Bool) (data : mipmaps) (a b : Nat) :
    mipmaps :=
  data.take a ++ gosort.insertionLoop less [] ((data.drop a).take (b - a)) ++ data.drop b

/-- Go `func siftDown(data Interface, lo, hi, first int)`; `fuel` bounds the
number of rounds of its loop. -/
def gosort.siftDown (less : mipmap → mipmap → Bool) :
    Nat → mipmaps → Nat → Nat → Nat → mipmaps
  | 0, data, _, _, _ => data
  | fuel + 1, data, root, hi, first =>
    let child := 2 * root + 1
    if child ≥ hi then data
    else
      let child :=
        if child + 1 < hi ∧ gosort.lessAt less data (first + child) (first + child + 1) then
          child + 1
        else child
      if !gosort.lessAt less data (first + root) (first + child) then data
      else gosort.siftDown less fuel (gosort.swapAt data (first + root) (first + child))
        child hi first

/-- Go `func heapSort(data Interface, a, b int)`. -/
def gosort.heapSort (less : mipmap → mipmap → Bool) (data : mipmaps) (a b : Nat) : mipmaps :=
  let first := a
  let lo := 0
  let hi := b - a
  let data := (List.range ((hi - 1) / 2 + 1)).reverse.foldl
    (fun d i => gosort.siftDown less hi d i hi first) data
  (List.range hi).reverse.foldl
    (fun d i => gosort.siftDown less hi (gosort.swapAt d first (first + i)) lo i first) data

/-- Go `type sortedHint int`. -/
inductive gosort.sortedHint where
  | unknownHint
  | increasingHint
  | decreasingHint
deriving DecidableEq

/-- Go `bits.Len`, by halving: `fuel` bounds the number of halvings. -/
def gosort.bitsLenLoop : Nat → Nat → Nat
  | 0, _ => 0
  | fuel + 1, x => if x = 0 then 0 else gosort.bitsLenLoop fuel (x / 2) + 1

/-- Go `bits.Len`: the number of bits needed to write `x`, and 0 for `x = 0`. -/
def gosort.bitsLen (x : Nat) : Nat := gosort.bitsLenLoop x x

/-- Go `func nextPowerOfTwo(length int) uint`. -/
def gosort.nextPowerOfTwo (length : Nat) : Nat := 1 <<< gosort.bitsLen length

/-- Go `func (r *xorshift) Next() uint64` on the 64-bit state `r`, with the
three shift distances as parameters:
`r ^= r << s1; r ^= r >> s2; r ^= r << s3`. -/
def gosort.xorshiftNext (s1 s2 s3 : Nat) (r : Nat) : Nat :=
  let r := r ^^^ ((r <<< s1) % 18446744073709551616)
  let r := r ^^^ (r >>> s2)
  r ^^^ ((r <<< s3) % 18446744073709551616)

/-- Go `func breakPatterns(data Interface, a, b int)`; `next` is the step of
the random source. -/
def gosort.breakPatterns (next : Nat → Nat) (data : mipmaps) (a b : Nat) : mipmaps :=
  let length := b - a
  if length ≥ 8 then
    let modulus := gosort.nextPowerOfTwo length
    let idx := a + (length / 4) * 2 - 1
    let step := fun (d : mipmaps) (i r : Nat) =>
      let other := r &&& (modulus - 1)
      let other := if other ≥ length then other - length else other
      gosort.swapAt d (idx - 1 + i) (a + other)
    let r1 := next length
    let r2 := next r1
    let r3 := next r2
    step (step (step data 0 r1) 1 r2) 2 r3
  else data

/-- Go `func order2(data Interface, a, b int, swaps *int) (int, int)`; the
counter `swaps` is returned as the third component. -/
def gosort.order2 (less : mipmap → mipmap → Bool) (data : mipmaps) (a b swaps : Nat) :
    Nat × Nat × Nat :=
  if gosort.lessAt less data b a then (b, a, swaps + 1) else (a, b, swaps)

/-- Go `func median(data Interface, a, b, c int, swaps *int) int`. -/
def gosort.median (less : mipmap → mipmap → Bool) (data : mipmaps) (a b c swaps : Nat) :
    Nat × Nat :=
  let r1 := gosort.order2 less data a b swaps
  let r2 := gosort.order2 less data r1.2.1 c r1.2.2
  let r3 := gosort.order2 less data r1.1 r2.1 r2.2.2
  (r3.2.1, r3.2.2)

/-- Go `func medianAdjacent(data Interface, a int, swaps *int) int`. -/
def gosort.medianAdjacent (less : mipmap → mipmap → Bool) (data : mipmaps) (a swaps : Nat) :
    Nat × Nat :=
  gosort.median less data (a - 1) a (a + 1) swaps

/-- Go `func choosePivot(data Interface, a, b int) (pivot int, hint sortedHint)`. -/
def gosort.choosePivot (less : mipmap → mipmap → Bool) (data : mipmaps) (a b : Nat) :
    Nat × gosort.sortedHint :=
  let l := b - a
  let i := a + l / 4 * 1
  let j := a + l / 4 * 2
  let k := a + l / 4 * 3
  let r :=
    if l ≥ 8 then
      if l ≥ 50 then
        let mi := gosort.medianAdjacent less data i 0
        let mj := gosort.medianAdjacent less data j mi.2
        let mk := gosort.medianAdjacent less data k mj.2
        gosort.median less data mi.1 mj.1 mk.1 mk.2
      else gosort.median less data i j k 0
    else (j, 0)
  if r.2 = 0 then (r.1, gosort.sortedHint.increasingHint)
  else if r.2 = 4 * 3 then (r.1, gosort.sortedHint.decreasingHint)
  else (r.1, gosort.sortedHint.unknownHint)

/-- Go `func reverseRange(data Interface, a, b int)`. -/
def gosort.reverseRange (data : mipmaps) (a b : Nat) : mipmaps :=
  data.take a ++ ((data.drop a).take (b - a)).reverse ++ data.drop b

/-- In `partialInsertionSort`: `for i < b && !data.Less(i, i-1) { i++ }`. -/
def gosort.skipSorted (less : mipmap → mipmap → Bool) (data : mipmaps) (b : Nat) :
    Nat → Nat → Nat
  | 0, i => i
  | fuel + 1, i =>
    if i < b ∧ !gosort.lessAt less data i (i - 1) then gosort.skipSorted less data b fuel (i + 1)
    else i

/-- In `partialInsertionSort`:
`for j := i - 1; j >= 1; j-- { if !data.Less(j, j-1) { break }; data.Swap(j, j-1) }`,
from `j` on. -/
def gosort.shiftLeft (less : mipmap → mipmap → Bool) : Nat → mipmaps → mipmaps
  | 0, data => data
  | j + 1, data =>
    if !gosort.lessAt less data (j + 1) j then data
    else gosort.shiftLeft less j (gosort.swapAt data (j + 1) j)

/-- In `partialInsertionSort`:
`for j := i + 1; j < b; j++ { if !data.Less(j, j-1) { break }; data.Swap(j, j-1) }`,
from `j` on. -/
def gosort.shiftRight (less : mipmap → mipmap → Bool) (b : Nat) :
    Nat → Nat → mipmaps → mipmaps
  | 0, _, data => data
  | fuel + 1, j, data =>
    if j < b then
      if !gosort.lessAt less data j (j - 1) then data
      else gosort.shiftRight less b fuel (j + 1) (gosort.swapAt data j (j - 1))
    else data

/-- The loop `for j := 0; j < maxSteps; j++` of `partialInsertionSort`, with
`steps` rounds left. -/
def gosort.partialInsertionLoop (less : mipmap → mipmap → Bool) (a b : Nat) :
    Nat → Nat → mipmaps → Bool × mipmaps
  | 0, _, data => (false, data)
  | steps + 1, i, data =>
    let i := gosort.skipSorted less data b b i
    if i = b then (true, data)
    else if b - a < 50 then (false, data)
    else
      let data := gosort.swapAt data i (i - 1)
      let data := if i - a ≥ 2 then gosort.shiftLeft less (i - 1) data else data
      let data := if b - i ≥ 2 then gosort.shiftRight less b b (i + 1) data else data
      gosort.partialInsertionLoop less a b steps i data

/-- Go `func partialInsertionSort(data Interface, a, b int) bool`, with the
slice it leaves. -/
def gosort.partialInsertionSort (less : mipmap → mipmap → Bool) (data : mipmaps) (a b : Nat) :
    Bool × mipmaps :=
  gosort.partialInsertionLoop less a b 5 (a + 1) data

/-- In `partition`: `for i <= j && data.Less(i, a) { i++ }`. -/
def gosort.scanUp (less : mipmap → mipmap → Bool) (data : mipmaps) (a j : Nat) :
    Nat → Nat → Nat
  | 0, i => i
  | fuel + 1, i =>
    if i ≤ j ∧ gosort.lessAt less data i a then gosort.scanUp less data a j fuel (i + 1) else i

/-- In `partition`: `for i <= j && !data.Less(j, a) { j-- }`. -/
def gosort.scanDown (less : mipmap → mipmap → Bool) (data : mipmaps) (a i : Nat) :
    Nat → Nat → Nat
  | 0, j => j
  | fuel + 1, j =>
    if i ≤ j ∧ !gosort.lessAt less data j a then gosort.scanDown less data a i fuel (j - 1)
    else j

/-- The second loop of `partition`: scan, stop when `i > j`, else swap and go
on; the result is the slice and `j`. -/
def gosort.partitionLoop (less : mipmap → mipmap → Bool) (a b : Nat) :
    Nat → mipmaps → Nat → Nat → mipmaps × Nat
  | 0, data, _, j => (data, j)
  | fuel + 1, data, i, j =>
    let i := gosort.scanUp less data a j b i
    let j := gosort.scanDown less data a i b j
    if i > j then (data, j)
    else gosort.partitionLoop less a b fuel (gosort.swapAt data i j) (i + 1) (j - 1)

/-- Go `func partition(data Interface, a, b, pivot int) (newpivot int,
alreadyPartitioned bool)`, with the slice it leaves. -/
def gosort.partition (less : mipmap → mipmap → Bool) (data : mipmaps) (a b pivot : Nat) :
    mipmaps × Nat × Bool :=
  let data := gosort.swapAt data a pivot
  let i := gosort.scanUp less data a (b - 1) b (a + 1)
  let j := gosort.scanDown less data a i b (b - 1)
  if i > j then (gosort.swapAt data j a, j, true)
  else
    let r := gosort.partitionLoop less a b b (gosort.swapAt data i j) (i + 1) (j - 1)
    (gosort.swapAt r.1 r.2 a, r.2, false)

/-- In `partitionEqual`: `for i <= j && !data.Less(a, i) { i++ }`. -/
def gosort.scanUpEqual (less : mipmap → mipmap → Bool) (data : mipmaps) (a j : Nat) :
    Nat → Nat → Nat
  | 0, i => i
  | fuel + 1, i =>
    if i ≤ j ∧ !gosort.lessAt less data a i then gosort.scanUpEqual less data a j fuel (i + 1)
    else i

/-- In `partitionEqual`: `for i <= j && data.Less(a, j) { j-- }`. -/
def gosort.scanDownEqual (less : mipmap → mipmap → Bool) (data : mipmaps) (a i : Nat) :
    Nat → Nat → Nat
  | 0, j => j
  | fuel + 1, j =>
    if i ≤ j ∧ gosort.lessAt less data a j then gosort.scanDownEqual less data a i fuel (j - 1)
    else j

/-- The loop of `partitionEqual`; the result is the slice and `i`. -/
def gosort.partitionEqualLoop (less : mipmap → mipmap → Bool) (a b : Nat) :
    Nat → mipmaps → Nat → Nat → mipmaps × Nat
  | 0, data, i, _ => (data, i)
  | fuel + 1, data, i, j =>
    let i := gosort.scanUpEqual less data a j b i
    let j := gosort.scanDownEqual less data a i b j
    if i > j then (data, i)
    else gosort.partitionEqualLoop less a b fuel (gosort.swapAt data i j) (i + 1) (j - 1)

/-- Go `func partitionEqual(data Interface, a, b, pivot int) (newpivot int)`,
with the slice it leaves. -/
def gosort.partitionEqual (less : mipmap → mipmap → Bool) (data : mipmaps) (a b pivot : Nat) :
    mipmaps × Nat :=
  gosort.partitionEqualLoop less a b (b + 1) (gosort.swapAt data a pivot) (a + 1) (b - 1)

/-- Go `func pdqsort(data Interface, a, b, limit int)`: one round of its loop
`for { ... }`, with the local variables `wasBalanced` and `wasPartitioned`;
the next round and the recursive call are calls with less `fuel` (every one
works on a shorter part of the slice, so `fuel` above the length never runs
out). -/
def gosort.pdqsort (next : Nat → Nat) (less : mipmap → mipmap → Bool) :
    Nat → mipmaps → Nat → Nat → Nat → Bool → Bool → mipmaps
  | 0, data, _, _, _, _, _ => data
  | fuel + 1, data, a, b, limit, wasBalanced, wasPartitioned =>
    let length := b - a
    if length ≤ 12 then gosort.insertionSort less data a b
    else if limit = 0 then gosort.heapSort less data a b
    else
      let data := if !wasBalanced then gosort.breakPatterns next data a b else data
      let limit := if !wasBalanced then limit - 1 else limit
      let ph := gosort.choosePivot less data a b
      let reversed := decide (ph.2 = gosort.sortedHint.decreasingHint)
      let data := if reversed then gosort.reverseRange data a b else data
      let pivot := if reversed then (b - 1) - (ph.1 - a) else ph.1
      let hint := if reversed then gosort.sortedHint.increasingHint else ph.2
      let tried :=
        if wasBalanced ∧ wasPartitioned ∧ hint = gosort.sortedHint.increasingHint then
          gosort.partialInsertionSort less data a b
        else (false, data)
      if tried.1 then tried.2
      else
        let data := tried.2
        if 0 < a ∧ !gosort.lessAt less data (a - 1) pivot then
          let pe := gosort.partitionEqual less data a b pivot
          gosort.pdqsort next less fuel pe.1 pe.2 b limit wasBalanced wasPartitioned
        else
          let pt := gosort.partition less data a b pivot
          let mid := pt.2.1
          let leftLen := mid - a
          let rightLen := b - mid
          let balanceThreshold := length / 8
          if leftLen < rightLen then
            gosort.pdqsort next less fuel
              (gosort.pdqsort next less fuel pt.1 a mid limit true true)
              (mid + 1) b limit (decide (leftLen ≥ balanceThreshold)) pt.2.2
          else
            gosort.pdqsort next less fuel
              (gosort.pdqsort next less fuel pt.1 (mid + 1) b limit true true)
              a mid limit (decide (rightLen ≥ balanceThreshold)) pt.2.2

/-- Go `func Sort(data Interface)` of package `sort` (Go 1.19 and later). -/
def gosort.sortSort (next : Nat → Nat) (less : mipmap → mipmap → Bool) (data : mipmaps) :
    mipmaps :=
  let n := data.length
  if n ≤ 1 then data
  else gosort.pdqsort next less (n + 1) data 0 n (gosort.bitsLen n) true true

/-! ## The layout of an input, in the words of the specification -/

/-- The header an input starts with: bytes 0 to 2 are the magic, byte 3 the
version. -/
def headerOf (f : List Byte) : header :=
  ⟨(f.getD 0 0, f.getD 1 0, f.getD 2 0), f.getD 3 0⟩

/-- The little-endian unsigned 16-bit integer at position `p` of `f`. -/
def le16At (f : List Byte) (p : Nat) : Nat :=
  (f.getD p 0).val + 256 * (f.getD (p + 1) 0).val

/-- The little-endian signed 32-bit integer at position `p` of `f`: the
unsigned value `u` of the four bytes when `u < 2^31`, and `u - 2^32` else. -/
def leInt32At (f : List Byte) (p : Nat) : Int :=
  let u : Nat := (f.getD p 0).val + 256 * (f.getD (p + 1) 0).val
    + 65536 * (f.getD (p + 2) 0).val + 16777216 * (f.getD (p + 3) 0).val
  if u < 2147483648 then (u : Int) else (u : Int) - 4294967296

/-- The metadata record at position `p` of `f`: format, usage, then width,
height and depth. -/
def infoAt (f : List Byte) (p : Nat) : info :=
  ⟨f.getD p 0, f.getD (p + 1) 0, le16At f (p + 2), le16At f (p + 4), le16At f (p + 6)⟩

/-- The table of `n` little-endian signed 32-bit integers at position `t` of
`f`. -/
def tableAt (f : List Byte) (t n : Nat) : offsets :=
  (List.range n).map (fun k => leInt32At f (t + 4 * k))

/-- Position of the metadata block: 8 for version 0x08, else 4. -/
def metaPos (v : Byte) : Nat := if v = 0x08 then 8 else 4

/-- Number of entries of the offset table: 8 for versions 0x0D and 0x1B, else 4. -/
def tableLen (v : Byte) : Nat := if v = 0x0D ∨ v = 0x1B then 8 else 4

/-- Position of the offset table: 12 for versions 0x05 and 0x06, 16 for 0x08,
0x10 for 0x0D and 0x20 for 0x1B. -/
def tablePos (v : Byte) : Nat :=
  if v = 0x08 then 16 else if v = 0x0D then 0x10 else if v = 0x1B then 0x20 else 12

/-- The bytes of `f` from position `a` up to, not including, position `b`. -/
def region (f : List Byte) (a b : Nat) : List Byte := (f.drop a).take (b - a)

/-! ## Concrete inputs -/

/-- A version-0x05 input with three mips of 64, 256 and 1024 bytes behind the
offset table: the table is 348, 92, 28, 28, so the regions are `[348, 1372)`
(1024 bytes of 0xCC), `[92, 348)` (256 bytes of 0xBB), `[28, 92)` (64 bytes of
0xAA) and the empty `[28, 28)`. The metadata is format 0x0B, usage 0, width
64, height 32, depth 1. -/
def cod2Input : List Byte :=
  [73, 87, 105, 0x05,
   0x0B, 0, 64, 0, 32, 0, 1, 0,
   92, 1, 0, 0,  92, 0, 0, 0,  28, 0, 0, 0,  28, 0, 0, 0]
  ++ List.replicate 64 0xAA ++ List.replicate 256 0xBB ++ List.replicate 1024 0xCC

/-- A version-0x08 input of 40 bytes: the metadata record starts at byte 8
(format 0xEE, usage 2, width 0x0201, height 0x0403, depth 0x0605), the table
36, 32, 32, 32 at byte 16, and 8 payload bytes follow. -/
def mw2Input : List Byte :=
  [73, 87, 105, 0x08,
   9, 9, 9, 9,
   0xEE, 2, 1, 2, 3, 4, 5, 6,
   36, 0, 0, 0,  32, 0, 0, 0,  32, 0, 0, 0,  32, 0, 0, 0,
   1, 2, 3, 4, 5, 6, 7, 8]

/-- An input whose magic is "IWI" instead of "IWi". -/
def badMagicInput : List Byte :=
  [73, 87, 73, 0x05,
   0, 0, 0, 0, 0, 0, 0, 0,
   28, 0, 0, 0,  28, 0, 0, 0,  28, 0, 0, 0,  28, 0, 0, 0]

/-- An input of exactly 2^31 bytes: a version-0x05 header followed by zero
bytes. -/
def hugeInput : List Byte :=
  [73, 87, 105, 0x05] ++ List.replicate 2147483644 0

/-- A version-0x05 input of 28 bytes whose table is 29, 30, 31, 27: with
`tableEnd = fileEnd = 28` the four derived sizes are 28 - 29, 29 - 30, 30 - 31
and 27 - 28, all -1. -/
def negSizesInput : List Byte :=
  [73, 87, 105, 0x05,
   0, 0, 0, 0, 0, 0, 0, 0,
   29, 0, 0, 0,  30, 0, 0, 0,  31, 0, 0, 0,  27, 0, 0, 0]

/-- A version-0x05 input of 38 bytes whose table is 33, 28, 28, 28: the derived
entries are (33, 5), (28, 5), (28, 0), (28, 0), so the first two share the
largest size 5. The payload is the bytes 1 to 10. -/
def posTieInput : List Byte :=
  [73, 87, 105, 0x05,
   0, 0, 0, 0, 0, 0, 0, 0,
   33, 0, 0, 0,  28, 0, 0, 0,  28, 0, 0, 0,  28, 0, 0, 0,
   1, 2, 3, 4, 5, 6, 7, 8, 9, 10]

/-- A version-0x1B input of 64 bytes (nothing behind the table) whose table is
65, 66, 67, 68, 69, 70, 71, 63: with `tableEnd = fileEnd = 64` all eight
derived sizes are -1. -/
def bo2NegInput : List Byte :=
  [73, 87, 105, 0x1B,
   1, 0, 4, 0, 4, 0, 1, 0] ++ List.replicate 20 0 ++
  [65, 0, 0, 0,  66, 0, 0, 0,  67, 0, 0, 0,  68, 0, 0, 0,
   69, 0, 0, 0,  70, 0, 0, 0,  71, 0, 0, 0,  63, 0, 0, 0]

/-- A version-0x05 input of 38 bytes whose table is 38, 38, 38, 38: the derived
entries are (38, 0), (38, 0), (38, 0) and (28, 10), so the largest one is the
last, the 10 payload bytes 1 to 10 at offset 28. -/
def fullInput : List Byte :=
  [73, 87, 105, 0x05,
   0, 0, 0, 0, 0, 0, 0, 0,
   38, 0, 0, 0,  38, 0, 0, 0,  38, 0, 0, 0,  38, 0, 0, 0,
   1, 2, 3, 4, 5, 6, 7, 8, 9, 10]

/-- The input `fullInput` cut after 34 bytes: by its table the last entry
`[28, 38)` still has 10 bytes, of which only 6 are there. -/
def truncatedInput : List Byte := fullInput.take 34

/-- The version-0x08 counterpart of `posTieInput`: version byte 0x08, the gap
bytes 9, 9, 9, 9 behind the header, the same metadata, the table 37, 32, 32, 32
(each offset of `posTieInput` plus 4) and the same payload. -/
def posTieInputMW2 : List Byte :=
  [73, 87, 105, 0x08,
   9, 9, 9, 9,
   0, 0, 0, 0, 0, 0, 0, 0,
   37, 0, 0, 0,  32, 0, 0, 0,  32, 0, 0, 0,  32, 0, 0, 0,
   1, 2, 3, 4, 5, 6, 7, 8, 9, 10]

/-- A version-0x1B input of 72 bytes with the gap bytes `g` at positions 0x0C
to 0x1F (20 bytes are used): metadata at 4, the table 64, 64, 64, 64, 64, 64,
64, 64 at 0x20, and the payload 1 to 8. -/
def bo2Input (g : Byte) : List Byte :=
  [73, 87, 105, 0x1B,
   0x0D, 0, 8, 0, 8, 0, 1, 0] ++ List.replicate 20 g ++
  [64, 0, 0, 0,  64, 0, 0, 0,  64, 0, 0, 0,  64, 0, 0, 0,
   64, 0, 0, 0,  64, 0, 0, 0,  64, 0, 0, 0,  64, 0, 0, 0,
   1, 2, 3, 4, 5, 6, 7, 8]

/-- A version-0x0D input of 60 bytes whose table is 56, 56, 56, 56, 52, 52, 48,
48: with `tableEnd = 48` and `fileEnd = 60` the derived entries are (56, 4),
(56, 0), (56, 0), (56, 0), (52, 4), (52, 0), (48, 4), (48, 0), so three entries
share the largest size 4 and the earliest of them is (56, 4). The payload is
the bytes 1 to 12. -/
def bo1TieInput : List Byte :=
  [73, 87, 105, 0x0D,
   0x0B, 0, 4, 0, 4, 0, 1, 0,
   0, 0, 0, 0,
   56, 0, 0, 0,  56, 0, 0, 0,  56, 0, 0, 0,  56, 0, 0, 0,
   52, 0, 0, 0,  52, 0, 0, 0,  48, 0, 0, 0,  48, 0, 0, 0,
   1, 2, 3, 4, 5, 6, 7, 8, 9, 10, 11, 12]

/-- A version-0x0D input of 48 bytes (nothing behind the table) whose table is
100, 101, 102, 103, 103, 104, 104, 47: with `tableEnd = fileEnd = 48` the
derived entries are (100, -52), (101, -1), (102, -1), (103, -1), (103, 0),
(104, -1), (104, 0), (48, -1), so the largest size, 0, is shared by the
zero-valued slots and by the derived entries at the offsets 103 and 104, which
lie behind the end of the input. -/
def bo1PastEndInput : List Byte :=
  [73, 87, 105, 0x0D,
   0x0B, 0, 4, 0, 4, 0, 1, 0,
   0, 0, 0, 0,
   100, 0, 0, 0,  101, 0, 0, 0,  102, 0, 0, 0,  103, 0, 0, 0,
   103, 0, 0, 0,  104, 0, 0, 0,  104, 0, 0, 0,  47, 0, 0, 0]

end iwi

namespace iwi

/-! ## The mipmap table -/

theorem foldl_append_singleton {α β : Type} (g : β → α) (l : List β) (init : List α) :
    l.foldl (fun m i => m ++ [g i]) init = init ++ l.map g := by
  induction l generalizing init with
  | nil => simp
  | cons b l ih => simp [ih]

/-- The entry the loop of `mipMaps` appends for table index `i`. -/
theorem mipMaps_eq (o : offsets) (first size : Int) :
    offsets.mipMaps o first size =
      List.replicate o.length (⟨0, 0⟩ : mipmap) ++
        (List.range o.length).map (fun i =>
          if i = 0 then (⟨o.getD i 0, int32 (size - o.getD i 0)⟩ : mipmap)
          else if i = o.length - 1 then ⟨first, int32 (o.getD i 0 - first)⟩
          else ⟨o.getD i 0, int32 (o.getD (i - 1) 0 - o.getD i 0)⟩) := by
  unfold offsets.mipMaps
  rw [← foldl_append_singleton]
  congr 1
  funext m i
  split
  · rfl
  · split <;> rfl

theorem int32_of_range (x : Int) (h1 : -2147483648 ≤ x) (h2 : x < 2147483648) :
    int32 x = x := by
  unfold int32
  omega

theorem int32_range (x : Int) : -2147483648 ≤ int32 x ∧ int32 x < 2147483648 := by
  unfold int32
  omega

/-- C3: a header is supported exactly when its magic is the three bytes
'I', 'W', 'i' (73, 87, 105) and its version is one of 0x05, 0x06, 0x08, 0x0D,
0x1B. -/
theorem isSupported_iff (h : header) :
    h.isSupported = true ↔
      (h.Magic.1 = 73 ∧ h.Magic.2.1 = 87 ∧ h.Magic.2.2 = 105) ∧
      (h.Version = 0x05 ∨ h.Version = 0x06 ∨ h.Version = 0x08 ∨ h.Version = 0x0D ∨
        h.Version = 0x1B) := by
  unfold header.isSupported
  by_cases hm : h.Magic.1 = 73 ∧ h.Magic.2.1 = 87 ∧ h.Magic.2.2 = 105
  · obtain ⟨h1, h2, h3⟩ := hm
    simp [h1, h2, h3, supportedIWiVersions, IWI_VERSION_COD2, IWI_VERSION_COD4,
      IWI_VERSION_COD5, IWI_VERSION_CODMW2, IWI_VERSION_CODMW3, IWI_VERSION_CODBO1,
      IWI_VERSION_CODBO2]
    generalize h.Version = v
    constructor <;> intro hv <;> rcases hv with hv | hv | hv | hv | hv <;> subst hv <;> decide
  · have : (h.Magic.1 == 73 && h.Magic.2.1 == 87 && h.Magic.2.2 == 105) = false := by
      simpa [and_assoc] using hm
    simp [this, hm]

/-- C6: for a table of `N ≥ 2` entries the result of `mipMaps` is its `N`
zero-valued slots followed by the derived entries `d`, one per table index and
in table order: `d[0]` has offset `o[0]` and size `fileEnd - o[0]`, `d[N-1]`
has offset `tableEnd` and size `o[N-1] - tableEnd`, and every other `d[i]` has
offset `o[i]` and size `o[i-1] - o[i]` (in `int32` arithmetic). -/
theorem mipMaps_entries (o : offsets) (tableEnd fileEnd : Int) (hN : 2 ≤ o.length) :
    ∃ d : mipmaps,
      offsets.mipMaps o tableEnd fileEnd = List.replicate o.length ⟨0, 0⟩ ++ d ∧
      d.length = o.length ∧
      d[0]? = some ⟨o.getD 0 0, int32 (fileEnd - o.getD 0 0)⟩ ∧
      d[o.length - 1]? =
        some ⟨tableEnd, int32 (o.getD (o.length - 1) 0 - tableEnd)⟩ ∧
      ∀ i, 0 < i → i < o.length - 1 →
        d[i]? = some ⟨o.getD i 0, int32 (o.getD (i - 1) 0 - o.getD i 0)⟩ := by
  refine ⟨_, mipMaps_eq o tableEnd fileEnd, by simp, ?_, ?_, ?_⟩
  · have h0 : 0 < o.length := by omega
    simp [List.getElem?_map, List.getElem?_range h0]
  · have h1 : o.length - 1 < o.length := by omega
    have h2 : o.length - 1 ≠ 0 := by omega
    simp [List.getElem?_map, List.getElem?_range h1, h2]
  · intro i hi0 hi1
    have h1 : i < o.length := by omega
    have h2 : i ≠ 0 := by omega
    have h3 : i ≠ o.length - 1 := by omega
    simp [List.getElem?_map, List.getElem?_range h1, h2, h3]

/-- Witness of C6: the table 100, 80, 60, 40 with `tableEnd = 28` and
`fileEnd = 120`. -/
theorem mipMaps_entries_witness :
    2 ≤ ([100, 80, 60, 40] : offsets).length ∧
    ∃ d : mipmaps,
      offsets.mipMaps [100, 80, 60, 40] 28 120 = List.replicate 4 ⟨0, 0⟩ ++ d ∧
      d.length = 4 ∧
      d[0]? = some ⟨100, int32 (120 - 100)⟩ ∧
      d[3]? = some ⟨28, int32 (40 - 28)⟩ ∧
      ∀ i, 0 < i → i < 3 →
        d[i]? = some ⟨([100, 80, 60, 40] : offsets).getD i 0,
          int32 (([100, 80, 60, 40] : offsets).getD (i - 1) 0
            - ([100, 80, 60, 40] : offsets).getD i 0)⟩ :=
  ⟨by decide, mipMaps_entries [100, 80, 60, 40] 28 120 (by decide)⟩

/-- C7: `mipMaps` returns `2 * N` entries for a table of `N` entries, not `N`:
the `N` zero-valued slots of `make(mipmaps, len(o))` stay in front of the `N`
appended ones. -/
theorem mipMaps_length (o : offsets) (first size : Int) :
    (offsets.mipMaps o first size).length = 2 * o.length := by
  rw [mipMaps_eq]
  simp
  omega

theorem getD_mem_of_lt (o : List Int) (i : Nat) (h : i < o.length) : o.getD i 0 ∈ o := by
  rw [List.getD_eq_getElem o 0 h]
  exact List.getElem_mem h

theorem sum_range_split (h : Nat → Int) (n : Nat) :
    ((List.range (n + 2)).map h).sum =
      h 0 + ((List.range n).map (fun i => h (i + 1))).sum + h (n + 1) := by
  rw [List.range_succ_eq_map, List.range_succ]
  simp [List.map_append, List.sum_append, Function.comp_def]
  omega

theorem sum_telescope (o : List Int) (n : Nat) :
    ((List.range n).map (fun i => o.getD i 0 - o.getD (i + 1) 0)).sum =
      o.getD 0 0 - o.getD n 0 := by
  induction n with
  | zero => simp
  | succ n ih =>
    rw [List.range_succ, List.map_append, List.sum_append, ih]
    simp

/-- The sizes of the derived entries, without the wrap of `int32`, when every
table entry lies between a non-negative `tableEnd` and an `int32` `fileEnd`. -/
theorem derived_size_sum (o : offsets) (tableEnd fileEnd : Int) (n : Nat)
    (hn : o.length = n + 2) (h0 : 0 ≤ tableEnd) (hE : fileEnd < 2147483648)
    (hb : ∀ x ∈ o, tableEnd ≤ x ∧ x ≤ fileEnd) :
    (((List.range o.length).map (fun i =>
          if i = 0 then (⟨o.getD i 0, int32 (fileEnd - o.getD i 0)⟩ : mipmap)
          else if i = o.length - 1 then ⟨tableEnd, int32 (o.getD i 0 - tableEnd)⟩
          else ⟨o.getD i 0, int32 (o.getD (i - 1) 0 - o.getD i 0)⟩)).map
        mipmap.size).sum =
      fileEnd - tableEnd - (o.getD n 0 - o.getD (n + 1) 0) := by
  have hb' : ∀ i, i < n + 2 → tableEnd ≤ o.getD i 0 ∧ o.getD i 0 ≤ fileEnd :=
    fun i hi => hb _ (getD_mem_of_lt o i (by omega))
  rw [List.map_map, hn, sum_range_split]
  have hmid : (List.range n).map (fun i =>
        ((mipmap.size ∘ fun i =>
          if i = 0 then (⟨o.getD i 0, int32 (fileEnd - o.getD i 0)⟩ : mipmap)
          else if i = n + 2 - 1 then ⟨tableEnd, int32 (o.getD i 0 - tableEnd)⟩
          else ⟨o.getD i 0, int32 (o.getD (i - 1) 0 - o.getD i 0)⟩) (i + 1))) =
      (List.range n).map (fun i => o.getD i 0 - o.getD (i + 1) 0) := by
    apply List.map_congr_left
    intro i hi
    have hi' : i < n := List.mem_range.mp hi
    have h1 : i + 1 ≠ n + 2 - 1 := by omega
    have b1 := hb' i (by omega)
    have b2 := hb' (i + 1) (by omega)
    simp only [Function.comp, Nat.add_one_ne_zero, if_false, h1, Nat.add_sub_cancel]
    exact int32_of_range _ (by omega) (by omega)
  rw [hmid, sum_telescope]
  have b0 := hb' 0 (by omega)
  have bl := hb' (n + 1) (by omega)
  have e0 : int32 (fileEnd - o.getD 0 0) = fileEnd - o.getD 0 0 :=
    int32_of_range _ (by omega) (by omega)
  have el : int32 (o.getD (n + 1) 0 - tableEnd) = o.getD (n + 1) 0 - tableEnd :=
    int32_of_range _ (by omega) (by omega)
  have hl : n + 2 - 1 = n + 1 := by omega
  simp only [Function.comp, hl, if_true, Nat.add_one_ne_zero, if_false, e0, el]
  omega

/-- C8, as amended: for a table of `N ≥ 2` non-increasing entries that all lie
in `[tableEnd, fileEnd]` (with `tableEnd ≥ 0` and `fileEnd` an `int32`), the
sizes `mipMaps` reports sum to `fileEnd - tableEnd` minus the gap
`o[N-2] - o[N-1] ≥ 0` between the last two table entries, over the whole
result as well as over its `N` derived entries; the region between the last
two offsets is counted by no entry. -/
theorem mipMaps_size_sum (o : offsets) (tableEnd fileEnd : Int) (hN : 2 ≤ o.length)
    (h0 : 0 ≤ tableEnd) (hE : fileEnd < 2147483648)
    (hmono : ∀ i, i + 1 < o.length → o.getD (i + 1) 0 ≤ o.getD i 0)
    (hb : ∀ x ∈ o, tableEnd ≤ x ∧ x ≤ fileEnd) :
    ((offsets.mipMaps o tableEnd fileEnd).map mipmap.size).sum =
        fileEnd - tableEnd - (o.getD (o.length - 2) 0 - o.getD (o.length - 1) 0) ∧
    (((offsets.mipMaps o tableEnd fileEnd).drop o.length).map mipmap.size).sum =
        fileEnd - tableEnd - (o.getD (o.length - 2) 0 - o.getD (o.length - 1) 0) ∧
    0 ≤ o.getD (o.length - 2) 0 - o.getD (o.length - 1) 0 := by
  obtain ⟨n, hn⟩ : ∃ n, o.length = n + 2 := ⟨o.length - 2, by omega⟩
  have hd := derived_size_sum o tableEnd fileEnd n hn h0 hE hb
  have e1 : o.length - 2 = n := by omega
  have e2 : o.length - 1 = n + 1 := by omega
  have hm := hmono n (by omega)
  rw [mipMaps_eq, e1]
  refine ⟨?_, ?_, ?_⟩
  · rw [List.map_append, List.sum_append, hd, e2]
    simp
  · rw [List.drop_left' (by simp), hd, e2]
  · rw [e2]
    omega

/-- Witness of C8 as amended: the table 100, 80, 60, 40 with `tableEnd = 28`
and `fileEnd = 120`; the sizes 20, 20, 20, 12 sum to 72 = 92 - 20. -/
theorem mipMaps_size_sum_witness :
    ((offsets.mipMaps [100, 80, 60, 40] 28 120).map mipmap.size).sum = 120 - 28 - (60 - 40) :=
  (mipMaps_size_sum [100, 80, 60, 40] 28 120 (by decide) (by decide) (by decide)
    (by
      intro i hi
      have hi' : i < 3 := by simp at hi; omega
      interval_cases i <;> decide)
    (by decide)).1

/-- Counterexample to C8 as stated: the table 100, 80, 60, 40 is non-increasing
and lies in `[28, 120]`, yet the reported sizes sum to 72, not to
`fileEnd - tableEnd = 92`. -/
theorem mipMaps_size_sum_counterexample :
    2 ≤ ([100, 80, 60, 40] : offsets).length ∧
    (∀ i, i + 1 < ([100, 80, 60, 40] : offsets).length →
      ([100, 80, 60, 40] : offsets).getD (i + 1) 0 ≤ ([100, 80, 60, 40] : offsets).getD i 0) ∧
    (∀ x ∈ ([100, 80, 60, 40] : offsets), (28 : Int) ≤ x ∧ x ≤ 120) ∧
    ((offsets.mipMaps [100, 80, 60, 40] 28 120).map mipmap.size).sum = 72 ∧
    (((offsets.mipMaps [100, 80, 60, 40] 28 120).drop 4).map mipmap.size).sum = 72 ∧
    (72 : Int) + 4 * 4 ≠ 120 - (28 - 4 * 4) ∧ (72 : Int) ≠ 120 - 28 := by
  refine ⟨by decide, ?_, by decide, by decide, by decide, by decide, by decide⟩
  intro i hi
  have hi' : i < 3 := by simp at hi; omega
  interval_cases i <;> decide

/-! ## The reader -/

theorem ReadFull_ok (r : Reader) (n : Nat) (hn : 0 < n) (h : r.i + n ≤ r.s.length) :
    ReadFull r n = Outcome.ok ((r.s.drop r.i).take n, ⟨r.s, r.i + n⟩) := by
  unfold ReadFull
  have h1 : n ≠ 0 := by omega
  have h2 : ¬ r.s.length ≤ r.i := by omega
  simp [h1, h2, h]

theorem ReadFull_short (r : Reader) (n : Nat) (hn : 0 < n) (h : r.s.length < r.i + n) :
    ∃ e, ReadFull r n = Outcome.error e := by
  unfold ReadFull
  have h1 : n ≠ 0 := by omega
  have h3 : ¬ r.i + n ≤ r.s.length := by omega
  by_cases h2 : r.s.length ≤ r.i
  · exact ⟨Error.EOF, by simp [h1, h2]⟩
  · exact ⟨Error.ErrUnexpectedEOF, by simp [h1, h2, h3]⟩

theorem getD_take_drop (s : List Byte) (i n k : Nat) (hk : k < n) :
    ((s.drop i).take n).getD k 0 = s.getD (i + k) 0 := by
  simp [List.getElem?_take_of_lt hk, List.getElem?_drop]

theorem getD_drop_take_drop (s : List Byte) (i n j k : Nat) (hk : j + k < n) :
    (((s.drop i).take n).drop j).getD k 0 = s.getD (i + j + k) 0 := by
  simp [List.getElem?_take_of_lt hk, List.getElem?_drop, Nat.add_assoc]

theorem int32_Uint32 (s : List Byte) (i n j : Nat) (hj : j + 3 < n) :
    int32 (Uint32 (((s.drop i).take n).drop j)) = leInt32At s (i + j) := by
  unfold Uint32 leInt32At
  have e0 := getD_drop_take_drop s i n j 0 (by omega)
  have e1 := getD_drop_take_drop s i n j 1 (by omega)
  have e2 := getD_drop_take_drop s i n j 2 (by omega)
  have e3 := getD_drop_take_drop s i n j 3 (by omega)
  rw [e0, e1, e2, e3]
  simp only [Nat.add_zero]
  generalize s.getD (i + j) 0 = b0
  generalize s.getD (i + j + 1) 0 = b1
  generalize s.getD (i + j + 2) 0 = b2
  generalize s.getD (i + j + 3) 0 = b3
  have := b0.isLt
  have := b1.isLt
  have := b2.isLt
  have := b3.isLt
  unfold int32
  split <;> omega

theorem binaryRead_header_ok (f : List Byte) (h : 4 ≤ f.length) :
    binaryRead_header (NewReader f) = Outcome.ok (headerOf f, ⟨f, 4⟩) := by
  unfold binaryRead_header
  rw [ReadFull_ok _ 4 (by omega) (by simpa [NewReader] using h)]
  have e0 := getD_take_drop f 0 4 0 (by omega)
  have e1 := getD_take_drop f 0 4 1 (by omega)
  have e2 := getD_take_drop f 0 4 2 (by omega)
  have e3 := getD_take_drop f 0 4 3 (by omega)
  simp only [Nat.zero_add] at e0 e1 e2 e3
  simp only [bind, Outcome.bind, pure, NewReader, headerOf, e0, e1, e2, e3, Nat.zero_add]

theorem binaryRead_header_short (f : List Byte) (h : f.length < 4) :
    ∃ e, binaryRead_header (NewReader f) = Outcome.error e := by
  unfold binaryRead_header
  obtain ⟨e, he⟩ := ReadFull_short (NewReader f) 4 (by omega) (by simpa [NewReader] using h)
  exact ⟨e, by rw [he]; rfl⟩

theorem binaryRead_info_ok (f : List Byte) (p : Nat) (h : p + 8 ≤ f.length) :
    binaryRead_info ⟨f, p⟩ = Outcome.ok (infoAt f p, ⟨f, p + 8⟩) := by
  unfold binaryRead_info
  rw [ReadFull_ok _ 8 (by omega) (by simpa using h)]
  have e0 := getD_take_drop f p 8 0 (by omega)
  have e1 := getD_take_drop f p 8 1 (by omega)
  have e2 := getD_drop_take_drop f p 8 2 0 (by omega)
  have e3 := getD_drop_take_drop f p 8 2 1 (by omega)
  have e4 := getD_drop_take_drop f p 8 4 0 (by omega)
  have e5 := getD_drop_take_drop f p 8 4 1 (by omega)
  have e6 := getD_drop_take_drop f p 8 6 0 (by omega)
  have e7 := getD_drop_take_drop f p 8 6 1 (by omega)
  simp only [Nat.add_zero] at e0 e2 e4 e6
  simp only [bind, Outcome.bind, pure, infoAt, le16At, Uint16, e0, e1, e2, e3, e4, e5, e6, e7,
    Nat.add_assoc]

theorem binaryRead_info_short (f : List Byte) (p : Nat) (h : f.length < p + 8) :
    ∃ e, binaryRead_info ⟨f, p⟩ = Outcome.error e := by
  unfold binaryRead_info
  obtain ⟨e, he⟩ := ReadFull_short ⟨f, p⟩ 8 (by omega) (by simpa using h)
  exact ⟨e, by rw [he]; rfl⟩

theorem binaryRead_offsets_ok (f : List Byte) (t n : Nat) (hn : 0 < n)
    (h : t + 4 * n ≤ f.length) :
    binaryRead_offsets ⟨f, t⟩ n = Outcome.ok (tableAt f t n, ⟨f, t + 4 * n⟩) := by
  unfold binaryRead_offsets
  rw [ReadFull_ok _ (4 * n) (by omega) (by simpa using h)]
  have e : (List.range n).map (fun k => int32 (Uint32 (((f.drop t).take (4 * n)).drop (4 * k))))
      = tableAt f t n := by
    unfold tableAt
    apply List.map_congr_left
    intro k hk
    have hk' : k < n := List.mem_range.mp hk
    exact int32_Uint32 f t (4 * n) (4 * k) (by omega)
  simp only [bind, Outcome.bind, pure, e]

theorem binaryRead_offsets_short (f : List Byte) (t n : Nat) (hn : 0 < n)
    (h : f.length < t + 4 * n) :
    ∃ e, binaryRead_offsets ⟨f, t⟩ n = Outcome.error e := by
  unfold binaryRead_offsets
  obtain ⟨e, he⟩ := ReadFull_short ⟨f, t⟩ (4 * n) (by omega) (by simpa using h)
  exact ⟨e, by rw [he]; rfl⟩

theorem Seek_start (r : Reader) (k : Nat) :
    r.Seek (k : Int) Whence.SeekStart = Outcome.ok ((k : Int), ⟨r.s, k⟩) := by
  unfold Reader.Seek
  have h : ¬ ((k : Int) < 0) := by omega
  simp [h]

theorem Seek_current (r : Reader) :
    r.Seek 0 Whence.SeekCurrent = Outcome.ok ((r.i : Int), r) := by
  unfold Reader.Seek
  have h : ¬ ((r.i : Int) + 0 < 0) := by omega
  simp [h]

theorem Seek_8 (r : Reader) :
    r.Seek 0x8 Whence.SeekStart = Outcome.ok (8, ⟨r.s, 8⟩) := by
  simpa using Seek_start r 8

theorem Seek_16 (r : Reader) :
    r.Seek 0x10 Whence.SeekStart = Outcome.ok (16, ⟨r.s, 16⟩) := by
  simpa using Seek_start r 16

theorem Seek_32 (r : Reader) :
    r.Seek 0x20 Whence.SeekStart = Outcome.ok (32, ⟨r.s, 32⟩) := by
  simpa using Seek_start r 32

theorem supported_version (f : List Byte) (hs : (headerOf f).isSupported = true) :
    f.getD 3 0 = 0x05 ∨ f.getD 3 0 = 0x06 ∨ f.getD 3 0 = 0x08 ∨ f.getD 3 0 = 0x0D ∨
      f.getD 3 0 = 0x1B :=
  ((isSupported_iff (headerOf f)).mp hs).2

/-- Lines 128 to 178 on an input with a supported header that is long enough
for the offset table of its version: all three reads succeed, with the
metadata at `metaPos`, the table of `tableLen` entries at `tablePos`, and the
reader left right behind the table. -/
theorem readTable_ok (f : List Byte) (hs : (headerOf f).isSupported = true)
    (hlen : tablePos (f.getD 3 0) + 4 * tableLen (f.getD 3 0) ≤ f.length) :
    readTable f = Outcome.ok (headerOf f, infoAt f (metaPos (f.getD 3 0)),
      tableAt f (tablePos (f.getD 3 0)) (tableLen (f.getD 3 0)),
      ((tablePos (f.getD 3 0) + 4 * tableLen (f.getD 3 0) : Nat) : Int),
      ⟨f, tablePos (f.getD 3 0) + 4 * tableLen (f.getD 3 0)⟩) := by
  have hV : (headerOf f).Version = f.getD 3 0 := rfl
  unfold readTable
  rcases supported_version f hs with hv | hv | hv | hv | hv <;> rw [hv] at hlen hV ⊢
  · have hl : 28 ≤ f.length := by simpa [tablePos, tableLen] using hlen
    simp [binaryRead_header_ok f (by omega), bind, Outcome.bind, pure, hs, hV,
      IWI_VERSION_CODMW2, IWI_VERSION_CODMW3, IWI_VERSION_CODBO1, IWI_VERSION_CODBO2,
      binaryRead_info_ok f 4 (by omega), binaryRead_offsets_ok f 12 4 (by omega) (by omega),
      Seek_current, metaPos, tablePos, tableLen]
  · have hl : 28 ≤ f.length := by simpa [tablePos, tableLen] using hlen
    simp [binaryRead_header_ok f (by omega), bind, Outcome.bind, pure, hs, hV,
      IWI_VERSION_CODMW2, IWI_VERSION_CODMW3, IWI_VERSION_CODBO1, IWI_VERSION_CODBO2,
      binaryRead_info_ok f 4 (by omega), binaryRead_offsets_ok f 12 4 (by omega) (by omega),
      Seek_current, metaPos, tablePos, tableLen]
  · have hl : 32 ≤ f.length := by simpa [tablePos, tableLen] using hlen
    simp [binaryRead_header_ok f (by omega), bind, Outcome.bind, pure, hs, hV,
      IWI_VERSION_CODMW2, IWI_VERSION_CODMW3, IWI_VERSION_CODBO1, IWI_VERSION_CODBO2,
      Seek_8, binaryRead_info_ok f 8 (by omega),
      binaryRead_offsets_ok f 16 4 (by omega) (by omega),
      Seek_current, metaPos, tablePos, tableLen]
  · have hl : 48 ≤ f.length := by simpa [tablePos, tableLen] using hlen
    simp [binaryRead_header_ok f (by omega), bind, Outcome.bind, pure, hs, hV,
      IWI_VERSION_CODMW2, IWI_VERSION_CODMW3, IWI_VERSION_CODBO1, IWI_VERSION_CODBO2,
      Seek_16, binaryRead_info_ok f 4 (by omega),
      binaryRead_offsets_ok f 16 8 (by omega) (by omega),
      Seek_current, metaPos, tablePos, tableLen]
  · have hl : 64 ≤ f.length := by simpa [tablePos, tableLen] using hlen
    simp [binaryRead_header_ok f (by omega), bind, Outcome.bind, pure, hs, hV,
      IWI_VERSION_CODMW2, IWI_VERSION_CODMW3, IWI_VERSION_CODBO1, IWI_VERSION_CODBO2,
      Seek_16, Seek_32, binaryRead_info_ok f 4 (by omega),
      binaryRead_offsets_ok f 32 8 (by omega) (by omega),
      Seek_current, metaPos, tablePos, tableLen]

/-- Lines 128 to 178 end with an error when the input is shorter than 4
bytes, when its header is not supported, or when it is too short for the
offset table of its version. -/
theorem readTable_error (f : List Byte)
    (h : f.length < 4 ∨ (headerOf f).isSupported = false ∨
      f.length < tablePos (f.getD 3 0) + 4 * tableLen (f.getD 3 0)) :
    ∃ e, readTable f = Outcome.error e := by
  by_cases h4 : f.length < 4
  · obtain ⟨e, he⟩ := binaryRead_header_short f h4
    exact ⟨e, by unfold readTable; simp [he, bind, Outcome.bind]⟩
  by_cases hs : (headerOf f).isSupported = true
  swap
  · refine ⟨Error.unsupported (headerOf f), ?_⟩
    unfold readTable
    simp [binaryRead_header_ok f (by omega), bind, Outcome.bind, hs]
  have hlen : f.length < tablePos (f.getD 3 0) + 4 * tableLen (f.getD 3 0) := by
    rcases h with h | h | h
    · omega
    · rw [hs] at h; cases h
    · exact h
  have hV : (headerOf f).Version = f.getD 3 0 := rfl
  unfold readTable
  rcases supported_version f hs with hv | hv | hv | hv | hv <;> rw [hv] at hlen hV
  · have hl : f.length < 28 := by simpa [tablePos, tableLen] using hlen
    by_cases h12 : f.length < 12
    · obtain ⟨e, he⟩ := binaryRead_info_short f 4 (by omega)
      exact ⟨e, by simp [binaryRead_header_ok f (by omega), bind, Outcome.bind, pure, hs, hV,
        IWI_VERSION_CODMW2, IWI_VERSION_CODMW3, IWI_VERSION_CODBO1, IWI_VERSION_CODBO2, he]⟩
    · obtain ⟨e, he⟩ := binaryRead_offsets_short f 12 4 (by omega) (by omega)
      exact ⟨e, by simp [binaryRead_header_ok f (by omega), bind, Outcome.bind, pure, hs, hV,
        IWI_VERSION_CODMW2, IWI_VERSION_CODMW3, IWI_VERSION_CODBO1, IWI_VERSION_CODBO2,
        binaryRead_info_ok f 4 (by omega), he]⟩
  · have hl : f.length < 28 := by simpa [tablePos, tableLen] using hlen
    by_cases h12 : f.length < 12
    · obtain ⟨e, he⟩ := binaryRead_info_short f 4 (by omega)
      exact ⟨e, by simp [binaryRead_header_ok f (by omega), bind, Outcome.bind, pure, hs, hV,
        IWI_VERSION_CODMW2, IWI_VERSION_CODMW3, IWI_VERSION_CODBO1, IWI_VERSION_CODBO2, he]⟩
    · obtain ⟨e, he⟩ := binaryRead_offsets_short f 12 4 (by omega) (by omega)
      exact ⟨e, by simp [binaryRead_header_ok f (by omega), bind, Outcome.bind, pure, hs, hV,
        IWI_VERSION_CODMW2, IWI_VERSION_CODMW3, IWI_VERSION_CODBO1, IWI_VERSION_CODBO2,
        binaryRead_info_ok f 4 (by omega), he]⟩
  · have hl : f.length < 32 := by simpa [tablePos, tableLen] using hlen
    by_cases h12 : f.length < 16
    · obtain ⟨e, he⟩ := binaryRead_info_short f 8 (by omega)
      exact ⟨e, by simp [binaryRead_header_ok f (by omega), bind, Outcome.bind, pure, hs, hV,
        IWI_VERSION_CODMW2, IWI_VERSION_CODMW3, IWI_VERSION_CODBO1, IWI_VERSION_CODBO2,
        Seek_8, he]⟩
    · obtain ⟨e, he⟩ := binaryRead_offsets_short f 16 4 (by omega) (by omega)
      exact ⟨e, by simp [binaryRead_header_ok f (by omega), bind, Outcome.bind, pure, hs, hV,
        IWI_VERSION_CODMW2, IWI_VERSION_CODMW3, IWI_VERSION_CODBO1, IWI_VERSION_CODBO2,
        Seek_8, binaryRead_info_ok f 8 (by omega), he]⟩
  · have hl : f.length < 48 := by simpa [tablePos, tableLen] using hlen
    by_cases h12 : f.length < 12
    · obtain ⟨e, he⟩ := binaryRead_info_short f 4 (by omega)
      exact ⟨e, by simp [binaryRead_header_ok f (by omega), bind, Outcome.bind, pure, hs, hV,
        IWI_VERSION_CODMW2, IWI_VERSION_CODMW3, IWI_VERSION_CODBO1, IWI_VERSION_CODBO2, he]⟩
    · obtain ⟨e, he⟩ := binaryRead_offsets_short f 16 8 (by omega) (by omega)
      exact ⟨e, by simp [binaryRead_header_ok f (by omega), bind, Outcome.bind, pure, hs, hV,
        IWI_VERSION_CODMW2, IWI_VERSION_CODMW3, IWI_VERSION_CODBO1, IWI_VERSION_CODBO2,
        Seek_16, binaryRead_info_ok f 4 (by omega), he]⟩
  · have hl : f.length < 64 := by simpa [tablePos, tableLen] using hlen
    by_cases h12 : f.length < 12
    · obtain ⟨e, he⟩ := binaryRead_info_short f 4 (by omega)
      exact ⟨e, by simp [binaryRead_header_ok f (by omega), bind, Outcome.bind, pure, hs, hV,
        IWI_VERSION_CODMW2, IWI_VERSION_CODMW3, IWI_VERSION_CODBO1, IWI_VERSION_CODBO2, he]⟩
    · obtain ⟨e, he⟩ := binaryRead_offsets_short f 32 8 (by omega) (by omega)
      exact ⟨e, by simp [binaryRead_header_ok f (by omega), bind, Outcome.bind, pure, hs, hV,
        IWI_VERSION_CODMW2, IWI_VERSION_CODMW3, IWI_VERSION_CODBO1, IWI_VERSION_CODBO2,
        Seek_16, Seek_32, binaryRead_info_ok f 4 (by omega), he]⟩


/-- Whatever lines 128 to 178 return is the header, the metadata and the
table found at the positions of the version. -/
theorem readTable_inv (f : List Byte) (x : header × info × offsets × Int × Reader)
    (h : readTable f = Outcome.ok x) :
    (4 ≤ f.length ∧ (headerOf f).isSupported = true ∧
      tablePos (f.getD 3 0) + 4 * tableLen (f.getD 3 0) ≤ f.length) ∧
    x = (headerOf f, infoAt f (metaPos (f.getD 3 0)),
      tableAt f (tablePos (f.getD 3 0)) (tableLen (f.getD 3 0)),
      ((tablePos (f.getD 3 0) + 4 * tableLen (f.getD 3 0) : Nat) : Int),
      ⟨f, tablePos (f.getD 3 0) + 4 * tableLen (f.getD 3 0)⟩) := by
  by_cases hc : f.length < 4 ∨ (headerOf f).isSupported = false ∨
      f.length < tablePos (f.getD 3 0) + 4 * tableLen (f.getD 3 0)
  · obtain ⟨e, he⟩ := readTable_error f hc
    rw [he] at h
    cases h
  · have h4 : 4 ≤ f.length := by omega
    have hs : (headerOf f).isSupported = true := by
      cases hb : (headerOf f).isSupported
      · exact absurd (Or.inr (Or.inl hb)) hc
      · rfl
    have hl : tablePos (f.getD 3 0) + 4 * tableLen (f.getD 3 0) ≤ f.length := by omega
    rw [readTable_ok f hs hl] at h
    exact ⟨⟨h4, hs, hl⟩, (Outcome.ok.inj h).symm⟩

/-- The last lines of `ReadIWI` (181 to 198) once the table is read and
sorted: seek to the offset of the first entry, allocate, read. -/
theorem ReadIWI_step (sortSort : (mipmap → mipmap → Bool) → mipmaps → mipmaps)
    (f : List Byte) (h : header) (i : info) (ofs : offsets) (curr : Int) (buf : Reader)
    (mm : mipmap) (rest : mipmaps)
    (ht : readTable f = Outcome.ok (h, i, ofs, curr, buf))
    (hm : sortedMips sortSort ofs curr buf = mm :: rest) :
    ReadIWI sortSort f =
      if mm.offset < 0 then Outcome.error Error.negativePosition
      else if mm.size < 0 then Outcome.panic
      else (binaryRead_bytes ⟨buf.s, mm.offset.toNat⟩ mm.size.toNat).bind
        (fun d => Outcome.ok ⟨h, i, d.1⟩) := by
  unfold ReadIWI
  simp only [ht, bind, Outcome.bind, hm, Reader.Seek, pure]
  by_cases h1 : mm.offset < 0
  · simp [h1]
  · by_cases h2 : mm.size < 0
    · simp [h1, h2]
    · simp only [h1, h2, if_false]

theorem ReadIWI_nil (sortSort : (mipmap → mipmap → Bool) → mipmaps → mipmaps)
    (f : List Byte) (h : header) (i : info) (ofs : offsets) (curr : Int) (buf : Reader)
    (ht : readTable f = Outcome.ok (h, i, ofs, curr, buf))
    (hm : sortedMips sortSort ofs curr buf = []) :
    ReadIWI sortSort f = Outcome.panic := by
  unfold ReadIWI
  simp only [ht, bind, Outcome.bind, hm]

theorem binaryRead_bytes_eq (r : Reader) (n : Nat) :
    binaryRead_bytes r n = ReadFull r n := by
  unfold binaryRead_bytes
  cases ReadFull r n <;> rfl

/-- A successful `ReadIWI` returns the header and the metadata that lines 128
to 178 have read. -/
theorem ReadIWI_inv (sortSort : (mipmap → mipmap → Bool) → mipmaps → mipmaps)
    (f : List Byte) (r : IWI) (h : ReadIWI sortSort f = Outcome.ok r) :
    (4 ≤ f.length ∧ (headerOf f).isSupported = true ∧
      tablePos (f.getD 3 0) + 4 * tableLen (f.getD 3 0) ≤ f.length) ∧
    r.Header = headerOf f ∧ r.Info = infoAt f (metaPos (f.getD 3 0)) := by
  cases ht : readTable f with
  | error e => simp [ReadIWI, ht, bind, Outcome.bind] at h
  | panic => simp [ReadIWI, ht, bind, Outcome.bind] at h
  | ok x =>
    obtain ⟨hx, rfl⟩ := readTable_inv f x ht
    refine ⟨hx, ?_⟩
    cases hm : sortedMips sortSort (tableAt f (tablePos (f.getD 3 0)) (tableLen (f.getD 3 0)))
        ((tablePos (f.getD 3 0) + 4 * tableLen (f.getD 3 0) : Nat) : Int)
        ⟨f, tablePos (f.getD 3 0) + 4 * tableLen (f.getD 3 0)⟩ with
    | nil =>
      rw [ReadIWI_nil sortSort f _ _ _ _ _ ht hm] at h
      cases h
    | cons mm rest =>
      rw [ReadIWI_step sortSort f _ _ _ _ _ mm rest ht hm] at h
      split at h
      · cases h
      · split at h
        · cases h
        · cases hb : binaryRead_bytes ⟨f, mm.offset.toNat⟩ mm.size.toNat with
          | error e => simp [hb, Outcome.bind] at h
          | panic => simp [hb, Outcome.bind] at h
          | ok d =>
            simp only [hb, Outcome.bind] at h
            have := Outcome.ok.inj h
            subst this
            exact ⟨rfl, rfl⟩

/-! ## Sorting -/

set_option maxRecDepth 100000

theorem sorted_head (sortSort : (mipmap → mipmap → Bool) → mipmaps → mipmaps)
    (hs : SortContract sortSort) (m : mipmaps) (hne : m ≠ []) :
    ∃ mm rest, sortSort (sortReverse mipmaps.Less) m = mm :: rest ∧ mm ∈ m ∧
      ∀ x ∈ m, x.size ≤ mm.size := by
  obtain ⟨hp, hsorted⟩ := hs m
  cases hsm : sortSort (sortReverse mipmaps.Less) m with
  | nil =>
    rw [hsm] at hp
    exact absurd hp.symm.eq_nil hne
  | cons mm rest =>
    rw [hsm] at hp hsorted
    refine ⟨mm, rest, rfl, hp.subset (List.mem_cons_self mm rest), ?_⟩
    intro x hx
    have hx' : x ∈ mm :: rest := hp.symm.subset hx
    rcases List.mem_cons.mp hx' with rfl | hx'
    · exact le_refl _
    · have := List.rel_of_pairwise_cons hsorted hx'
      simp only [sortReverse, mipmaps.Less, decide_eq_false_iff_not] at this
      omega

theorem insertionSort_contract : SortContract insertionSort := by
  intro m
  haveI : IsTotal mipmap (fun a b => sortReverse mipmaps.Less b a = false) :=
    ⟨fun a b => by
      simp only [sortReverse, mipmaps.Less, decide_eq_false_iff_not]
      omega⟩
  haveI : IsTrans mipmap (fun a b => sortReverse mipmaps.Less b a = false) :=
    ⟨fun a b c => by
      simp only [sortReverse, mipmaps.Less, decide_eq_false_iff_not]
      omega⟩
  exact ⟨List.perm_insertionSort _ m, List.sorted_insertionSort _ m⟩

theorem insertionSort_uniform : SortUniform insertionSort := by
  intro g less m hg
  unfold insertionSort
  exact (List.map_insertionSort (fun a b => less b a = false) (fun a b => less b a = false) g m
    (fun a _ b _ => by simp only [hg])).symm

/-! ## Go's sort.Sort on short slices -/

/-- A derived `Less` of `sort.Reverse(mms)`: `Less(x, y)` is `y.size < x.size`. -/
theorem sortReverse_Less (x y : mipmap) :
    sortReverse mipmaps.Less x y = decide (y.size < x.size) := rfl

theorem insertLeft_mem (less : mipmap → mipmap → Bool) (x y : mipmap) (left : mipmaps) :
    y ∈ gosort.insertLeft less x left ↔ y = x ∨ y ∈ left := by
  induction left with
  | nil => simp [gosort.insertLeft]
  | cons z zs ih =>
    unfold gosort.insertLeft
    split
    · simp only [List.mem_cons, ih]
      tauto
    · simp only [List.mem_cons]

theorem insertLeft_ne_nil (less : mipmap → mipmap → Bool) (x : mipmap) (left : mipmaps) :
    gosort.insertLeft less x left ≠ [] := by
  intro h
  have := (insertLeft_mem less x x left).mpr (Or.inl rfl)
  rw [h] at this
  cases this

/-- The inner loop of the insertion sort keeps the rightmost element of the
handled part, one of largest size, unless the new element is larger. -/
theorem insertLeft_getLast (x t : mipmap) (left : mipmaps) (ht : left.getLast? = some t)
    (hmax : ∀ y ∈ left, y.size ≤ t.size) :
    (gosort.insertLeft (sortReverse mipmaps.Less) x left).getLast? =
      some (if t.size < x.size then x else t) := by
  induction left with
  | nil => cases ht
  | cons y ys ih =>
    unfold gosort.insertLeft
    by_cases hxy : y.size < x.size
    · rw [if_pos (by simp [sortReverse_Less, hxy])]
      cases ys with
      | nil =>
        have hty : y = t := by simpa using ht
        subst hty
        simp [gosort.insertLeft, hxy]
      | cons w ws =>
        have ht2 : (w :: ws).getLast? = some t := by
          rw [List.getLast?_cons_cons] at ht
          exact ht
        have h2 := ih ht2 (fun z hz => hmax z (List.mem_cons_of_mem _ hz))
        cases hi : gosort.insertLeft (sortReverse mipmaps.Less) x (w :: ws) with
        | nil => exact absurd hi (insertLeft_ne_nil _ _ _)
        | cons u us =>
          rw [hi] at h2
          rw [List.getLast?_cons_cons]
          exact h2
    · rw [if_neg (by simp [sortReverse_Less, hxy])]
      rw [List.getLast?_cons_cons, ht]
      have := hmax y (List.mem_cons_self _ _)
      rw [if_neg (by omega)]

/-- The insertion sort puts the earliest element of the largest size first. -/
theorem insertionLoop_head (right left : mipmaps) (t : mipmap) (ht : left.getLast? = some t)
    (hmax : ∀ y ∈ left, y.size ≤ t.size) :
    (gosort.insertionLoop (sortReverse mipmaps.Less) left right).head? =
      some (firstLargest t right) := by
  induction right generalizing left t with
  | nil =>
    simp only [gosort.insertionLoop, firstLargest, List.head?_reverse]
    exact ht
  | cons x xs ih =>
    simp only [gosort.insertionLoop, firstLargest]
    apply ih _ _ (insertLeft_getLast x t left ht hmax)
    intro y hy
    rcases (insertLeft_mem _ x y left).mp hy with rfl | hy
    · split <;> omega
    · have := hmax y hy
      split <;> omega

/-- On a slice of at most 12 elements Go's `sort.Sort` is the insertion sort,
whatever the random source: the earliest element of the largest size comes
first. -/
theorem sortSort_head (next : Nat → Nat) (a : mipmap) (m : mipmaps) (h : m.length ≤ 11) :
    (gosort.sortSort next (sortReverse mipmaps.Less) (a :: m)).head? =
      some (firstLargest a m) := by
  unfold gosort.sortSort
  simp only [List.length_cons]
  by_cases h1 : m.length + 1 ≤ 1
  · have hm : m = [] := List.length_eq_zero.mp (by omega)
    subst hm
    simp [firstLargest]
  · rw [if_neg h1]
    unfold gosort.pdqsort
    simp only [Nat.sub_zero]
    rw [if_pos (by omega)]
    unfold gosort.insertionSort
    simp only [Nat.sub_zero, List.take_zero, List.drop_zero, List.nil_append]
    have ht : List.take (m.length + 1) (a :: m) = a :: m :=
      List.take_of_length_le (by simp)
    have hd : List.drop (m.length + 1) (a :: m) = [] :=
      List.drop_of_length_le (by simp)
    rw [ht, hd, List.append_nil]
    simp only [gosort.insertionLoop, gosort.insertLeft]
    exact insertionLoop_head m [a] a rfl (by simp)

/-- Either `firstLargest t l` is `t` and nothing in `l` is larger, or it is the
earliest element of `l` of the largest size, which is larger than `t`. -/
theorem firstLargest_spec (l : mipmaps) (t : mipmap) :
    (firstLargest t l = t ∧ ∀ y ∈ l, y.size ≤ t.size) ∨
    ∃ pre x post, l = pre ++ x :: post ∧ firstLargest t l = x ∧ t.size < x.size ∧
      (∀ y ∈ pre, y.size < x.size) ∧ (∀ y ∈ post, y.size ≤ x.size) := by
  induction l generalizing t with
  | nil => exact Or.inl ⟨rfl, by simp⟩
  | cons x xs ih =>
    unfold firstLargest
    by_cases hx : t.size < x.size
    · rw [if_pos hx]
      rcases ih x with ⟨h1, h2⟩ | ⟨pre, z, post, h1, h2, h3, h4, h5⟩
      · exact Or.inr ⟨[], x, xs, rfl, h1, hx, by simp, h2⟩
      · refine Or.inr ⟨x :: pre, z, post, by rw [h1]; rfl, h2, by omega, ?_, h5⟩
        intro y hy
        rcases List.mem_cons.mp hy with rfl | hy
        · exact h3
        · exact h4 y hy
    · rw [if_neg hx]
      rcases ih t with ⟨h1, h2⟩ | ⟨pre, z, post, h1, h2, h3, h4, h5⟩
      · refine Or.inl ⟨h1, ?_⟩
        intro y hy
        rcases List.mem_cons.mp hy with rfl | hy
        · omega
        · exact h2 y hy
      · refine Or.inr ⟨x :: pre, z, post, by rw [h1]; rfl, h2, h3, ?_, h5⟩
        intro y hy
        rcases List.mem_cons.mp hy with rfl | hy
        · omega
        · exact h4 y hy

theorem firstLargest_replicate (t : mipmap) (k : Nat) (d : mipmaps) :
    firstLargest t (List.replicate k t ++ d) = firstLargest t d := by
  induction k with
  | zero => rfl
  | succ k ih =>
    rw [List.replicate_succ, List.cons_append]
    show firstLargest (if t.size < t.size then t else t) (List.replicate k t ++ d) = _
    rw [if_neg (by omega)]
    exact ih

/-! ## Go's sort.Sort on longer slices: the first element -/

theorem set_head (l : mipmaps) (i : Nat) (x : mipmap) (h : 1 ≤ i) :
    (l.set i x).head? = l.head? := by
  cases l with
  | nil => rfl
  | cons y ys =>
    cases i with
    | zero => omega
    | succ i => rfl

theorem swapAt_head (data : mipmaps) (i j : Nat) (hi : 1 ≤ i) (hj : 1 ≤ j) :
    (gosort.swapAt data i j).head? = data.head? := by
  unfold gosort.swapAt
  rw [set_head _ _ _ hj, set_head _ _ _ hi]

theorem range_head (data mid : mipmaps) (a b : Nat) (h : 1 ≤ a) (hm : data = [] → mid = []) :
    (data.take a ++ mid ++ data.drop b).head? = data.head? := by
  cases data with
  | nil => simp [hm rfl]
  | cons y ys =>
    obtain ⟨k, rfl⟩ : ∃ k, a = k + 1 := ⟨a - 1, by omega⟩
    rfl

theorem insertionSort_head (less : mipmap → mipmap → Bool) (data : mipmaps) (a b : Nat)
    (h : 1 ≤ a) : (gosort.insertionSort less data a b).head? = data.head? := by
  unfold gosort.insertionSort
  apply range_head _ _ _ _ h
  rintro rfl
  simp [gosort.insertionLoop]

theorem reverseRange_head (data : mipmaps) (a b : Nat) (h : 1 ≤ a) :
    (gosort.reverseRange data a b).head? = data.head? := by
  unfold gosort.reverseRange
  apply range_head _ _ _ _ h
  rintro rfl
  simp

theorem siftDown_head (less : mipmap → mipmap → Bool) (fuel : Nat) :
    ∀ (data : mipmaps) (root hi first : Nat), 1 ≤ first →
      (gosort.siftDown less fuel data root hi first).head? = data.head? := by
  induction fuel with
  | zero => intros; rfl
  | succ n ih =>
    intro data root hi first h1
    rw [gosort.siftDown]
    simp only []
    split
    · rfl
    · split <;> split <;> first
        | rfl
        | (rw [ih _ _ _ _ h1, swapAt_head _ _ _ (by omega) (by omega)])

theorem foldl_head (f : mipmaps → Nat → mipmaps) (hf : ∀ d i, (f d i).head? = d.head?)
    (l : List Nat) (d : mipmaps) : (l.foldl f d).head? = d.head? := by
  induction l generalizing d with
  | nil => rfl
  | cons x xs ih => rw [List.foldl_cons, ih, hf]

theorem heapSort_head (less : mipmap → mipmap → Bool) (data : mipmaps) (a b : Nat)
    (h : 1 ≤ a) : (gosort.heapSort less data a b).head? = data.head? := by
  unfold gosort.heapSort
  simp only []
  rw [foldl_head, foldl_head]
  · intro d i
    exact siftDown_head less _ _ _ _ _ h
  · intro d i
    rw [siftDown_head less _ _ _ _ _ h, swapAt_head _ _ _ h (by omega)]

theorem breakPatterns_head (next : Nat → Nat) (data : mipmaps) (a b : Nat) (h : 1 ≤ a) :
    (gosort.breakPatterns next data a b).head? = data.head? := by
  unfold gosort.breakPatterns
  simp only []
  split
  · rw [swapAt_head _ _ _ (by omega) (by omega), swapAt_head _ _ _ (by omega) (by omega),
      swapAt_head _ _ _ (by omega) (by omega)]
  · rfl

theorem scanUp_ge (less : mipmap → mipmap → Bool) (data : mipmaps) (a j : Nat) :
    ∀ fuel i, i ≤ gosort.scanUp less data a j fuel i := by
  intro fuel
  induction fuel with
  | zero => intro i; exact Nat.le_refl _
  | succ n ih =>
    intro i
    rw [gosort.scanUp]
    split
    · exact Nat.le_trans (Nat.le_succ i) (ih (i + 1))
    · exact Nat.le_refl _

theorem scanDown_bounds (less : mipmap → mipmap → Bool) (data : mipmaps) (a i lo : Nat)
    (hi : lo + 1 ≤ i) :
    ∀ fuel j, lo ≤ j → lo ≤ gosort.scanDown less data a i fuel j ∧
      gosort.scanDown less data a i fuel j ≤ j := by
  intro fuel
  induction fuel with
  | zero => intro j hj; exact ⟨hj, Nat.le_refl _⟩
  | succ n ih =>
    intro j hj
    rw [gosort.scanDown]
    split
    · rename_i hc
      have := ih (j - 1) (by omega)
      omega
    · exact ⟨hj, Nat.le_refl _⟩

theorem scanUpEqual_ge (less : mipmap → mipmap → Bool) (data : mipmaps) (a j : Nat) :
    ∀ fuel i, i ≤ gosort.scanUpEqual less data a j fuel i := by
  intro fuel
  induction fuel with
  | zero => intro i; exact Nat.le_refl _
  | succ n ih =>
    intro i
    rw [gosort.scanUpEqual]
    split
    · exact Nat.le_trans (Nat.le_succ i) (ih (i + 1))
    · exact Nat.le_refl _

theorem scanDownEqual_ge (less : mipmap → mipmap → Bool) (data : mipmaps) (a i lo : Nat)
    (hi : lo + 1 ≤ i) :
    ∀ fuel j, lo ≤ j → lo ≤ gosort.scanDownEqual less data a i fuel j := by
  intro fuel
  induction fuel with
  | zero => intro j hj; exact hj
  | succ n ih =>
    intro j hj
    rw [gosort.scanDownEqual]
    split
    · rename_i hc
      exact ih (j - 1) (by omega)
    · exact hj

theorem partitionLoop_spec (less : mipmap → mipmap → Bool) (a b : Nat) (h1 : 1 ≤ a) :
    ∀ (fuel : Nat) (data : mipmaps) (i j : Nat), a + 1 ≤ i → a ≤ j →
      (gosort.partitionLoop less a b fuel data i j).1.head? = data.head? ∧
      a ≤ (gosort.partitionLoop less a b fuel data i j).2 ∧
      (gosort.partitionLoop less a b fuel data i j).2 ≤ j := by
  intro fuel
  induction fuel with
  | zero => intro data i j _ hj; exact ⟨rfl, hj, Nat.le_refl _⟩
  | succ n ih =>
    intro data i j hi hj
    rw [gosort.partitionLoop]
    have hu := scanUp_ge less data a j b i
    have hd := scanDown_bounds less data a (gosort.scanUp less data a j b i) a (by omega) b j hj
    split
    · exact ⟨rfl, hd.1, hd.2⟩
    · rename_i hc
      have h := ih (gosort.swapAt data (gosort.scanUp less data a j b i)
        (gosort.scanDown less data a (gosort.scanUp less data a j b i) b j))
        (gosort.scanUp less data a j b i + 1)
        (gosort.scanDown less data a (gosort.scanUp less data a j b i) b j - 1)
        (by omega) (by omega)
      refine ⟨?_, h.2.1, by omega⟩
      rw [h.1, swapAt_head _ _ _ (by omega) (by omega)]

theorem partition_spec (less : mipmap → mipmap → Bool) (data : mipmaps) (a b pivot : Nat)
    (h1 : 1 ≤ a) (hb : a < b) (hp : 1 ≤ pivot) :
    (gosort.partition less data a b pivot).1.head? = data.head? ∧
    a ≤ (gosort.partition less data a b pivot).2.1 ∧
    (gosort.partition less data a b pivot).2.1 < b := by
  unfold gosort.partition
  simp only []
  have hu := scanUp_ge less (gosort.swapAt data a pivot) a (b - 1) b (a + 1)
  have hd := scanDown_bounds less (gosort.swapAt data a pivot) a
    (gosort.scanUp less (gosort.swapAt data a pivot) a (b - 1) b (a + 1)) a (by omega) b (b - 1)
    (by omega)
  split
  · dsimp only
    refine ⟨?_, hd.1, by omega⟩
    rw [swapAt_head _ _ _ (by omega) h1, swapAt_head _ _ _ h1 hp]
  · rename_i hc
    dsimp only
    have h := partitionLoop_spec less a b h1 b
      (gosort.swapAt (gosort.swapAt data a pivot)
        (gosort.scanUp less (gosort.swapAt data a pivot) a (b - 1) b (a + 1))
        (gosort.scanDown less (gosort.swapAt data a pivot) a
          (gosort.scanUp less (gosort.swapAt data a pivot) a (b - 1) b (a + 1)) b (b - 1)))
      (gosort.scanUp less (gosort.swapAt data a pivot) a (b - 1) b (a + 1) + 1)
      (gosort.scanDown less (gosort.swapAt data a pivot) a
          (gosort.scanUp less (gosort.swapAt data a pivot) a (b - 1) b (a + 1)) b (b - 1) - 1)
      (by omega) (by omega)
    refine ⟨?_, h.2.1, by omega⟩
    rw [swapAt_head _ _ _ (by omega) h1, h.1, swapAt_head _ _ _ (by omega) (by omega),
      swapAt_head _ _ _ h1 hp]

theorem partitionEqualLoop_spec (less : mipmap → mipmap → Bool) (a b : Nat) (h1 : 1 ≤ a) :
    ∀ (fuel : Nat) (data : mipmaps) (i j : Nat), a + 1 ≤ i → a ≤ j →
      (gosort.partitionEqualLoop less a b fuel data i j).1.head? = data.head? ∧
      a + 1 ≤ (gosort.partitionEqualLoop less a b fuel data i j).2 := by
  intro fuel
  induction fuel with
  | zero => intro data i j hi _; exact ⟨rfl, hi⟩
  | succ n ih =>
    intro data i j hi hj
    rw [gosort.partitionEqualLoop]
    have hu := scanUpEqual_ge less data a j b i
    have hd := scanDownEqual_ge less data a (gosort.scanUpEqual less data a j b i) a
      (by omega) b j hj
    split
    · exact ⟨rfl, by omega⟩
    · rename_i hc
      have h := ih (gosort.swapAt data (gosort.scanUpEqual less data a j b i)
        (gosort.scanDownEqual less data a (gosort.scanUpEqual less data a j b i) b j))
        (gosort.scanUpEqual less data a j b i + 1)
        (gosort.scanDownEqual less data a (gosort.scanUpEqual less data a j b i) b j - 1)
        (by omega) (by omega)
      refine ⟨?_, h.2⟩
      rw [h.1, swapAt_head _ _ _ (by omega) (by omega)]

theorem partitionEqual_spec (less : mipmap → mipmap → Bool) (data : mipmaps) (a b pivot : Nat)
    (h1 : 1 ≤ a) (hb : a < b) (hp : 1 ≤ pivot) :
    (gosort.partitionEqual less data a b pivot).1.head? = data.head? ∧
    a + 1 ≤ (gosort.partitionEqual less data a b pivot).2 := by
  unfold gosort.partitionEqual
  have h := partitionEqualLoop_spec less a b h1 (b + 1) (gosort.swapAt data a pivot) (a + 1)
    (b - 1) (Nat.le_refl _) (by omega)
  refine ⟨?_, h.2⟩
  rw [h.1, swapAt_head _ _ _ h1 hp]

theorem order2_cases (less : mipmap → mipmap → Bool) (data : mipmaps) (a b s : Nat) :
    ((gosort.order2 less data a b s).1 = a ∧ (gosort.order2 less data a b s).2.1 = b) ∨
    ((gosort.order2 less data a b s).1 = b ∧ (gosort.order2 less data a b s).2.1 = a) := by
  unfold gosort.order2
  split
  · exact Or.inr ⟨rfl, rfl⟩
  · exact Or.inl ⟨rfl, rfl⟩

theorem median_cases (less : mipmap → mipmap → Bool) (data : mipmaps) (a b c s : Nat) :
    (gosort.median less data a b c s).1 = a ∨ (gosort.median less data a b c s).1 = b ∨
    (gosort.median less data a b c s).1 = c := by
  unfold gosort.median
  dsimp only
  have e1 := order2_cases less data a b s
  have e2 := order2_cases less data (gosort.order2 less data a b s).2.1 c
    (gosort.order2 less data a b s).2.2
  have e3 := order2_cases less data (gosort.order2 less data a b s).1
    (gosort.order2 less data (gosort.order2 less data a b s).2.1 c
      (gosort.order2 less data a b s).2.2).1
    (gosort.order2 less data (gosort.order2 less data a b s).2.1 c
      (gosort.order2 less data a b s).2.2).2.2
  omega

theorem choosePivot_bounds (less : mipmap → mipmap → Bool) (data : mipmaps) (a b : Nat)
    (hb : a < b) (h50 : b - a < 50) :
    a ≤ (gosort.choosePivot less data a b).1 ∧ (gosort.choosePivot less data a b).1 < b := by
  unfold gosort.choosePivot
  simp only []
  rw [if_neg (show ¬ b - a ≥ 50 by omega)]
  have hm := median_cases less data (a + (b - a) / 4 * 1) (a + (b - a) / 4 * 2)
    (a + (b - a) / 4 * 3) 0
  split
  · rename_i h8
    split
    · simp only []
      omega
    · split <;> (simp only []; omega)
  · split
    · simp only []
      omega
    · split <;> (simp only []; omega)

theorem partialInsertionSort_short (less : mipmap → mipmap → Bool) (data : mipmaps) (a b : Nat)
    (h50 : b - a < 50) : (gosort.partialInsertionSort less data a b).2 = data := by
  unfold gosort.partialInsertionSort
  rw [gosort.partialInsertionLoop]
  simp only []
  split <;> simp [h50]

theorem pdqsort_head (next : Nat → Nat) (less : mipmap → mipmap → Bool) (fuel : Nat) :
    ∀ (data : mipmaps) (a b limit : Nat) (wasBalanced wasPartitioned : Bool),
      1 ≤ a → b - a < 50 →
      (gosort.pdqsort next less fuel data a b limit wasBalanced wasPartitioned).head? =
        data.head? := by
  induction fuel with
  | zero => intros; rfl
  | succ n ih =>
    intro data a b limit wb wp h1 h50
    rw [gosort.pdqsort]
    by_cases h12 : b - a ≤ 12
    · rw [if_pos h12]
      exact insertionSort_head less data a b h1
    rw [if_neg h12]
    by_cases hl : limit = 0
    · rw [if_pos hl]
      exact heapSort_head less data a b h1
    rw [if_neg hl]
    lift_lets
    intro data1 limit1 ph reversed data2 pivot hint tried data3 pe pt mid leftLen rightLen thr
    have hd1 : data1.head? = data.head? := by
      show (if (!wb) = true then gosort.breakPatterns next data a b else data).head? = _
      split
      · exact breakPatterns_head next data a b h1
      · rfl
    have hpb : a ≤ ph.1 ∧ ph.1 < b := choosePivot_bounds less data1 a b (by omega) h50
    have hd2 : data2.head? = data.head? := by
      show (if reversed = true then gosort.reverseRange data1 a b else data1).head? = _
      split
      · rw [reverseRange_head data1 a b h1, hd1]
      · exact hd1
    have hpv : 1 ≤ pivot := by
      show 1 ≤ (if reversed = true then b - 1 - (ph.1 - a) else ph.1)
      split <;> omega
    have ht : tried.2 = data2 := by
      show (if wb = true ∧ wp = true ∧ hint = gosort.sortedHint.increasingHint then
              gosort.partialInsertionSort less data2 a b
            else (false, data2)).2 = data2
      split
      · exact partialInsertionSort_short less data2 a b h50
      · rfl
    have hd3 : data3.head? = data.head? := by rw [← hd2, ← ht]
    have hpe := partitionEqual_spec less data3 a b pivot h1 (by omega) hpv
    have hpt := partition_spec less data3 a b pivot h1 (by omega) hpv
    have hmid : a ≤ mid ∧ mid < b := hpt.2
    have hpe1 : pe.1.head? = data.head? := by rw [← hd3]; exact hpe.1
    have hpe2 : a + 1 ≤ pe.2 := hpe.2
    have hpt1 : pt.1.head? = data.head? := by rw [← hd3]; exact hpt.1
    have hll : leftLen = mid - a := rfl
    have hrl : rightLen = b - mid := rfl
    clear_value data1 limit1 ph reversed data2 pivot hint tried data3 pe pt mid leftLen rightLen thr
    by_cases h3 : tried.1 = true
    · rw [if_pos h3, ht, hd2]
    rw [if_neg h3]
    by_cases h4 : 0 < a ∧ (!gosort.lessAt less data3 (a - 1) pivot) = true
    · rw [if_pos h4, ih pe.1 pe.2 b limit1 wb wp (by omega) (by omega), hpe1]
    rw [if_neg h4]
    split
    · rw [ih _ _ _ _ _ _ (by omega) (by omega), ih _ _ _ _ _ _ h1 (by omega), hpt1]
    · rw [ih _ _ _ _ _ _ h1 (by omega), ih _ _ _ _ _ _ (by omega) (by omega), hpt1]

theorem pdqsort_empty (next : Nat → Nat) (less : mipmap → mipmap → Bool) (fuel : Nat)
    (data : mipmaps) (a limit : Nat) (wb wp : Bool) :
    gosort.pdqsort next less (fuel + 1) data a a limit wb wp = data := by
  rw [gosort.pdqsort]
  rw [if_pos (by omega)]
  unfold gosort.insertionSort
  simp [gosort.insertionLoop]

theorem pdqsort_first_round (next : Nat → Nat) (less : mipmap → mipmap → Bool) (fuel : Nat)
    (data sorted : mipmaps) (b limit p : Nat)
    (hlen : 12 < b) (h50 : b < 50) (hlim : limit ≠ 0)
    (hp : gosort.choosePivot less data 0 b = (p, gosort.sortedHint.unknownHint))
    (hq : gosort.partition less data 0 b p = (sorted, 0, true)) :
    (gosort.pdqsort next less (fuel + 2) data 0 b limit true true).head? = sorted.head? := by
  rw [gosort.pdqsort]
  rw [if_neg (by omega), if_neg hlim]
  lift_lets
  intro data1 limit1 ph reversed data2 pivot hint tried data3 pe pt mid leftLen rightLen thr
  have e1 : data1 = data := rfl
  have e2 : ph = (p, gosort.sortedHint.unknownHint) := hp
  have e3 : reversed = false := by
    show decide (ph.2 = gosort.sortedHint.decreasingHint) = false
    rw [e2]
    rfl
  have e4 : data2 = data := by
    show (if reversed = true then gosort.reverseRange data1 0 b else data1) = data
    rw [e3]
    rfl
  have e5 : pivot = p := by
    show (if reversed = true then b - 1 - (ph.1 - 0) else ph.1) = p
    rw [e3, e2]
    rfl
  have e6 : hint = gosort.sortedHint.unknownHint := by
    show (if reversed = true then gosort.sortedHint.increasingHint else ph.2) = _
    rw [e3, e2]
    rfl
  have e7 : tried = (false, data) := by
    show (if true = true ∧ true = true ∧ hint = gosort.sortedHint.increasingHint then
        gosort.partialInsertionSort less data2 0 b else (false, data2)) = _
    rw [e6, e4]
    rfl
  have e8 : data3 = data := by
    show tried.2 = data
    rw [e7]
  have e9 : pt = (sorted, 0, true) := by
    show gosort.partition less data3 0 b pivot = _
    rw [e8, e5]
    exact hq
  have e10 : mid = 0 := by
    show pt.2.1 = 0
    rw [e9]
  have e11 : leftLen = 0 := by
    show mid - 0 = 0
    rw [e10]
  have e12 : rightLen = b := by
    show b - mid = b
    rw [e10]
    rfl
  clear_value data1 limit1 ph reversed data2 pivot hint tried data3 pe pt mid leftLen rightLen thr
  subst e7 e9 e10 e11 e12
  rw [if_neg (by simp), if_neg (by omega), if_pos (by omega)]
  rw [pdqsort_head next less _ _ _ _ _ _ _ (by omega) (by omega), pdqsort_empty]

theorem bitsLen_ne_zero (n : Nat) (h : 1 ≤ n) : gosort.bitsLen n ≠ 0 := by
  obtain ⟨k, rfl⟩ : ∃ k, n = k + 1 := ⟨n - 1, by omega⟩
  unfold gosort.bitsLen
  rw [gosort.bitsLenLoop, if_neg (by omega)]
  omega

/-- On a slice of 13 to 49 elements whose sampled pivot `data[p]` no other
element is `Less` than, Go's `sort.Sort` swaps the pivot to the front and
leaves it there, whatever the random source `next`. -/
theorem sortSort_head_of_pivot (next : Nat → Nat) (less : mipmap → mipmap → Bool)
    (data sorted : mipmaps) (p : Nat) (hlen : 12 < data.length) (h50 : data.length < 50)
    (hp : gosort.choosePivot less data 0 data.length = (p, gosort.sortedHint.unknownHint))
    (hq : gosort.partition less data 0 data.length p = (sorted, 0, true)) :
    (gosort.sortSort next less data).head? = sorted.head? := by
  unfold gosort.sortSort
  dsimp only
  rw [if_neg (by omega)]
  obtain ⟨k, hk⟩ : ∃ k, data.length + 1 = k + 2 := ⟨data.length - 1, by omega⟩
  rw [hk]
  exact pdqsort_first_round next less k data sorted data.length _ p hlen h50
    (bitsLen_ne_zero _ (by omega)) hp hq

theorem eq_cons_of_head (l : mipmaps) (x : mipmap) (h : l.head? = some x) :
    ∃ rest, l = x :: rest := by
  cases l with
  | nil => cases h
  | cons y ys =>
    simp only [List.head?_cons, Option.some.injEq] at h
    exact ⟨ys, by rw [h]⟩

/-! ## ReadIWI: header and metadata -/

/-- C2: on an input of at least 4 bytes whose first three bytes are not 'I',
'W', 'i' or whose fourth byte is none of 0x05, 0x06, 0x08, 0x0D, 0x1B,
`ReadIWI` ends with an error (and no result); and whenever `ReadIWI` succeeds
the returned header has the magic 'I', 'W', 'i' and the version found in byte 3
of the input. -/
theorem ReadIWI_header (sortSort : (mipmap → mipmap → Bool) → mipmaps → mipmaps)
    (f : List Byte) :
    (4 ≤ f.length →
      (¬ (f.getD 0 0 = 73 ∧ f.getD 1 0 = 87 ∧ f.getD 2 0 = 105) ∨
        ¬ (f.getD 3 0 = 0x05 ∨ f.getD 3 0 = 0x06 ∨ f.getD 3 0 = 0x08 ∨ f.getD 3 0 = 0x0D ∨
          f.getD 3 0 = 0x1B)) →
      ∃ e, ReadIWI sortSort f = Outcome.error e) ∧
    (∀ r, ReadIWI sortSort f = Outcome.ok r →
      4 ≤ f.length ∧ r.Header.Magic = (73, 87, 105) ∧ r.Header.Version = f.getD 3 0) := by
  constructor
  · intro _ hbad
    have hns : (headerOf f).isSupported = false := by
      cases hb : (headerOf f).isSupported
      · rfl
      · have := (isSupported_iff (headerOf f)).mp hb
        simp only [headerOf] at this
        rcases hbad with hbad | hbad
        · exact absurd this.1 hbad
        · exact absurd this.2 hbad
    obtain ⟨e, he⟩ := readTable_error f (Or.inr (Or.inl hns))
    exact ⟨e, by unfold ReadIWI; simp only [he, bind, Outcome.bind]⟩
  · intro r hr
    obtain ⟨⟨h4, hs, _⟩, hH, _⟩ := ReadIWI_inv sortSort f r hr
    have := (isSupported_iff (headerOf f)).mp hs
    simp only [headerOf] at this
    obtain ⟨⟨m0, m1, m2⟩, _⟩ := this
    rw [hH]
    exact ⟨h4, by simp only [headerOf, m0, m1, m2], rfl⟩

/-- Witness of C2: an input with the magic "IWI" ends with an error, and the
three-mip input decodes with the header 'I', 'W', 'i', 0x05. -/
theorem ReadIWI_header_witness :
    (∃ e, ReadIWI insertionSort badMagicInput = Outcome.error e) ∧
    (∃ r, ReadIWI insertionSort cod2Input = Outcome.ok r ∧
      r.Header.Magic = (73, 87, 105) ∧ r.Header.Version = 0x05) :=
  ⟨(ReadIWI_header insertionSort badMagicInput).1 (by decide) (Or.inl (by decide)),
   ⟨⟨headerOf cod2Input, infoAt cod2Input 4, List.replicate 1024 0xCC⟩, by decide,
    ((ReadIWI_header insertionSort cod2Input).2 _ (by decide)).2⟩⟩

/-- C4: whenever `ReadIWI` succeeds, the returned info is the record found at
position `p` of the input, `p = 8` for version 0x08 and `p = 4` for every other
version: format = byte `p`, usage = byte `p+1`, and width, height, depth = the
little-endian unsigned 16-bit values at `p+2`, `p+4`, `p+6` (all inside the
input); the format byte is returned as it is, whatever its value. -/
theorem ReadIWI_info (sortSort : (mipmap → mipmap → Bool) → mipmaps → mipmaps)
    (f : List Byte) (r : IWI) (h : ReadIWI sortSort f = Outcome.ok r) :
    (f.getD 3 0 = 0x08 →
      16 ≤ f.length ∧
      r.Info.Format = f.getD 8 0 ∧ r.Info.Usage = f.getD 9 0 ∧
      r.Info.Width = (f.getD 10 0).val + 256 * (f.getD 11 0).val ∧
      r.Info.Height = (f.getD 12 0).val + 256 * (f.getD 13 0).val ∧
      r.Info.Depth = (f.getD 14 0).val + 256 * (f.getD 15 0).val) ∧
    (f.getD 3 0 ≠ 0x08 →
      12 ≤ f.length ∧
      r.Info.Format = f.getD 4 0 ∧ r.Info.Usage = f.getD 5 0 ∧
      r.Info.Width = (f.getD 6 0).val + 256 * (f.getD 7 0).val ∧
      r.Info.Height = (f.getD 8 0).val + 256 * (f.getD 9 0).val ∧
      r.Info.Depth = (f.getD 10 0).val + 256 * (f.getD 11 0).val) := by
  obtain ⟨⟨_, hs, hl⟩, _, hI⟩ := ReadIWI_inv sortSort f r h
  constructor
  · intro hv
    rw [hv] at hl
    have hl' : 32 ≤ f.length := by simpa [tablePos, tableLen] using hl
    rw [hI, hv]
    exact ⟨by omega, rfl, rfl, rfl, rfl, rfl⟩
  · intro hv
    have hp : metaPos (f.getD 3 0) = 4 := by simp only [metaPos, hv, if_false]
    have hl' : 28 ≤ f.length := by
      rcases supported_version f hs with hv' | hv' | hv' | hv' | hv' <;> rw [hv'] at hl <;>
        simp [tablePos, tableLen] at hl <;> omega
    rw [hI, hp]
    exact ⟨by omega, rfl, rfl, rfl, rfl, rfl⟩

/-- Witness of C4: the version-0x08 input decodes, and its info is the record
at byte 8, with the format byte 0xEE (no enumerated format) unchanged. -/
theorem ReadIWI_info_witness :
    ∃ r, ReadIWI insertionSort mw2Input = Outcome.ok r ∧
      r.Info.Format = 0xEE ∧ r.Info.Usage = 2 ∧
      r.Info.Width = 0x0201 ∧ r.Info.Height = 0x0403 ∧ r.Info.Depth = 0x0605 :=
  ⟨⟨headerOf mw2Input, infoAt mw2Input 8, [5, 6, 7, 8]⟩, by decide,
    ((ReadIWI_info insertionSort mw2Input _ (by decide)).1 (by decide)).2⟩

/-- C5, as amended: when the header, the metadata and the table are read, the
table handed to `mipMaps` is the `N` little-endian signed 32-bit integers at
position `T` of the input, with `(N, T) = (4, 12)` for versions 0x05 and 0x06,
`(4, 16)` for 0x08, `(8, 0x10)` for 0x0D and `(8, 0x20)` for 0x1B; `tableEnd`
is `T + 4N`; and `fileEnd` is the input length converted to `int32`, which is
the input length itself for an input shorter than 2^31 bytes. -/
theorem readTable_layout (f : List Byte) (h : header) (i : info) (ofs : offsets)
    (curr : Int) (buf : Reader) (ht : readTable f = Outcome.ok (h, i, ofs, curr, buf)) :
    (h.Version = 0x05 ∨ h.Version = 0x06 ∨ h.Version = 0x08 ∨ h.Version = 0x0D ∨
      h.Version = 0x1B) ∧
    (h.Version = 0x05 ∨ h.Version = 0x06 →
      28 ≤ f.length ∧ ofs = tableAt f 12 4 ∧ int32 curr = 12 + 4 * 4) ∧
    (h.Version = 0x08 →
      32 ≤ f.length ∧ ofs = tableAt f 16 4 ∧ int32 curr = 16 + 4 * 4) ∧
    (h.Version = 0x0D →
      48 ≤ f.length ∧ ofs = tableAt f 0x10 8 ∧ int32 curr = 0x10 + 4 * 8) ∧
    (h.Version = 0x1B →
      64 ≤ f.length ∧ ofs = tableAt f 0x20 8 ∧ int32 curr = 0x20 + 4 * 8) ∧
    int32 buf.Size = int32 (f.length : Int) ∧
    (f.length < 2147483648 → int32 buf.Size = (f.length : Int)) := by
  obtain ⟨⟨_, hs, hl⟩, hx⟩ := readTable_inv f _ ht
  simp only [Prod.mk.injEq] at hx
  obtain ⟨rfl, rfl, rfl, rfl, rfl⟩ := hx
  have hV : (headerOf f).Version = f.getD 3 0 := rfl
  rw [hV]
  refine ⟨supported_version f hs, ?_, ?_, ?_, ?_, rfl, ?_⟩
  · intro hv
    rcases hv with hv | hv <;> rw [hv] at hl ⊢ <;>
      exact ⟨by simpa [tablePos, tableLen] using hl, rfl, by decide⟩
  · intro hv
    rw [hv] at hl ⊢
    exact ⟨by simpa [tablePos, tableLen] using hl, rfl, by decide⟩
  · intro hv
    rw [hv] at hl ⊢
    exact ⟨by simpa [tablePos, tableLen] using hl, rfl, by decide⟩
  · intro hv
    rw [hv] at hl ⊢
    exact ⟨by simpa [tablePos, tableLen] using hl, rfl, by decide⟩
  · intro hL
    exact int32_of_range _ (by simp only [Reader.Size]; omega) (by simp only [Reader.Size]; omega)

/-- Witness of C5 as amended: the three-mip input, whose table 348, 92, 28, 28
is read at byte 12, with `tableEnd = 28` and `fileEnd = 1372`. -/
theorem readTable_layout_witness :
    ∃ h i buf, readTable cod2Input = Outcome.ok (h, i, [348, 92, 28, 28], 28, buf) ∧
      ([348, 92, 28, 28] : offsets) = tableAt cod2Input 12 4 ∧
      int32 28 = 12 + 4 * 4 ∧ int32 buf.Size = 1372 :=
  have ht : readTable cod2Input = Outcome.ok (headerOf cod2Input, infoAt cod2Input 4,
      [348, 92, 28, 28], 28, ⟨cod2Input, 28⟩) :=
    readTable_ok cod2Input (by decide) (by decide)
  have h := readTable_layout cod2Input _ _ _ _ _ ht
  ⟨_, _, _, ht, (h.2.1 (Or.inl (by decide))).2.1, (h.2.1 (Or.inl (by decide))).2.2,
    h.2.2.2.2.2.2 (by decide)⟩

/-- Counterexample to C5 as stated: on an input of 2^31 bytes the three reads
succeed and `fileEnd = int32(buf.Size())` is -2^31, not the input length. -/
theorem readTable_layout_counterexample :
    ∃ h i ofs curr buf, readTable hugeInput = Outcome.ok (h, i, ofs, curr, buf) ∧
      h.Version = 0x05 ∧ hugeInput.length = 2147483648 ∧
      int32 buf.Size = -2147483648 ∧ int32 buf.Size ≠ (hugeInput.length : Int) := by
  have hlen : hugeInput.length = 2147483648 := by
    unfold hugeInput
    rw [List.length_append, List.length_replicate]
    rfl
  have hs : (headerOf hugeInput).isSupported = true := by decide
  have h3 : hugeInput.getD 3 0 = 0x05 := rfl
  have hl : tablePos (hugeInput.getD 3 0) + 4 * tableLen (hugeInput.getD 3 0)
      ≤ hugeInput.length := by
    rw [h3, hlen]
    decide
  have hsz : int32 (Reader.Size ⟨hugeInput, tablePos (hugeInput.getD 3 0)
      + 4 * tableLen (hugeInput.getD 3 0)⟩) = -2147483648 := by
    simp only [Reader.Size, hlen]
    decide
  refine ⟨_, _, _, _, _, readTable_ok hugeInput hs hl, rfl, hlen, hsz, ?_⟩
  rw [hsz, hlen]
  decide

/-! ## ReadIWI: selection and extraction -/

/-- The read of the data: nothing is read for `n = 0`, and the `n` bytes at
`off` are read when they lie inside the input. -/
theorem ReadFull_data (f : List Byte) (off n : Nat) (h : n = 0 ∨ off + n ≤ f.length) :
    ∃ r, ReadFull ⟨f, off⟩ n = Outcome.ok ((f.drop off).take n, r) := by
  by_cases hn : n = 0
  · subst hn
    exact ⟨⟨f, off⟩, by simp [ReadFull]⟩
  · have hb : off + n ≤ f.length := by
      rcases h with h | h
      · exact absurd h hn
      · exact h
    exact ⟨_, ReadFull_ok ⟨f, off⟩ n (by omega) hb⟩

/-- Lines 181 to 198 succeed when the first entry of the sorted list has a
non-negative offset and size and its bytes lie inside the input (or its size
is 0): `Data` is the `size` bytes at `offset`. -/
theorem ReadIWI_ok_of_head (sortSort : (mipmap → mipmap → Bool) → mipmaps → mipmaps)
    (f : List Byte) (h : header) (i : info) (ofs : offsets) (curr : Int) (p : Nat)
    (mm : mipmap) (rest : mipmaps)
    (ht : readTable f = Outcome.ok (h, i, ofs, curr, ⟨f, p⟩))
    (hm : sortedMips sortSort ofs curr ⟨f, p⟩ = mm :: rest)
    (h0 : 0 ≤ mm.offset) (hs : 0 ≤ mm.size)
    (hb : mm.size = 0 ∨ mm.offset + mm.size ≤ (f.length : Int)) :
    ReadIWI sortSort f =
      Outcome.ok ⟨h, i, (f.drop mm.offset.toNat).take mm.size.toNat⟩ := by
  rw [ReadIWI_step sortSort f h i ofs curr ⟨f, p⟩ mm rest ht hm]
  have h1 : ¬ mm.offset < 0 := by omega
  have h2 : ¬ mm.size < 0 := by omega
  obtain ⟨r, hr⟩ := ReadFull_data f mm.offset.toNat mm.size.toNat (by omega)
  simp only [h1, h2, if_false, binaryRead_bytes_eq, hr, Outcome.bind]

theorem mipMaps_four (o0 o1 o2 o3 first size : Int) :
    offsets.mipMaps [o0, o1, o2, o3] first size =
      [⟨0, 0⟩, ⟨0, 0⟩, ⟨0, 0⟩, ⟨0, 0⟩, ⟨o0, int32 (size - o0)⟩, ⟨o1, int32 (o0 - o1)⟩,
        ⟨o2, int32 (o1 - o2)⟩, ⟨first, int32 (o3 - first)⟩] := rfl

theorem tableAt_four (f : List Byte) (t : Nat) :
    tableAt f t 4 =
      [leInt32At f t, leInt32At f (t + 4), leInt32At f (t + 8), leInt32At f (t + 12)] := rfl

/-- C1: on an input of length `L < 2^31` with the magic "IWi" and version 0x05
or 0x06 whose table offsets `o0..o3` (the little-endian `int32` at bytes 12,
16, 20, 24) satisfy `28 ≤ o3 ≤ L` and `0 ≤ o2 ≤ o1 ≤ o0 ≤ L`, `ReadIWI`
succeeds, and `Data` is the bytes of one of the four regions `[o0, L)`,
`[o1, o0)`, `[o2, o1)`, `[28, o3)`, of a length that is the largest of the four
region lengths. -/
theorem ReadIWI_largest_region (sortSort : (mipmap → mipmap → Bool) → mipmaps → mipmaps)
    (hsort : SortContract sortSort) (f : List Byte)
    (hL : f.length < 2147483648)
    (hmagic : f.getD 0 0 = 73 ∧ f.getD 1 0 = 87 ∧ f.getD 2 0 = 105)
    (hver : f.getD 3 0 = 0x05 ∨ f.getD 3 0 = 0x06)
    (h3 : 28 ≤ leInt32At f 24 ∧ leInt32At f 24 ≤ (f.length : Int))
    (h2 : 0 ≤ leInt32At f 20 ∧ leInt32At f 20 ≤ leInt32At f 16)
    (h1 : leInt32At f 16 ≤ leInt32At f 12)
    (h0 : leInt32At f 12 ≤ (f.length : Int)) :
    ∃ r, ReadIWI sortSort f = Outcome.ok r ∧
      ∃ a b : Int,
        (a, b) ∈ [(leInt32At f 12, (f.length : Int)), (leInt32At f 16, leInt32At f 12),
          (leInt32At f 20, leInt32At f 16), (28, leInt32At f 24)] ∧
        r.Data = region f a.toNat b.toNat ∧
        (r.Data.length : Int) = b - a ∧
        ∀ q ∈ [(leInt32At f 12, (f.length : Int)), (leInt32At f 16, leInt32At f 12),
          (leInt32At f 20, leInt32At f 16), (28, leInt32At f 24)], q.2 - q.1 ≤ b - a := by
  have hs : (headerOf f).isSupported = true :=
    (isSupported_iff (headerOf f)).mpr ⟨hmagic, by
      rcases hver with hv | hv
      · exact Or.inl hv
      · exact Or.inr (Or.inl hv)⟩
  have hT : tablePos (f.getD 3 0) = 12 ∧ tableLen (f.getD 3 0) = 4 ∧
      metaPos (f.getD 3 0) = 4 := by
    rcases hver with hv | hv <;> rw [hv] <;> decide
  obtain ⟨hT1, hT2, hT3⟩ := hT
  have ht := readTable_ok f hs (by rw [hT1, hT2]; omega)
  rw [hT1, hT2, hT3, tableAt_four] at ht
  generalize leInt32At f 12 = o0 at *
  generalize leInt32At f (12 + 4) = o1 at *
  generalize leInt32At f (12 + 8) = o2 at *
  generalize leInt32At f (12 + 12) = o3 at *
  have hmips : offsets.mipMaps [o0, o1, o2, o3] (int32 ((12 + 4 * 4 : Nat) : Int))
      (int32 (Reader.Size ⟨f, 12 + 4 * 4⟩)) =
      [⟨0, 0⟩, ⟨0, 0⟩, ⟨0, 0⟩, ⟨0, 0⟩, ⟨o0, (f.length : Int) - o0⟩, ⟨o1, o0 - o1⟩,
        ⟨o2, o1 - o2⟩, ⟨28, o3 - 28⟩] := by
    have e1 : int32 ((12 + 4 * 4 : Nat) : Int) = 28 := by decide
    have e2 : int32 (Reader.Size ⟨f, 12 + 4 * 4⟩) = (f.length : Int) :=
      int32_of_range _ (by simp only [Reader.Size]; omega) (by simp only [Reader.Size]; omega)
    rw [mipMaps_four, e1, e2, int32_of_range ((f.length : Int) - o0) (by omega) (by omega),
      int32_of_range (o0 - o1) (by omega) (by omega),
      int32_of_range (o1 - o2) (by omega) (by omega),
      int32_of_range (o3 - 28) (by omega) (by omega)]
  obtain ⟨mm, rest, hsm, hmem, hmax⟩ := sorted_head sortSort hsort
    (offsets.mipMaps [o0, o1, o2, o3] (int32 ((12 + 4 * 4 : Nat) : Int))
      (int32 (Reader.Size ⟨f, 12 + 4 * 4⟩))) (by rw [hmips]; simp)
  rw [hmips] at hmem hmax
  have m0 := hmax ⟨o0, (f.length : Int) - o0⟩ (by simp)
  have m1 := hmax ⟨o1, o0 - o1⟩ (by simp)
  have m2 := hmax ⟨o2, o1 - o2⟩ (by simp)
  have m3 := hmax ⟨28, o3 - 28⟩ (by simp)
  simp only [] at m0 m1 m2 m3
  have hmaxq : ∀ q ∈ [(o0, (f.length : Int)), (o1, o0), (o2, o1), ((28 : Int), o3)],
      q.2 - q.1 ≤ mm.size := by
    intro q hq
    simp only [List.mem_cons, List.mem_singleton, List.not_mem_nil, or_false] at hq
    rcases hq with rfl | rfl | rfl | rfl <;> assumption
  have key : ∀ a b : Int, mm.offset = a → mm.size = b - a → 0 ≤ a → a ≤ b →
      b ≤ (f.length : Int) →
      ReadIWI sortSort f = Outcome.ok ⟨headerOf f, infoAt f 4, region f a.toNat b.toNat⟩ ∧
      ((region f a.toNat b.toNat).length : Int) = b - a := by
    intro a b ea eb ha hab hb
    have hr := ReadIWI_ok_of_head sortSort f _ _ _ _ _ mm rest ht hsm (by omega) (by omega)
      (Or.inr (by omega))
    have e : mm.size.toNat = b.toNat - a.toNat := by omega
    rw [ea, e] at hr
    refine ⟨hr, ?_⟩
    simp only [region, List.length_take, List.length_drop]
    omega
  simp only [List.mem_cons, List.mem_singleton, List.not_mem_nil, or_false] at hmem
  rcases hmem with hz | hz | hz | hz | hd | hd | hd | hd
  all_goals first
    | (have hzo : mm.offset = 0 := by rw [hz]
       have hzs : mm.size = 0 := by rw [hz]
       obtain ⟨k1, _⟩ := key 0 0 hzo (by omega) (by omega) (by omega) (by omega)
       have er : region f (0 : Int).toNat (0 : Int).toNat = region f (28 : Int).toNat o3.toNat := by
         have : o3.toNat - (28 : Int).toNat = 0 := by omega
         simp only [region, this, List.take_zero, Int.toNat_zero, Nat.sub_self]
       rw [er] at k1
       refine ⟨_, k1, 28, o3, by simp, rfl, ?_, ?_⟩
       · simp only [region, List.length_take, List.length_drop]
         omega
       · intro q hq
         have := hmaxq q hq
         omega)
    | skip
  · have ho : mm.offset = o0 := by rw [hd]
    have hsz : mm.size = (f.length : Int) - o0 := by rw [hd]
    obtain ⟨k1, k2⟩ := key o0 (f.length : Int) ho hsz (by omega) (by omega) (by omega)
    simp only [Int.toNat_ofNat] at k1 k2
    exact ⟨_, k1, o0, (f.length : Int), by simp, by simp only [Int.toNat_ofNat], by
      simpa using k2, fun q hq => by have := hmaxq q hq; omega⟩
  · have ho : mm.offset = o1 := by rw [hd]
    have hsz : mm.size = o0 - o1 := by rw [hd]
    obtain ⟨k1, k2⟩ := key o1 o0 ho hsz (by omega) (by omega) (by omega)
    exact ⟨_, k1, o1, o0, by simp, rfl, k2, fun q hq => by have := hmaxq q hq; omega⟩
  · have ho : mm.offset = o2 := by rw [hd]
    have hsz : mm.size = o1 - o2 := by rw [hd]
    obtain ⟨k1, k2⟩ := key o2 o1 ho hsz (by omega) (by omega) (by omega)
    exact ⟨_, k1, o2, o1, by simp, rfl, k2, fun q hq => by have := hmaxq q hq; omega⟩
  · have ho : mm.offset = 28 := by rw [hd]
    have hsz : mm.size = o3 - 28 := by rw [hd]
    obtain ⟨k1, k2⟩ := key 28 o3 ho hsz (by omega) (by omega) (by omega)
    exact ⟨_, k1, 28, o3, by simp, rfl, k2, fun q hq => by have := hmaxq q hq; omega⟩

/-- Witness of C1: three mips of 64, 256 and 1024 bytes; `Data` is the 1024
bytes (each 0xCC) placed at offset 348, the offset of the largest mip. -/
theorem ReadIWI_largest_region_witness :
    cod2Input.length = 1372 ∧ tableAt cod2Input 12 4 = [348, 92, 28, 28] ∧
    ∃ r, ReadIWI insertionSort cod2Input = Outcome.ok r ∧
      r.Data = region cod2Input 348 1372 ∧ r.Data = List.replicate 1024 0xCC ∧
      r.Data.length = 1024 := by
  refine ⟨by decide, by decide, ?_⟩
  obtain ⟨r, hr, a, b, hab, hd, _, hmax⟩ :=
    ReadIWI_largest_region insertionSort insertionSort_contract cod2Input
      (by decide) (by decide) (by decide) (by decide) (by decide) (by decide) (by decide)
  have e12 : leInt32At cod2Input 12 = 348 := by decide
  have e16 : leInt32At cod2Input 16 = 92 := by decide
  have e20 : leInt32At cod2Input 20 = 28 := by decide
  have e24 : leInt32At cod2Input 24 = 28 := by decide
  have el : (cod2Input.length : Int) = 1372 := by decide
  rw [e12, e16, e20, e24, el] at hab hmax
  have h0 := hmax (348, 1372) (by simp)
  simp only [List.mem_cons, List.mem_singleton, Prod.mk.injEq, List.not_mem_nil,
    or_false] at hab
  have hab' : a = 348 ∧ b = 1372 := by
    rcases hab with ⟨rfl, rfl⟩ | ⟨rfl, rfl⟩ | ⟨rfl, rfl⟩ | ⟨rfl, rfl⟩
    · exact ⟨rfl, rfl⟩
    · simp at h0
    · simp at h0
    · simp at h0
  obtain ⟨rfl, rfl⟩ := hab'
  have hd' : r.Data = region cod2Input 348 1372 := hd
  refine ⟨r, hr, hd', ?_, ?_⟩
  · rw [hd']
    decide
  · rw [hd']
    decide

/-- The result of `mipMaps`: zero-valued slots, then the derived entries. -/
theorem mipMaps_split (o : offsets) (first size : Int) :
    offsets.mipMaps o first size =
      List.replicate o.length (⟨0, 0⟩ : mipmap) ++ (offsets.mipMaps o first size).drop o.length := by
  have h := mipMaps_eq o first size
  rw [h, List.drop_left' (by simp)]

/-- When every derived size is negative, every sorter that meets the contract
puts a zero-valued slot first. -/
theorem head_zero_of_neg (sortSort : (mipmap → mipmap → Bool) → mipmaps → mipmaps)
    (hs : SortContract sortSort) (o : offsets) (first size : Int) (hne : o ≠ [])
    (hneg : ∀ x ∈ (offsets.mipMaps o first size).drop o.length, x.size < 0) :
    ∃ rest, sortSort (sortReverse mipmaps.Less) (offsets.mipMaps o first size)
      = ⟨0, 0⟩ :: rest := by
  have hlen : 0 < o.length := List.length_pos.mpr hne
  have hz : (⟨0, 0⟩ : mipmap) ∈ offsets.mipMaps o first size := by
    rw [mipMaps_split]
    exact List.mem_append_left _ (List.mem_replicate.mpr ⟨by omega, rfl⟩)
  obtain ⟨mm, rest, hsm, hmem, hmax⟩ := sorted_head sortSort hs
    (offsets.mipMaps o first size) (List.ne_nil_of_mem hz)
  have h0 : (0 : Int) ≤ mm.size := hmax _ hz
  rw [mipMaps_split] at hmem
  rcases List.mem_append.mp hmem with hm | hm
  · rw [(List.mem_replicate.mp hm).2] at hsm
    exact ⟨rest, hsm⟩
  · have := hneg mm hm
    omega

/-- When some derived size is positive, every sorter that meets the contract
puts a derived entry of the largest derived size first. -/
theorem head_derived_of_pos (sortSort : (mipmap → mipmap → Bool) → mipmaps → mipmaps)
    (hs : SortContract sortSort) (o : offsets) (first size : Int)
    (hpos : ∃ x ∈ (offsets.mipMaps o first size).drop o.length, 0 < x.size) :
    ∃ mm rest, sortSort (sortReverse mipmaps.Less) (offsets.mipMaps o first size)
        = mm :: rest ∧
      mm ∈ (offsets.mipMaps o first size).drop o.length ∧
      ∀ x ∈ (offsets.mipMaps o first size).drop o.length, x.size ≤ mm.size := by
  obtain ⟨x, hx, hxpos⟩ := hpos
  have hxm : x ∈ offsets.mipMaps o first size := List.mem_of_mem_drop hx
  obtain ⟨mm, rest, hsm, hmem, hmax⟩ := sorted_head sortSort hs
    (offsets.mipMaps o first size) (List.ne_nil_of_mem hxm)
  refine ⟨mm, rest, hsm, ?_, fun y hy => hmax y (List.mem_of_mem_drop hy)⟩
  have h0 := hmax x hxm
  rw [mipMaps_split] at hmem
  rcases List.mem_append.mp hmem with hm | hm
  · rw [(List.mem_replicate.mp hm).2] at h0
    simp only [] at h0
    omega
  · exact hm

/-- C9: the input `negSizesInput` (version 0x05, 28 bytes, table 29, 30, 31,
27) is read up to the table, its four derived entries all have size -1, and
yet, whatever sorter meets the contract of `sort.Sort`, the entry `ReadIWI`
selects is the zero-valued slot (offset 0, size 0), which is none of the
derived entries and whose size is not their maximum; `ReadIWI` then succeeds
with empty `Data`. -/
theorem selected_zero_slot (sortSort : (mipmap → mipmap → Bool) → mipmaps → mipmaps)
    (hs : SortContract sortSort) :
    readTable negSizesInput =
      Outcome.ok (headerOf negSizesInput, infoAt negSizesInput 4, [29, 30, 31, 27], 28,
        ⟨negSizesInput, 28⟩) ∧
    (offsets.mipMaps [29, 30, 31, 27] (int32 28)
        (int32 (Reader.Size ⟨negSizesInput, 28⟩))).drop 4 =
      [⟨29, -1⟩, ⟨30, -1⟩, ⟨31, -1⟩, ⟨28, -1⟩] ∧
    (sortedMips sortSort [29, 30, 31, 27] 28 ⟨negSizesInput, 28⟩).head? = some ⟨0, 0⟩ ∧
    ReadIWI sortSort negSizesInput =
      Outcome.ok ⟨headerOf negSizesInput, infoAt negSizesInput 4, []⟩ := by
  have ht : readTable negSizesInput =
      Outcome.ok (headerOf negSizesInput, infoAt negSizesInput 4, [29, 30, 31, 27], 28,
        ⟨negSizesInput, 28⟩) := readTable_ok negSizesInput (by decide) (by decide)
  obtain ⟨rest, hr⟩ := head_zero_of_neg sortSort hs [29, 30, 31, 27] (int32 28)
    (int32 (Reader.Size ⟨negSizesInput, 28⟩)) (by simp) (by decide)
  have hm : sortedMips sortSort [29, 30, 31, 27] 28 ⟨negSizesInput, 28⟩ = ⟨0, 0⟩ :: rest := hr
  refine ⟨ht, by decide, by rw [hm]; rfl, ?_⟩
  exact ReadIWI_ok_of_head sortSort negSizesInput _ _ _ _ _ ⟨0, 0⟩ rest ht hm
    (le_refl _) (le_refl _) (Or.inl rfl)

/-- Witness of C9: with insertion sort as the sorter, `ReadIWI` returns empty
`Data` on `negSizesInput`. -/
theorem selected_zero_slot_witness :
    ReadIWI insertionSort negSizesInput =
      Outcome.ok ⟨headerOf negSizesInput, infoAt negSizesInput 4, []⟩ :=
  (selected_zero_slot insertionSort insertionSort_contract).2.2.2

/-- For a table of four entries Go's `sort.Sort` puts first the earliest of the
largest entries among a zero-valued slot and the derived entries. -/
theorem sortedMips_four (next : Nat → Nat) (ofs : offsets) (curr : Int) (buf : Reader)
    (h4 : ofs.length = 4) :
    (sortedMips (gosort.sortSort next) ofs curr buf).head? =
      some (firstLargest ⟨0, 0⟩
        ((offsets.mipMaps ofs (int32 curr) (int32 buf.Size)).drop ofs.length)) := by
  unfold sortedMips
  have hl : ((offsets.mipMaps ofs (int32 curr) (int32 buf.Size)).drop ofs.length).length = 4 := by
    rw [mipMaps_eq, List.drop_left' (by simp)]
    simp [h4]
  have hs := mipMaps_split ofs (int32 curr) (int32 buf.Size)
  generalize (offsets.mipMaps ofs (int32 curr) (int32 buf.Size)).drop ofs.length = d at hl hs ⊢
  rw [hs, h4, show (4 : Nat) = 3 + 1 from rfl, List.replicate_succ, List.cons_append]
  rw [sortSort_head next _ _ (by simp [hl]), firstLargest_replicate]

/-- C10, as amended: when some derived entry of the table has a positive size,
then (1) for a table of `N = 4` entries the entry `ReadIWI` selects, the first
one of the list sorted by Go's `sort.Sort`, is the earliest derived entry of
the largest size: every derived entry before it is smaller and none behind it
is larger; (2) for every table (so for `N = 8`) and every sorter that meets the
contract of `sort.Sort` the selected entry is one of the derived entries and
its size is the largest derived size, and which of several entries sharing
that size it is, is not determined. -/
theorem selected_largest_of_pos (ofs : offsets) (curr : Int) (buf : Reader)
    (hpos : ∃ x ∈ (offsets.mipMaps ofs (int32 curr) (int32 buf.Size)).drop ofs.length,
      0 < x.size) :
    (ofs.length = 4 → ∀ next : Nat → Nat, ∃ pre mm post,
      (offsets.mipMaps ofs (int32 curr) (int32 buf.Size)).drop ofs.length
        = pre ++ mm :: post ∧
      (sortedMips (gosort.sortSort next) ofs curr buf).head? = some mm ∧
      (∀ y ∈ pre, y.size < mm.size) ∧ (∀ y ∈ post, y.size ≤ mm.size)) ∧
    (∀ sortSort : (mipmap → mipmap → Bool) → mipmaps → mipmaps, SortContract sortSort →
      ∃ mm rest, sortedMips sortSort ofs curr buf = mm :: rest ∧
        mm ∈ (offsets.mipMaps ofs (int32 curr) (int32 buf.Size)).drop ofs.length ∧
        ∀ x ∈ (offsets.mipMaps ofs (int32 curr) (int32 buf.Size)).drop ofs.length,
          x.size ≤ mm.size) := by
  refine ⟨fun h4 next => ?_,
    fun sortSort hs => head_derived_of_pos sortSort hs ofs (int32 curr) (int32 buf.Size) hpos⟩
  rw [sortedMips_four next ofs curr buf h4]
  rcases firstLargest_spec
      ((offsets.mipMaps ofs (int32 curr) (int32 buf.Size)).drop ofs.length) ⟨0, 0⟩ with
    ⟨_, h2⟩ | ⟨pre, mm, post, h1, h2, _, h4, h5⟩
  · obtain ⟨x, hx, hx0⟩ := hpos
    have := h2 x hx
    simp only [] at this
    omega
  · exact ⟨pre, mm, post, h1, by rw [h2], h4, h5⟩

/-- Witness of C10 as amended: the table 33, 28, 28, 28 of `posTieInput`, whose
derived entries (33, 5) and (28, 5) share the largest size; Go's `sort.Sort`
puts (33, 5), the earlier one, first. -/
theorem selected_largest_of_pos_witness :
    (offsets.mipMaps [33, 28, 28, 28] (int32 28)
        (int32 (Reader.Size ⟨posTieInput, 28⟩))).drop 4 =
      [⟨33, 5⟩, ⟨28, 5⟩, ⟨28, 0⟩, ⟨28, 0⟩] ∧
    (sortedMips (gosort.sortSort (gosort.xorshiftNext 13 7 17)) [33, 28, 28, 28] 28
      ⟨posTieInput, 28⟩).head? = some ⟨33, 5⟩ ∧
    (∀ next : Nat → Nat, ∃ pre mm post,
      (offsets.mipMaps [33, 28, 28, 28] (int32 28)
        (int32 (Reader.Size ⟨posTieInput, 28⟩))).drop 4 = pre ++ mm :: post ∧
      (sortedMips (gosort.sortSort next) [33, 28, 28, 28] 28 ⟨posTieInput, 28⟩).head?
        = some mm ∧
      (∀ y ∈ pre, y.size < mm.size) ∧ (∀ y ∈ post, y.size ≤ mm.size)) ∧
    ∃ mm rest, sortedMips insertionSort [33, 28, 28, 28] 28 ⟨posTieInput, 28⟩ = mm :: rest ∧
      mm ∈ (offsets.mipMaps [33, 28, 28, 28] (int32 28)
        (int32 (Reader.Size ⟨posTieInput, 28⟩))).drop 4 ∧
      ∀ x ∈ (offsets.mipMaps [33, 28, 28, 28] (int32 28)
        (int32 (Reader.Size ⟨posTieInput, 28⟩))).drop 4, x.size ≤ mm.size :=
  ⟨by decide, by decide,
   (selected_largest_of_pos [33, 28, 28, 28] 28 ⟨posTieInput, 28⟩
      ⟨⟨33, 5⟩, by decide, by decide⟩).1 rfl,
   (selected_largest_of_pos [33, 28, 28, 28] 28 ⟨posTieInput, 28⟩
      ⟨⟨33, 5⟩, by decide, by decide⟩).2 insertionSort insertionSort_contract⟩

/-- Counterexample to C10 as stated, for a table of `N = 8` entries. The input
`bo1TieInput` (version 0x0D, 60 bytes) is read up to its table 56, 56, 56, 56,
52, 52, 48, 48; the derived entries (56, 4), (52, 4) and (48, 4) share the
largest size 4, and the earliest of them in table order is (56, 4), the bytes
9 to 12. Go's `sort.Sort` puts (52, 4) first, whatever its random source: of
the sixteen entries it samples those at the indices 4, 8 and 12, takes (52, 4)
at index 12 as the pivot, swaps it to the front, and, no entry being larger,
leaves it there. So `ReadIWI` returns the bytes 5 to 8 at offset 52, not the
bytes at offset 56. (With either set of shift distances of the random source
the sorted list is in descending order of size.) -/
theorem selected_earliest_counterexample :
    readTable bo1TieInput =
      Outcome.ok (headerOf bo1TieInput, infoAt bo1TieInput 4,
        [56, 56, 56, 56, 52, 52, 48, 48], 48, ⟨bo1TieInput, 48⟩) ∧
    (offsets.mipMaps [56, 56, 56, 56, 52, 52, 48, 48] (int32 48)
        (int32 (Reader.Size ⟨bo1TieInput, 48⟩))).drop 8 =
      [⟨56, 4⟩, ⟨56, 0⟩, ⟨56, 0⟩, ⟨56, 0⟩, ⟨52, 4⟩, ⟨52, 0⟩, ⟨48, 4⟩, ⟨48, 0⟩] ∧
    (∀ next : Nat → Nat,
      (sortedMips (gosort.sortSort next) [56, 56, 56, 56, 52, 52, 48, 48] 48
        ⟨bo1TieInput, 48⟩).head? = some ⟨52, 4⟩ ∧
      ReadIWI (gosort.sortSort next) bo1TieInput =
        Outcome.ok ⟨headerOf bo1TieInput, infoAt bo1TieInput 4, [5, 6, 7, 8]⟩) ∧
    (sortedMips (gosort.sortSort (gosort.xorshiftNext 13 7 17))
      [56, 56, 56, 56, 52, 52, 48, 48] 48 ⟨bo1TieInput, 48⟩).map mipmap.size =
      [4, 4, 4, 0, 0, 0, 0, 0, 0, 0, 0, 0, 0, 0, 0, 0] ∧
    (sortedMips (gosort.sortSort (gosort.xorshiftNext 13 17 5))
      [56, 56, 56, 56, 52, 52, 48, 48] 48 ⟨bo1TieInput, 48⟩).map mipmap.size =
      [4, 4, 4, 0, 0, 0, 0, 0, 0, 0, 0, 0, 0, 0, 0, 0] ∧
    region bo1TieInput 56 60 = [9, 10, 11, 12] := by
  have hh : ∀ next : Nat → Nat,
      (sortedMips (gosort.sortSort next) [56, 56, 56, 56, 52, 52, 48, 48] 48
        ⟨bo1TieInput, 48⟩).head? = some ⟨52, 4⟩ := fun next =>
    sortSort_head_of_pivot next (sortReverse mipmaps.Less)
      (offsets.mipMaps [56, 56, 56, 56, 52, 52, 48, 48] (int32 48)
        (int32 (Reader.Size ⟨bo1TieInput, 48⟩)))
      [⟨52, 4⟩, ⟨0, 0⟩, ⟨0, 0⟩, ⟨0, 0⟩, ⟨0, 0⟩, ⟨0, 0⟩, ⟨0, 0⟩, ⟨0, 0⟩,
       ⟨56, 4⟩, ⟨56, 0⟩, ⟨56, 0⟩, ⟨56, 0⟩, ⟨0, 0⟩, ⟨52, 0⟩, ⟨48, 4⟩, ⟨48, 0⟩]
      12 (by decide) (by decide) (by decide) (by decide)
  refine ⟨readTable_ok bo1TieInput (by decide) (by decide), by decide,
    fun next => ⟨hh next, ?_⟩, by decide, by decide, by decide⟩
  obtain ⟨rest, hr⟩ := eq_cons_of_head _ _ (hh next)
  rw [ReadIWI_ok_of_head (gosort.sortSort next) bo1TieInput _ _ _ _ _ ⟨52, 4⟩ rest
    (readTable_ok bo1TieInput (by decide) (by decide)) hr (by decide) (by decide)
    (Or.inr (by decide))]
  rfl

/-! ## ReadIWI: the outcome in closed form -/

theorem ReadIWI_of_table_error (sortSort : (mipmap → mipmap → Bool) → mipmaps → mipmaps)
    (f : List Byte) (e : Error) (he : readTable f = Outcome.error e) :
    ReadIWI sortSort f = Outcome.error e := by
  unfold ReadIWI
  simp only [he, bind, Outcome.bind]

/-- Lines 128 to 178 never panic: they end with a value or with an error. -/
theorem readTable_cases (f : List Byte) :
    (∃ x, readTable f = Outcome.ok x) ∨ (∃ e, readTable f = Outcome.error e) := by
  by_cases hc : f.length < 4 ∨ (headerOf f).isSupported = false ∨
      f.length < tablePos (f.getD 3 0) + 4 * tableLen (f.getD 3 0)
  · exact Or.inr (readTable_error f hc)
  · have hs : (headerOf f).isSupported = true := by
      cases hb : (headerOf f).isSupported
      · exact absurd (Or.inr (Or.inl hb)) hc
      · rfl
    exact Or.inl ⟨_, readTable_ok f hs (by omega)⟩

/-- Lines 181 to 198 in closed form, for the first entry `mm` of the sorted
list: a negative offset is an error of `Seek`, a negative size a panic of
`make`, a size of 0 an empty read that always succeeds, and a positive size a
read that succeeds exactly when `offset + size` does not exceed the length of
the input. -/
theorem ReadIWI_formula (sortSort : (mipmap → mipmap → Bool) → mipmaps → mipmaps)
    (f : List Byte) (h : header) (i : info) (ofs : offsets) (curr : Int) (p : Nat)
    (mm : mipmap) (rest : mipmaps)
    (ht : readTable f = Outcome.ok (h, i, ofs, curr, ⟨f, p⟩))
    (hm : sortedMips sortSort ofs curr ⟨f, p⟩ = mm :: rest) :
    ReadIWI sortSort f =
      if mm.offset < 0 then Outcome.error Error.negativePosition
      else if mm.size < 0 then Outcome.panic
      else if mm.size = 0 then Outcome.ok ⟨h, i, []⟩
      else if (f.length : Int) ≤ mm.offset then Outcome.error Error.EOF
      else if mm.offset + mm.size ≤ (f.length : Int) then
        Outcome.ok ⟨h, i, (f.drop mm.offset.toNat).take mm.size.toNat⟩
      else Outcome.error Error.ErrUnexpectedEOF := by
  rw [ReadIWI_step sortSort f h i ofs curr ⟨f, p⟩ mm rest ht hm, binaryRead_bytes_eq]
  by_cases h1 : mm.offset < 0
  · simp only [h1, if_true]
  by_cases h2 : mm.size < 0
  · simp only [h1, h2, if_true, if_false]
  by_cases h3 : mm.size = 0
  · simp [h1, h3, ReadFull, Outcome.bind]
  have e3 : mm.size.toNat ≠ 0 := by omega
  by_cases h4 : (f.length : Int) ≤ mm.offset
  · have e4 : f.length ≤ mm.offset.toNat := by omega
    simp only [h1, h2, h3, h4, if_true, if_false, ReadFull, e3, e4, Outcome.bind]
  have e4 : ¬ f.length ≤ mm.offset.toNat := by omega
  by_cases h5 : mm.offset + mm.size ≤ (f.length : Int)
  · have e5 : mm.offset.toNat + mm.size.toNat ≤ f.length := by omega
    simp only [h1, h2, h3, h4, h5, if_true, if_false, ReadFull, e3, e4, e5, Outcome.bind]
  · have e5 : ¬ mm.offset.toNat + mm.size.toNat ≤ f.length := by omega
    simp only [h1, h2, h3, h4, h5, if_false, ReadFull, e3, e4, e5, Outcome.bind]

theorem tableLen_pos (v : Byte) : 0 < tableLen v := by
  unfold tableLen
  split <;> decide

/-- Once the table is read, the sorted list of every sorter that meets the
contract has a first entry; it is an entry of the result of `mipMaps`, no
entry is larger, and its size is not negative (a zero-valued slot is there). -/
theorem sortedMips_head (sortSort : (mipmap → mipmap → Bool) → mipmaps → mipmaps)
    (hs : SortContract sortSort) (f : List Byte) (h : header) (i : info) (ofs : offsets)
    (curr : Int) (buf : Reader) (ht : readTable f = Outcome.ok (h, i, ofs, curr, buf)) :
    ∃ mm rest, sortedMips sortSort ofs curr buf = mm :: rest ∧
      mm ∈ offsets.mipMaps ofs (int32 curr) (int32 buf.Size) ∧
      (∀ x ∈ offsets.mipMaps ofs (int32 curr) (int32 buf.Size), x.size ≤ mm.size) ∧
      0 ≤ mm.size := by
  obtain ⟨_, hx⟩ := readTable_inv f _ ht
  simp only [Prod.mk.injEq] at hx
  obtain ⟨_, _, hofs, _, _⟩ := hx
  have hlen : 0 < ofs.length := by
    rw [hofs]
    simp only [tableAt, List.length_map, List.length_range]
    exact tableLen_pos _
  have hz : (⟨0, 0⟩ : mipmap) ∈ offsets.mipMaps ofs (int32 curr) (int32 buf.Size) := by
    rw [mipMaps_split]
    exact List.mem_append_left _ (List.mem_replicate.mpr ⟨by omega, rfl⟩)
  obtain ⟨mm, rest, hsm, hmem, hmax⟩ := sorted_head sortSort hs
    (offsets.mipMaps ofs (int32 curr) (int32 buf.Size)) (List.ne_nil_of_mem hz)
  exact ⟨mm, rest, hsm, hmem, hmax, hmax _ hz⟩

/-- C17: for a table with the single entry `a`, `mipMaps` derives the one
entry of index 0 by the first-entry rule, offset `a` and size `fileEnd - a`
(in `int32` arithmetic), behind the one zero-valued slot; no entry is derived
by the last-entry rule. -/
theorem mipMaps_single (a tableEnd fileEnd : Int) :
    offsets.mipMaps [a] tableEnd fileEnd = [⟨0, 0⟩, ⟨a, int32 (fileEnd - a)⟩] := rfl

/-- C16: `ReadIWI` ends with an error on every input shorter than 4 bytes and
on every input with a supported header that is shorter than the end `L` of the
offset table of its version (28 for 0x05 and 0x06, 32 for 0x08, 48 for 0x0D,
64 for 0x1B); on every input with a supported header of at least `L` bytes the
reads of the header, the metadata and the offset table all succeed, and leave
the reader at `L`. -/
theorem ReadIWI_truncated_header (sortSort : (mipmap → mipmap → Bool) → mipmaps → mipmaps)
    (f : List Byte) :
    (f.length < 4 → ∃ e, ReadIWI sortSort f = Outcome.error e) ∧
    (∀ L : Nat,
      (f.getD 0 0 = 73 ∧ f.getD 1 0 = 87 ∧ f.getD 2 0 = 105) →
      (((f.getD 3 0 = 0x05 ∨ f.getD 3 0 = 0x06) ∧ L = 28) ∨ (f.getD 3 0 = 0x08 ∧ L = 32) ∨
        (f.getD 3 0 = 0x0D ∧ L = 48) ∨ (f.getD 3 0 = 0x1B ∧ L = 64)) →
      (f.length < L → ∃ e, ReadIWI sortSort f = Outcome.error e) ∧
      (L ≤ f.length →
        ∃ i ofs, readTable f = Outcome.ok (headerOf f, i, ofs, (L : Int), ⟨f, L⟩))) := by
  constructor
  · intro h4
    obtain ⟨e, he⟩ := readTable_error f (Or.inl h4)
    exact ⟨e, ReadIWI_of_table_error sortSort f e he⟩
  · intro L hmagic hlay
    have hs : (headerOf f).isSupported = true :=
      (isSupported_iff (headerOf f)).mpr ⟨hmagic, by
        rcases hlay with ⟨hv | hv, _⟩ | ⟨hv, _⟩ | ⟨hv, _⟩ | ⟨hv, _⟩
        · exact Or.inl hv
        · exact Or.inr (Or.inl hv)
        · exact Or.inr (Or.inr (Or.inl hv))
        · exact Or.inr (Or.inr (Or.inr (Or.inl hv)))
        · exact Or.inr (Or.inr (Or.inr (Or.inr hv)))⟩
    have hL : tablePos (f.getD 3 0) + 4 * tableLen (f.getD 3 0) = L := by
      rcases hlay with ⟨hv | hv, rfl⟩ | ⟨hv, rfl⟩ | ⟨hv, rfl⟩ | ⟨hv, rfl⟩ <;> rw [hv] <;> decide
    constructor
    · intro hlt
      obtain ⟨e, he⟩ := readTable_error f (Or.inr (Or.inr (by omega)))
      exact ⟨e, ReadIWI_of_table_error sortSort f e he⟩
    · intro hge
      have ht := readTable_ok f hs (by omega)
      rw [hL] at ht
      exact ⟨_, _, ht⟩

/-- Witness of C16: the empty input and the three-byte input "IWi" end with an
error, `truncatedInput` cut to 20 bytes has a supported version-0x05 header and
ends with an error, and on `fullInput` (38 bytes) the three reads succeed. -/
theorem ReadIWI_truncated_header_witness :
    (∃ e, ReadIWI insertionSort [] = Outcome.error e) ∧
    (∃ e, ReadIWI insertionSort [73, 87, 105] = Outcome.error e) ∧
    (fullInput.take 20).length < 28 ∧
    (∃ e, ReadIWI insertionSort (fullInput.take 20) = Outcome.error e) ∧
    28 ≤ fullInput.length ∧
    (∃ i ofs, readTable fullInput =
      Outcome.ok (headerOf fullInput, i, ofs, ((28 : Nat) : Int), ⟨fullInput, 28⟩)) :=
  ⟨(ReadIWI_truncated_header insertionSort []).1 (by decide),
   (ReadIWI_truncated_header insertionSort [73, 87, 105]).1 (by decide),
   by decide,
   ((ReadIWI_truncated_header insertionSort (fullInput.take 20)).2 28 (by decide)
      (Or.inl ⟨Or.inl (by decide), rfl⟩)).1 (by decide),
   by decide,
   ((ReadIWI_truncated_header insertionSort fullInput).2 28 (by decide)
      (Or.inl ⟨Or.inl (by decide), rfl⟩)).2 (by decide)⟩

/-- C15: on every input (so on every input shorter than 2^31 bytes), and with
every sorter that meets the contract of `sort.Sort`, `ReadIWI` does not panic:
it ends either with a result or with an error. Once the table is read, the
sorted list is not empty, and the size of its first entry is not negative. -/
theorem ReadIWI_no_panic (sortSort : (mipmap → mipmap → Bool) → mipmaps → mipmaps)
    (hs : SortContract sortSort) (f : List Byte) :
    ReadIWI sortSort f ≠ Outcome.panic ∧
    ((∃ r, ReadIWI sortSort f = Outcome.ok r) ∨ (∃ e, ReadIWI sortSort f = Outcome.error e)) ∧
    (∀ h i ofs curr buf, readTable f = Outcome.ok (h, i, ofs, curr, buf) →
      ∃ mm rest, sortedMips sortSort ofs curr buf = mm :: rest ∧ 0 ≤ mm.size) := by
  have key : (∃ r, ReadIWI sortSort f = Outcome.ok r) ∨
      (∃ e, ReadIWI sortSort f = Outcome.error e) := by
    rcases readTable_cases f with ⟨x, hx⟩ | ⟨e, he⟩
    · obtain ⟨_, rfl⟩ := readTable_inv f x hx
      obtain ⟨mm, rest, hm, _, _, h0⟩ := sortedMips_head sortSort hs f _ _ _ _ _ hx
      have hf := ReadIWI_formula sortSort f _ _ _ _ _ mm rest hx hm
      have h2 : ¬ mm.size < 0 := by omega
      rw [hf]
      simp only [h2, if_false]
      split
      · exact Or.inr ⟨_, rfl⟩
      · split
        · exact Or.inl ⟨_, rfl⟩
        · split
          · exact Or.inr ⟨_, rfl⟩
          · split
            · exact Or.inl ⟨_, rfl⟩
            · exact Or.inr ⟨_, rfl⟩
    · exact Or.inr ⟨e, ReadIWI_of_table_error sortSort f e he⟩
  refine ⟨?_, key, ?_⟩
  · rcases key with ⟨r, hr⟩ | ⟨e, he⟩
    · rw [hr]
      exact fun h => Outcome.noConfusion h
    · rw [he]
      exact fun h => Outcome.noConfusion h
  · intro h i ofs curr buf ht
    obtain ⟨mm, rest, hm, _, _, h0⟩ := sortedMips_head sortSort hs f h i ofs curr buf ht
    exact ⟨mm, rest, hm, h0⟩

/-- Witness of C15: `negSizesInput`, on which all derived sizes are
negative, with insertion sort as the sorter. -/
theorem ReadIWI_no_panic_witness :
    negSizesInput.length < 2147483648 ∧
    ReadIWI insertionSort negSizesInput ≠ Outcome.panic :=
  ⟨by decide, (ReadIWI_no_panic insertionSort insertionSort_contract negSizesInput).1⟩

/-- C12: when the header, the metadata and the table are read and every size
derived from the table is negative, `ReadIWI` does not end with an error: with
every sorter that meets the contract of `sort.Sort` the zero-valued slot is
selected and `ReadIWI` succeeds with empty `Data`. -/
theorem ReadIWI_all_negative (sortSort : (mipmap → mipmap → Bool) → mipmaps → mipmaps)
    (hs : SortContract sortSort) (f : List Byte) (h : header) (i : info) (ofs : offsets)
    (curr : Int) (buf : Reader) (ht : readTable f = Outcome.ok (h, i, ofs, curr, buf))
    (hneg : ∀ x ∈ (offsets.mipMaps ofs (int32 curr) (int32 buf.Size)).drop ofs.length,
      x.size < 0) :
    (sortedMips sortSort ofs curr buf).head? = some ⟨0, 0⟩ ∧
    ReadIWI sortSort f = Outcome.ok ⟨h, i, []⟩ := by
  obtain ⟨_, hx⟩ := readTable_inv f _ ht
  simp only [Prod.mk.injEq] at hx
  obtain ⟨_, _, hofs, _, hbuf⟩ := hx
  have hne : ofs ≠ [] := by
    intro h0
    have hl : ofs.length = tableLen (f.getD 3 0) := by
      rw [hofs]
      simp only [tableAt, List.length_map, List.length_range]
    have := tableLen_pos (f.getD 3 0)
    rw [h0] at hl
    simp only [List.length_nil] at hl
    omega
  obtain ⟨rest, hr⟩ := head_zero_of_neg sortSort hs ofs (int32 curr) (int32 buf.Size) hne hneg
  have hm : sortedMips sortSort ofs curr buf = ⟨0, 0⟩ :: rest := hr
  refine ⟨by rw [hm]; rfl, ?_⟩
  subst hbuf
  rw [ReadIWI_formula sortSort f h i ofs curr _ ⟨0, 0⟩ rest ht hm]
  simp

/-- Witness of C12: the version-0x1B input `bo2NegInput`, whose eight derived
sizes are all -1, decodes to empty `Data` with insertion sort as the sorter. -/
theorem ReadIWI_all_negative_witness :
    (offsets.mipMaps [65, 66, 67, 68, 69, 70, 71, 63] (int32 64)
        (int32 (Reader.Size ⟨bo2NegInput, 64⟩))).drop 8 =
      [⟨65, -1⟩, ⟨66, -1⟩, ⟨67, -1⟩, ⟨68, -1⟩, ⟨69, -1⟩, ⟨70, -1⟩, ⟨71, -1⟩, ⟨64, -1⟩] ∧
    ReadIWI insertionSort bo2NegInput =
      Outcome.ok ⟨headerOf bo2NegInput, infoAt bo2NegInput 4, []⟩ :=
  have ht : readTable bo2NegInput =
      Outcome.ok (headerOf bo2NegInput, infoAt bo2NegInput 4,
        [65, 66, 67, 68, 69, 70, 71, 63], 64, ⟨bo2NegInput, 64⟩) :=
    readTable_ok bo2NegInput (by decide) (by decide)
  ⟨by decide,
   (ReadIWI_all_negative insertionSort insertionSort_contract bo2NegInput _ _ _ _ _ ht
    (by decide)).2⟩

/-- What a successful `ReadIWI` has read, for the first entry `mm` of the
sorted list. -/
theorem ReadIWI_ok_inv (sortSort : (mipmap → mipmap → Bool) → mipmaps → mipmaps)
    (f : List Byte) (h : header) (i : info) (ofs : offsets) (curr : Int) (p : Nat)
    (mm : mipmap) (rest : mipmaps) (r : IWI)
    (ht : readTable f = Outcome.ok (h, i, ofs, curr, ⟨f, p⟩))
    (hm : sortedMips sortSort ofs curr ⟨f, p⟩ = mm :: rest)
    (hr : ReadIWI sortSort f = Outcome.ok r) :
    r.Header = h ∧ r.Info = i ∧ 0 ≤ mm.offset ∧ 0 ≤ mm.size ∧
    r.Data = (f.drop mm.offset.toNat).take mm.size.toNat ∧
    (r.Data.length : Int) = mm.size ∧
    (0 < mm.size → mm.offset + mm.size ≤ (f.length : Int)) := by
  rw [ReadIWI_formula sortSort f _ _ _ _ _ mm rest ht hm] at hr
  by_cases h1 : mm.offset < 0
  · simp only [h1, if_true] at hr
    cases hr
  by_cases h2 : mm.size < 0
  · simp only [h1, h2, if_true, if_false] at hr
    cases hr
  by_cases h3 : mm.size = 0
  · simp only [h1, h2, h3, if_true, if_false] at hr
    have hd := Outcome.ok.inj hr
    subst hd
    refine ⟨rfl, rfl, by omega, by omega, ?_, ?_, by omega⟩
    · rw [h3]
      simp
    · rw [h3]
      rfl
  by_cases h4 : (f.length : Int) ≤ mm.offset
  · simp only [h1, h2, h3, h4, if_true, if_false] at hr
    cases hr
  by_cases h5 : mm.offset + mm.size ≤ (f.length : Int)
  · simp only [h1, h2, h3, h4, h5, if_true, if_false] at hr
    have hd := Outcome.ok.inj hr
    subst hd
    refine ⟨rfl, rfl, by omega, by omega, rfl, ?_, fun _ => h5⟩
    simp only [List.length_take, List.length_drop]
    omega
  · simp only [h1, h2, h3, h4, h5, if_false] at hr
    cases hr

/-- C11, as amended: if the selected entry, the first one of the sorted list,
has a positive size and `offset + size` exceeds the length of the input,
`ReadIWI` ends with an error; whenever `ReadIWI` succeeds, `Data` is exactly
the `size` bytes of the input that start at the offset of the selected entry,
`len(Data) = size`, and `offset + size` does not exceed the length of the
input when `size` is positive (for `size = 0` nothing is read, and the offset
may lie behind the end of the input); and for the versions with a table of
four entries, sorted by Go's `sort.Sort`, `offset + size` does not exceed the
length of the input whenever `ReadIWI` succeeds. -/
theorem ReadIWI_data_exact (sortSort : (mipmap → mipmap → Bool) → mipmaps → mipmaps)
    (f : List Byte) :
    (∀ h i ofs curr buf mm rest,
      readTable f = Outcome.ok (h, i, ofs, curr, buf) →
      sortedMips sortSort ofs curr buf = mm :: rest →
      0 < mm.size → (f.length : Int) < mm.offset + mm.size →
      ∃ e, ReadIWI sortSort f = Outcome.error e) ∧
    (∀ r, ReadIWI sortSort f = Outcome.ok r →
      ∃ h i ofs curr buf mm rest,
        readTable f = Outcome.ok (h, i, ofs, curr, buf) ∧
        sortedMips sortSort ofs curr buf = mm :: rest ∧
        0 ≤ mm.offset ∧ 0 ≤ mm.size ∧
        r.Data = (f.drop mm.offset.toNat).take mm.size.toNat ∧
        (r.Data.length : Int) = mm.size ∧
        (0 < mm.size → mm.offset + mm.size ≤ (f.length : Int))) ∧
    (∀ (next : Nat → Nat) (r : IWI), tableLen (f.getD 3 0) = 4 →
      ReadIWI (gosort.sortSort next) f = Outcome.ok r →
      ∃ h i ofs curr buf mm rest,
        readTable f = Outcome.ok (h, i, ofs, curr, buf) ∧
        sortedMips (gosort.sortSort next) ofs curr buf = mm :: rest ∧
        r.Data = (f.drop mm.offset.toNat).take mm.size.toNat ∧
        (r.Data.length : Int) = mm.size ∧
        mm.offset + mm.size ≤ (f.length : Int)) := by
  have key : ∀ (srt : (mipmap → mipmap → Bool) → mipmaps → mipmaps) (r : IWI),
      ReadIWI srt f = Outcome.ok r →
      ∃ mm rest,
        readTable f = Outcome.ok (headerOf f, infoAt f (metaPos (f.getD 3 0)),
          tableAt f (tablePos (f.getD 3 0)) (tableLen (f.getD 3 0)),
          ((tablePos (f.getD 3 0) + 4 * tableLen (f.getD 3 0) : Nat) : Int),
          ⟨f, tablePos (f.getD 3 0) + 4 * tableLen (f.getD 3 0)⟩) ∧
        sortedMips srt (tableAt f (tablePos (f.getD 3 0)) (tableLen (f.getD 3 0)))
          ((tablePos (f.getD 3 0) + 4 * tableLen (f.getD 3 0) : Nat) : Int)
          ⟨f, tablePos (f.getD 3 0) + 4 * tableLen (f.getD 3 0)⟩ = mm :: rest ∧
        0 ≤ mm.offset ∧ 0 ≤ mm.size ∧
        r.Data = (f.drop mm.offset.toNat).take mm.size.toNat ∧
        (r.Data.length : Int) = mm.size ∧
        (0 < mm.size → mm.offset + mm.size ≤ (f.length : Int)) := by
    intro srt r hr
    rcases readTable_cases f with ⟨x, hx⟩ | ⟨e, he⟩
    swap
    · rw [ReadIWI_of_table_error srt f e he] at hr
      cases hr
    obtain ⟨_, rfl⟩ := readTable_inv f x hx
    cases hm : sortedMips srt (tableAt f (tablePos (f.getD 3 0)) (tableLen (f.getD 3 0)))
        ((tablePos (f.getD 3 0) + 4 * tableLen (f.getD 3 0) : Nat) : Int)
        ⟨f, tablePos (f.getD 3 0) + 4 * tableLen (f.getD 3 0)⟩ with
    | nil =>
      rw [ReadIWI_nil srt f _ _ _ _ _ hx hm] at hr
      cases hr
    | cons mm rest =>
      obtain ⟨_, _, k1, k2, k3, k4, k5⟩ := ReadIWI_ok_inv srt f _ _ _ _ _ mm rest r hx hm hr
      exact ⟨mm, rest, hx, rfl, k1, k2, k3, k4, k5⟩
  refine ⟨?_, ?_, ?_⟩
  · intro h i ofs curr buf mm rest ht hm hpos hlong
    obtain ⟨_, hx⟩ := readTable_inv f _ ht
    simp only [Prod.mk.injEq] at hx
    obtain ⟨_, _, _, _, hbuf⟩ := hx
    subst hbuf
    rw [ReadIWI_formula sortSort f h i ofs curr _ mm rest ht hm]
    have h2 : ¬ mm.size < 0 := by omega
    have h3 : ¬ mm.size = 0 := by omega
    have h5 : ¬ mm.offset + mm.size ≤ (f.length : Int) := by omega
    simp only [h2, h3, h5, if_false]
    split
    · exact ⟨_, rfl⟩
    · split
      · exact ⟨_, rfl⟩
      · exact ⟨_, rfl⟩
  · intro r hr
    obtain ⟨mm, rest, hx, hm, k1, k2, k3, k4, k5⟩ := key sortSort r hr
    exact ⟨_, _, _, _, _, mm, rest, hx, hm, k1, k2, k3, k4, k5⟩
  · intro next r h4 hr
    obtain ⟨mm, rest, hx, hm, _, k2, k3, k4, k5⟩ := key (gosort.sortSort next) r hr
    refine ⟨_, _, _, _, _, mm, rest, hx, hm, k3, k4, ?_⟩
    have hlen : (tableAt f (tablePos (f.getD 3 0)) (tableLen (f.getD 3 0))).length = 4 := by
      rw [h4]
      rfl
    have hh := sortedMips_four next (tableAt f (tablePos (f.getD 3 0)) (tableLen (f.getD 3 0)))
      ((tablePos (f.getD 3 0) + 4 * tableLen (f.getD 3 0) : Nat) : Int)
      ⟨f, tablePos (f.getD 3 0) + 4 * tableLen (f.getD 3 0)⟩ hlen
    rw [hm] at hh
    simp only [List.head?_cons, Option.some.injEq] at hh
    rcases firstLargest_spec ((offsets.mipMaps
        (tableAt f (tablePos (f.getD 3 0)) (tableLen (f.getD 3 0)))
        (int32 ((tablePos (f.getD 3 0) + 4 * tableLen (f.getD 3 0) : Nat) : Int))
        (int32 (Reader.Size ⟨f, tablePos (f.getD 3 0) + 4 * tableLen (f.getD 3 0)⟩))).drop
          (tableAt f (tablePos (f.getD 3 0)) (tableLen (f.getD 3 0))).length) ⟨0, 0⟩ with
      ⟨h1, _⟩ | ⟨_, x, _, _, h2, h3, _, _⟩
    · rw [h1] at hh
      subst hh
      simp only [zero_add]
      exact Int.ofNat_nonneg _
    · rw [h2] at hh
      subst hh
      exact k5 h3

/-- Witness of C11 as amended: on `truncatedInput` the selected entry (28, 10)
ends behind the 34 bytes of the input and `ReadIWI` ends with an error; on
`fullInput`, a table of four entries, it succeeds, also with Go's `sort.Sort`,
and `Data` is the 10 bytes at offset 28. -/
theorem ReadIWI_data_exact_witness :
    (∃ e, ReadIWI insertionSort truncatedInput = Outcome.error e) ∧
    (∃ r, ReadIWI insertionSort fullInput = Outcome.ok r ∧
      ∃ h i ofs curr buf mm rest,
        readTable fullInput = Outcome.ok (h, i, ofs, curr, buf) ∧
        sortedMips insertionSort ofs curr buf = mm :: rest ∧
        0 ≤ mm.offset ∧ 0 ≤ mm.size ∧
        r.Data = (fullInput.drop mm.offset.toNat).take mm.size.toNat ∧
        (r.Data.length : Int) = mm.size ∧
        (0 < mm.size → mm.offset + mm.size ≤ (fullInput.length : Int))) ∧
    (∃ r, ReadIWI (gosort.sortSort (gosort.xorshiftNext 13 7 17)) fullInput = Outcome.ok r ∧
      ∃ h i ofs curr buf mm rest,
        readTable fullInput = Outcome.ok (h, i, ofs, curr, buf) ∧
        sortedMips (gosort.sortSort (gosort.xorshiftNext 13 7 17)) ofs curr buf = mm :: rest ∧
        r.Data = (fullInput.drop mm.offset.toNat).take mm.size.toNat ∧
        (r.Data.length : Int) = mm.size ∧
        mm.offset + mm.size ≤ (fullInput.length : Int)) :=
  ⟨(ReadIWI_data_exact insertionSort truncatedInput).1
      (headerOf truncatedInput) (infoAt truncatedInput 4) [38, 38, 38, 38] 28
      ⟨truncatedInput, 28⟩ ⟨28, 10⟩
      [⟨0, 0⟩, ⟨0, 0⟩, ⟨0, 0⟩, ⟨0, 0⟩, ⟨38, 0⟩, ⟨38, 0⟩, ⟨38, -4⟩]
      (readTable_ok truncatedInput (by decide) (by decide)) (by decide) (by decide)
      (by decide),
   ⟨⟨headerOf fullInput, infoAt fullInput 4, [1, 2, 3, 4, 5, 6, 7, 8, 9, 10]⟩, by decide,
    (ReadIWI_data_exact insertionSort fullInput).2.1 _ (by decide)⟩,
   ⟨⟨headerOf fullInput, infoAt fullInput 4, [1, 2, 3, 4, 5, 6, 7, 8, 9, 10]⟩, by decide,
    (ReadIWI_data_exact insertionSort fullInput).2.2 (gosort.xorshiftNext 13 7 17) _
      (by decide) (by decide)⟩⟩

/-- Counterexample to C11 as stated, for a table of `N = 8` entries. The input
`bo1PastEndInput` (version 0x0D, 48 bytes) is read up to its table 100, 101,
102, 103, 103, 104, 104, 47; the largest size, 0, is shared by the zero-valued
slots and the derived entries (103, 0) and (104, 0). Go's `sort.Sort` puts
(103, 0) first, whatever its random source: it is the entry at index 12, which
is taken as the pivot, swapped to the front and left there. `ReadIWI` seeks to
103, reads nothing and succeeds, although `offset + size = 103` exceeds the
length 48 of the input. (With either set of shift distances of the random
source the sorted list is in descending order of size.) -/
theorem ReadIWI_data_exact_counterexample :
    readTable bo1PastEndInput =
      Outcome.ok (headerOf bo1PastEndInput, infoAt bo1PastEndInput 4,
        [100, 101, 102, 103, 103, 104, 104, 47], 48, ⟨bo1PastEndInput, 48⟩) ∧
    (offsets.mipMaps [100, 101, 102, 103, 103, 104, 104, 47] (int32 48)
        (int32 (Reader.Size ⟨bo1PastEndInput, 48⟩))).drop 8 =
      [⟨100, -52⟩, ⟨101, -1⟩, ⟨102, -1⟩, ⟨103, -1⟩, ⟨103, 0⟩, ⟨104, -1⟩, ⟨104, 0⟩,
        ⟨48, -1⟩] ∧
    (∀ next : Nat → Nat,
      (sortedMips (gosort.sortSort next) [100, 101, 102, 103, 103, 104, 104, 47] 48
        ⟨bo1PastEndInput, 48⟩).head? = some ⟨103, 0⟩ ∧
      ReadIWI (gosort.sortSort next) bo1PastEndInput =
        Outcome.ok ⟨headerOf bo1PastEndInput, infoAt bo1PastEndInput 4, []⟩) ∧
    (sortedMips (gosort.sortSort (gosort.xorshiftNext 13 7 17))
      [100, 101, 102, 103, 103, 104, 104, 47] 48 ⟨bo1PastEndInput, 48⟩).map mipmap.size =
      [0, 0, 0, 0, 0, 0, 0, 0, 0, 0, -1, -1, -1, -1, -1, -52] ∧
    (sortedMips (gosort.sortSort (gosort.xorshiftNext 13 17 5))
      [100, 101, 102, 103, 103, 104, 104, 47] 48 ⟨bo1PastEndInput, 48⟩).map mipmap.size =
      [0, 0, 0, 0, 0, 0, 0, 0, 0, 0, -1, -1, -1, -1, -1, -52] ∧
    ¬ ((103 : Int) + 0 ≤ (bo1PastEndInput.length : Int)) := by
  have hh : ∀ next : Nat → Nat,
      (sortedMips (gosort.sortSort next) [100, 101, 102, 103, 103, 104, 104, 47] 48
        ⟨bo1PastEndInput, 48⟩).head? = some ⟨103, 0⟩ := fun next =>
    sortSort_head_of_pivot next (sortReverse mipmaps.Less)
      (offsets.mipMaps [100, 101, 102, 103, 103, 104, 104, 47] (int32 48)
        (int32 (Reader.Size ⟨bo1PastEndInput, 48⟩)))
      [⟨103, 0⟩, ⟨0, 0⟩, ⟨0, 0⟩, ⟨0, 0⟩, ⟨0, 0⟩, ⟨0, 0⟩, ⟨0, 0⟩, ⟨0, 0⟩,
       ⟨100, -52⟩, ⟨101, -1⟩, ⟨102, -1⟩, ⟨103, -1⟩, ⟨0, 0⟩, ⟨104, -1⟩, ⟨104, 0⟩, ⟨48, -1⟩]
      12 (by decide) (by decide) (by decide) (by decide)
  refine ⟨readTable_ok bo1PastEndInput (by decide) (by decide), by decide,
    fun next => ⟨hh next, ?_⟩, by decide, by decide, by decide⟩
  obtain ⟨rest, hr⟩ := eq_cons_of_head _ _ (hh next)
  rw [ReadIWI_ok_of_head (gosort.sortSort next) bo1PastEndInput _ _ _ _ _ ⟨103, 0⟩ rest
    (readTable_ok bo1PastEndInput (by decide) (by decide)) hr (by decide) (by decide)
    (Or.inl rfl)]
  rfl

/-! ## ReadIWI: bytes that are skipped -/

theorem ReadFull_short_eq (r : Reader) (n : Nat) (hn : 0 < n) (h : r.s.length < r.i + n) :
    ReadFull r n =
      Outcome.error (if r.s.length ≤ r.i then Error.EOF else Error.ErrUnexpectedEOF) := by
  unfold ReadFull
  have h1 : n ≠ 0 := by omega
  have h3 : ¬ r.i + n ≤ r.s.length := by omega
  by_cases h2 : r.s.length ≤ r.i
  · simp [h1, h2]
  · simp [h1, h2, h3]

theorem readTable_unsupported (f : List Byte) (h4 : 4 ≤ f.length)
    (hs : (headerOf f).isSupported = false) :
    readTable f = Outcome.error (Error.unsupported (headerOf f)) := by
  unfold readTable
  simp [binaryRead_header_ok f h4, bind, Outcome.bind, hs]

/-- The error of lines 128 to 178 on a version-0x1B input with a supported
header that is shorter than 64 bytes: it depends on the length only. -/
theorem readTable_bo2_short (f : List Byte) (hs : (headerOf f).isSupported = true)
    (hv : f.getD 3 0 = 0x1B) (h4 : 4 ≤ f.length) (hl : f.length < 64) :
    readTable f = Outcome.error
      (if f.length < 12 then (if f.length ≤ 4 then Error.EOF else Error.ErrUnexpectedEOF)
       else (if f.length ≤ 32 then Error.EOF else Error.ErrUnexpectedEOF)) := by
  have hV : (headerOf f).Version = 0x1B := hv
  unfold readTable
  by_cases h12 : f.length < 12
  · have he : binaryRead_info ⟨f, 4⟩ = Outcome.error
        (if f.length ≤ 4 then Error.EOF else Error.ErrUnexpectedEOF) := by
      unfold binaryRead_info
      rw [ReadFull_short_eq ⟨f, 4⟩ 8 (by omega) (by simpa using h12)]
      rfl
    simp [binaryRead_header_ok f h4, bind, Outcome.bind, pure, hs, hV,
      IWI_VERSION_CODMW2, IWI_VERSION_CODMW3, IWI_VERSION_CODBO1, IWI_VERSION_CODBO2, he, h12]
  · have he : binaryRead_offsets ⟨f, 32⟩ 8 = Outcome.error
        (if f.length ≤ 32 then Error.EOF else Error.ErrUnexpectedEOF) := by
      unfold binaryRead_offsets
      rw [ReadFull_short_eq ⟨f, 32⟩ (4 * 8) (by omega) (by simpa using hl)]
      rfl
    simp [binaryRead_header_ok f h4, bind, Outcome.bind, pure, hs, hV,
      IWI_VERSION_CODMW2, IWI_VERSION_CODMW3, IWI_VERSION_CODBO1, IWI_VERSION_CODBO2,
      Seek_16, Seek_32, binaryRead_info_ok f 4 (by omega), he, h12]

theorem mipMaps_eight (o0 o1 o2 o3 o4 o5 o6 o7 first size : Int) :
    offsets.mipMaps [o0, o1, o2, o3, o4, o5, o6, o7] first size =
      [⟨0, 0⟩, ⟨0, 0⟩, ⟨0, 0⟩, ⟨0, 0⟩, ⟨0, 0⟩, ⟨0, 0⟩, ⟨0, 0⟩, ⟨0, 0⟩,
        ⟨o0, int32 (size - o0)⟩, ⟨o1, int32 (o0 - o1)⟩, ⟨o2, int32 (o1 - o2)⟩,
        ⟨o3, int32 (o2 - o3)⟩, ⟨o4, int32 (o3 - o4)⟩, ⟨o5, int32 (o4 - o5)⟩,
        ⟨o6, int32 (o5 - o6)⟩, ⟨first, int32 (o7 - first)⟩] := rfl

theorem tableAt_eight (f : List Byte) (t : Nat) :
    tableAt f t 8 =
      [leInt32At f t, leInt32At f (t + 4), leInt32At f (t + 8), leInt32At f (t + 12),
        leInt32At f (t + 16), leInt32At f (t + 20), leInt32At f (t + 24),
        leInt32At f (t + 28)] := rfl

theorem leInt32At_range (f : List Byte) (p : Nat) :
    -2147483648 ≤ leInt32At f p ∧ leInt32At f p < 2147483648 := by
  unfold leInt32At
  have := (f.getD p 0).isLt
  have := (f.getD (p + 1) 0).isLt
  have := (f.getD (p + 2) 0).isLt
  have := (f.getD (p + 3) 0).isLt
  simp only []
  split <;> omega

/-- Two lists that have the same length and the same bytes from position `t`
on have the same bytes behind every position `a ≥ t`. -/
theorem drop_eq_of_getD (f1 f2 : List Byte) (t a : Nat) (hlen : f1.length = f2.length)
    (hsame : ∀ k, t ≤ k → f1.getD k 0 = f2.getD k 0) (ha : t ≤ a) :
    f1.drop a = f2.drop a := by
  apply List.ext_getElem?
  intro n
  rw [List.getElem?_drop, List.getElem?_drop]
  by_cases hk : a + n < f1.length
  · have hk2 : a + n < f2.length := by omega
    have e := hsame (a + n) (by omega)
    rw [List.getD_eq_getElem f1 0 hk, List.getD_eq_getElem f2 0 hk2] at e
    rw [List.getElem?_eq_getElem hk, List.getElem?_eq_getElem hk2, e]
  · rw [List.getElem?_eq_none (by omega), List.getElem?_eq_none (by omega)]

theorem infoAt_congr (f1 f2 : List Byte) (p : Nat)
    (h : ∀ k, p ≤ k → k < p + 8 → f1.getD k 0 = f2.getD k 0) :
    infoAt f1 p = infoAt f2 p := by
  unfold infoAt le16At
  rw [h p (by omega) (by omega), h (p + 1) (by omega) (by omega),
    h (p + 2) (by omega) (by omega), h (p + 2 + 1) (by omega) (by omega),
    h (p + 4) (by omega) (by omega), h (p + 4 + 1) (by omega) (by omega),
    h (p + 6) (by omega) (by omega), h (p + 6 + 1) (by omega) (by omega)]

theorem leInt32At_congr (f1 f2 : List Byte) (p : Nat)
    (h : ∀ k, p ≤ k → k < p + 4 → f1.getD k 0 = f2.getD k 0) :
    leInt32At f1 p = leInt32At f2 p := by
  unfold leInt32At
  rw [h p (by omega) (by omega), h (p + 1) (by omega) (by omega),
    h (p + 2) (by omega) (by omega), h (p + 3) (by omega) (by omega)]

theorem tableAt_congr (f1 f2 : List Byte) (t n : Nat)
    (h : ∀ k, t ≤ k → k < t + 4 * n → f1.getD k 0 = f2.getD k 0) :
    tableAt f1 t n = tableAt f2 t n := by
  unfold tableAt
  apply List.map_congr_left
  intro j hj
  have hj' : j < n := List.mem_range.mp hj
  exact leInt32At_congr f1 f2 (t + 4 * j) (fun k h1 h2 => h k (by omega) (by omega))

theorem version_length (f : List Byte) (v : Byte) (hv : f.getD 3 0 = v) (hne : v ≠ 0) :
    4 ≤ f.length := by
  by_contra hc
  have : f.getD 3 0 = 0 := List.getD_eq_default f 0 (by omega)
  rw [this] at hv
  exact hne hv.symm

/-- C14: two version-0x1B inputs of equal length that agree on every byte
outside the positions 0x0C to 0x1F, and whose eight table offsets are all at
least 0x40, give the same outcome of `ReadIWI` (the same error, or the same
header, info and data), for every sorter that meets the contract of
`sort.Sort`; and when `ReadIWI` succeeds, `Data` is the bytes of one of the
eight derived entries, one whose size is the largest of the eight. -/
theorem ReadIWI_gap_ignored (sortSort : (mipmap → mipmap → Bool) → mipmaps → mipmaps)
    (hs : SortContract sortSort) (f1 f2 : List Byte)
    (hlen : f1.length = f2.length)
    (hv : f1.getD 3 0 = 0x1B)
    (hsame : ∀ k, k < 0x0C ∨ 0x20 ≤ k → f1.getD k 0 = f2.getD k 0)
    (hofs : ∀ j, j < 8 → 0x40 ≤ leInt32At f1 (0x20 + 4 * j)) :
    ReadIWI sortSort f1 = ReadIWI sortSort f2 ∧
    (∀ r, ReadIWI sortSort f1 = Outcome.ok r →
      ∃ x ∈ (offsets.mipMaps (tableAt f1 0x20 8) 0x40 (int32 (f1.length : Int))).drop 8,
        (∀ y ∈ (offsets.mipMaps (tableAt f1 0x20 8) 0x40 (int32 (f1.length : Int))).drop 8,
          y.size ≤ x.size) ∧
        r.Data = (f1.drop x.offset.toNat).take x.size.toNat ∧
        (r.Data.length : Int) = x.size) := by
  have h4 : 4 ≤ f1.length := version_length f1 0x1B hv (by decide)
  have hH : headerOf f2 = headerOf f1 := by
    unfold headerOf
    rw [hsame 0 (Or.inl (by omega)), hsame 1 (Or.inl (by omega)), hsame 2 (Or.inl (by omega)),
      hsame 3 (Or.inl (by omega))]
  have hv2 : f2.getD 3 0 = 0x1B := by rw [← hsame 3 (Or.inl (by omega))]; exact hv
  by_cases hs1 : (headerOf f1).isSupported = true
  swap
  · have hs1' : (headerOf f1).isSupported = false := by
      cases hb : (headerOf f1).isSupported
      · rfl
      · exact absurd hb hs1
    have e1 := readTable_unsupported f1 h4 hs1'
    have e2 := readTable_unsupported f2 (by omega) (by rw [hH]; exact hs1')
    rw [hH] at e2
    rw [ReadIWI_of_table_error sortSort f1 _ e1, ReadIWI_of_table_error sortSort f2 _ e2]
    exact ⟨rfl, fun r hr => by cases hr⟩
  have hs2 : (headerOf f2).isSupported = true := by rw [hH]; exact hs1
  by_cases hl : f1.length < 64
  · have e1 := readTable_bo2_short f1 hs1 hv h4 hl
    have e2 := readTable_bo2_short f2 hs2 hv2 (by omega) (by omega)
    rw [← hlen] at e2
    rw [ReadIWI_of_table_error sortSort f1 _ e1, ReadIWI_of_table_error sortSort f2 _ e2]
    exact ⟨rfl, fun r hr => by cases hr⟩
  have hT : tablePos (0x1B : Byte) = 32 ∧ tableLen (0x1B : Byte) = 8 ∧
      metaPos (0x1B : Byte) = 4 := by decide
  obtain ⟨hT1, hT2, hT3⟩ := hT
  have ht1 := readTable_ok f1 hs1 (by rw [hv, hT1, hT2]; omega)
  have ht2 := readTable_ok f2 hs2 (by rw [hv2, hT1, hT2]; omega)
  rw [hv, hT1, hT2, hT3] at ht1
  rw [hv2, hT1, hT2, hT3, hH,
    ← infoAt_congr f1 f2 4 (fun k _ h2 => hsame k (Or.inl (by omega))),
    ← tableAt_congr f1 f2 32 8 (fun k h1 _ => hsame k (Or.inr (by omega)))] at ht2
  obtain ⟨mm, rest, hm1, hmem, hmax, h0⟩ := sortedMips_head sortSort hs f1 _ _ _ _ _ ht1
  have hm2 : sortedMips sortSort (tableAt f1 32 8) ((32 + 4 * 8 : Nat) : Int)
      ⟨f2, 32 + 4 * 8⟩ = mm :: rest := by
    rw [← hm1]
    simp only [sortedMips, Reader.Size, hlen]
  have hsize : int32 (Reader.Size ⟨f1, 32 + 4 * 8⟩) = int32 (f1.length : Int) := rfl
  have hcurr : int32 ((32 + 4 * 8 : Nat) : Int) = 64 := by decide
  rw [hsize, hcurr] at hmem hmax
  have o0 := hofs 0 (by omega)
  have o1 := hofs 1 (by omega)
  have o2 := hofs 2 (by omega)
  have o3 := hofs 3 (by omega)
  have o4 := hofs 4 (by omega)
  have o5 := hofs 5 (by omega)
  have o6 := hofs 6 (by omega)
  have o7 := hofs 7 (by omega)
  have r7 := leInt32At_range f1 (32 + 28)
  simp only [Nat.reduceMul, Nat.reduceAdd] at o0 o1 o2 o3 o4 o5 o6 o7 r7
  have hdrv : (offsets.mipMaps (tableAt f1 32 8) 64 (int32 (f1.length : Int))).drop 8 =
      [⟨leInt32At f1 32, int32 (int32 (f1.length : Int) - leInt32At f1 32)⟩,
       ⟨leInt32At f1 36, int32 (leInt32At f1 32 - leInt32At f1 36)⟩,
       ⟨leInt32At f1 40, int32 (leInt32At f1 36 - leInt32At f1 40)⟩,
       ⟨leInt32At f1 44, int32 (leInt32At f1 40 - leInt32At f1 44)⟩,
       ⟨leInt32At f1 48, int32 (leInt32At f1 44 - leInt32At f1 48)⟩,
       ⟨leInt32At f1 52, int32 (leInt32At f1 48 - leInt32At f1 52)⟩,
       ⟨leInt32At f1 56, int32 (leInt32At f1 52 - leInt32At f1 56)⟩,
       ⟨64, int32 (leInt32At f1 60 - 64)⟩] := rfl
  have hoff : ∀ x ∈ (offsets.mipMaps (tableAt f1 32 8) 64 (int32 (f1.length : Int))).drop 8,
      64 ≤ x.offset := by
    intro x hx
    rw [hdrv] at hx
    simp only [List.mem_cons, List.mem_singleton, List.not_mem_nil, or_false] at hx
    rcases hx with rfl | rfl | rfl | rfl | rfl | rfl | rfl | rfl <;> simp only [] <;> omega
  have hlast : (⟨64, int32 (leInt32At f1 60 - 64)⟩ : mipmap) ∈
      (offsets.mipMaps (tableAt f1 32 8) 64 (int32 (f1.length : Int))).drop 8 := by
    rw [hdrv]
    simp
  have hlast0 : 0 ≤ int32 (leInt32At f1 60 - 64) := by
    rw [int32_of_range _ (by omega) (by omega)]
    omega
  have hsplit := mipMaps_split (tableAt f1 32 8) 64 (int32 (f1.length : Int))
  have hl8 : (tableAt f1 32 8).length = 8 := rfl
  rw [hl8] at hsplit
  rw [hsplit] at hmem
  constructor
  · rw [ReadIWI_formula sortSort f1 _ _ _ _ _ mm rest ht1 hm1,
      ReadIWI_formula sortSort f2 _ _ _ _ _ mm rest ht2 hm2, ← hlen]
    by_cases h3 : mm.size = 0
    · simp only [h3, if_true, lt_self_iff_false, if_false]
    · have hd : mm ∈ (offsets.mipMaps (tableAt f1 32 8) 64 (int32 (f1.length : Int))).drop 8 := by
        rcases List.mem_append.mp hmem with hz | hd
        · rw [(List.mem_replicate.mp hz).2] at h3
          exact absurd rfl h3
        · exact hd
      have ho := hoff mm hd
      rw [drop_eq_of_getD f1 f2 32 mm.offset.toNat hlen (fun k hk => hsame k (Or.inr hk))
        (by omega)]
  · intro r hr
    obtain ⟨_, _, k1, k2, k3, k4, _⟩ := ReadIWI_ok_inv sortSort f1 _ _ _ _ _ mm rest r ht1 hm1 hr
    rcases List.mem_append.mp hmem with hz | hd
    · have hmm : mm = ⟨0, 0⟩ := (List.mem_replicate.mp hz).2
      have hle := hmax _ (List.mem_of_mem_drop hlast)
      rw [hmm] at hle k3 k4
      simp only [] at hle
      have hz7 : int32 (leInt32At f1 60 - 64) = 0 := by omega
      refine ⟨_, hlast, ?_, ?_, ?_⟩
      · intro y hy
        have := hmax y (List.mem_of_mem_drop hy)
        rw [hmm] at this
        simp only [hz7]
        exact this
      · rw [k3]
        simp only [hz7]
        simp
      · rw [k4]
        simp only [hz7]
    · exact ⟨mm, hd, fun y hy => hmax y (List.mem_of_mem_drop hy), k3, k4⟩

/-- Witness of C14: the inputs `bo2Input 0xAA` and `bo2Input 0x55` differ in
the 20 gap bytes only and decode to the same result, the 8 payload bytes. -/
theorem ReadIWI_gap_ignored_witness :
    bo2Input 0xAA ≠ bo2Input 0x55 ∧
    ReadIWI insertionSort (bo2Input 0xAA) = ReadIWI insertionSort (bo2Input 0x55) ∧
    ReadIWI insertionSort (bo2Input 0x55) =
      Outcome.ok ⟨headerOf (bo2Input 0x55), infoAt (bo2Input 0x55) 4,
        [1, 2, 3, 4, 5, 6, 7, 8]⟩ :=
  ⟨by decide,
   (ReadIWI_gap_ignored insertionSort insertionSort_contract (bo2Input 0xAA) (bo2Input 0x55)
      (by decide) (by decide)
      (by
        intro k hk
        by_cases h72 : k < 72
        · interval_cases k <;> first | rfl | omega
        · rw [List.getD_eq_default _ _ (by simp [bo2Input]; omega),
            List.getD_eq_default _ _ (by simp [bo2Input]; omega)])
      (by
        intro j hj
        interval_cases j <;> decide)).1,
   by decide⟩

/-! ## ReadIWI: the gap of version 0x08 -/

/-- Behind position `t` the list `f2` is the list `f1` moved by 4 places. -/
theorem drop_shift (f1 f2 : List Byte) (t a : Nat) (hlen : f2.length = f1.length + 4)
    (hpay : ∀ k, t ≤ k → f2.getD (k + 4) 0 = f1.getD k 0) (ha : t ≤ a) :
    f2.drop (a + 4) = f1.drop a := by
  apply List.ext_getElem?
  intro n
  rw [List.getElem?_drop, List.getElem?_drop]
  by_cases hk : a + n < f1.length
  · have hk2 : a + 4 + n < f2.length := by omega
    have e := hpay (a + n) (by omega)
    have e' : a + n + 4 = a + 4 + n := by omega
    rw [e'] at e
    rw [List.getD_eq_getElem f2 0 hk2, List.getD_eq_getElem f1 0 hk] at e
    rw [List.getElem?_eq_getElem hk, List.getElem?_eq_getElem hk2, e]
  · rw [List.getElem?_eq_none (by omega), List.getElem?_eq_none (by omega)]

theorem infoAt_shift (f1 f2 : List Byte) (p q : Nat)
    (h : ∀ k, k < 8 → f2.getD (q + k) 0 = f1.getD (p + k) 0) :
    infoAt f2 q = infoAt f1 p := by
  have e0 : f2.getD q 0 = f1.getD p 0 := h 0 (by omega)
  have e1 : f2.getD (q + 1) 0 = f1.getD (p + 1) 0 := h 1 (by omega)
  have e2 : f2.getD (q + 2) 0 = f1.getD (p + 2) 0 := h 2 (by omega)
  have e3 : f2.getD (q + 2 + 1) 0 = f1.getD (p + 2 + 1) 0 := h 3 (by omega)
  have e4 : f2.getD (q + 4) 0 = f1.getD (p + 4) 0 := h 4 (by omega)
  have e5 : f2.getD (q + 4 + 1) 0 = f1.getD (p + 4 + 1) 0 := h 5 (by omega)
  have e6 : f2.getD (q + 6) 0 = f1.getD (p + 6) 0 := h 6 (by omega)
  have e7 : f2.getD (q + 6 + 1) 0 = f1.getD (p + 6 + 1) 0 := h 7 (by omega)
  unfold infoAt le16At
  rw [e0, e1, e2, e3, e4, e5, e6, e7]

/-- The first derived entry `[o0, fileEnd)` ends inside the input whenever its
size, computed in `int32`, is not negative. -/
theorem first_entry_fits (L o0 : Int) (b : o0 ≤ L) (h0 : 0 ≤ int32 (int32 L - o0)) :
    o0 + int32 (int32 L - o0) ≤ L := by
  unfold int32 at h0 ⊢
  omega

/-- The renaming of entries that turns the entries of a version-0x05 input
into those of its version-0x08 counterpart: a zero-valued slot stays, every
other offset moves by the 4 gap bytes; sizes stay. -/
theorem mipMaps_shift (o0 o1 o2 o3 L : Int)
    (b0 : 28 ≤ o0 ∧ o0 ≤ L) (b1 : 28 ≤ o1 ∧ o1 ≤ L) (b2 : 28 ≤ o2 ∧ o2 ≤ L)
    (r0 : o0 + 4 < 2147483648) (r1 : o1 + 4 < 2147483648) (r2 : o2 + 4 < 2147483648) :
    offsets.mipMaps [o0 + 4, o1 + 4, o2 + 4, o3 + 4] (int32 32) (int32 (L + 4)) =
      (offsets.mipMaps [o0, o1, o2, o3] (int32 28) (int32 L)).map
        (fun m => if m.offset = 0 then m else ⟨m.offset + 4, m.size⟩) := by
  have e28 : int32 28 = 28 := by decide
  have e32 : int32 32 = 32 := by decide
  have s0 : int32 (int32 (L + 4) - (o0 + 4)) = int32 (int32 L - o0) := by
    unfold int32
    omega
  have s1 : int32 (o0 + 4 - (o1 + 4)) = int32 (o0 - o1) := by
    congr 1
    omega
  have s2 : int32 (o1 + 4 - (o2 + 4)) = int32 (o1 - o2) := by
    congr 1
    omega
  have s3 : int32 (o3 + 4 - 32) = int32 (o3 - 28) := by
    congr 1
    omega
  have n0 : ¬ o0 = 0 := by omega
  have n1 : ¬ o1 = 0 := by omega
  have n2 : ¬ o2 = 0 := by omega
  rw [mipMaps_four, mipMaps_four, e28, e32, s0, s1, s2, s3]
  simp [n0, n1, n2]

/-- C13: let `F` be a version-0x05 input whose four table offsets lie in
`[28, len F]`, and `F'` its version-0x08 counterpart: the same magic, version
0x08, four arbitrary gap bytes at 4 to 7, the metadata of `F` at 8, a table at
16 whose offsets are those of `F` plus 4, and the bytes of `F` from 28 on moved
by 4. With every sorter that meets the contract of `sort.Sort` and treats the
elements through `Less` only, `ReadIWI` has the same outcome on both: both runs
succeed with identical `Info` and identical `Data`, or both end with an error;
and both succeed when the magic is "IWi". -/
theorem ReadIWI_gap_version (sortSort : (mipmap → mipmap → Bool) → mipmaps → mipmaps)
    (hs : SortContract sortSort) (hu : SortUniform sortSort) (F F' : List Byte)
    (hv : F.getD 3 0 = 0x05)
    (hofs : ∀ j, j < 4 →
      28 ≤ leInt32At F (12 + 4 * j) ∧ leInt32At F (12 + 4 * j) ≤ (F.length : Int))
    (hlen' : F'.length = F.length + 4)
    (hmagic' : ∀ k, k < 3 → F'.getD k 0 = F.getD k 0)
    (hv' : F'.getD 3 0 = 0x08)
    (hmeta : ∀ k, 4 ≤ k → k < 12 → F'.getD (k + 4) 0 = F.getD k 0)
    (htab : ∀ j, j < 4 → leInt32At F' (16 + 4 * j) = leInt32At F (12 + 4 * j) + 4)
    (hpay : ∀ k, 28 ≤ k → F'.getD (k + 4) 0 = F.getD k 0) :
    ((∃ r r', ReadIWI sortSort F = Outcome.ok r ∧ ReadIWI sortSort F' = Outcome.ok r' ∧
        r'.Info = r.Info ∧ r'.Data = r.Data) ∨
      ((∃ e, ReadIWI sortSort F = Outcome.error e) ∧
        (∃ e', ReadIWI sortSort F' = Outcome.error e'))) ∧
    ((F.getD 0 0 = 73 ∧ F.getD 1 0 = 87 ∧ F.getD 2 0 = 105) →
      ∃ r r', ReadIWI sortSort F = Outcome.ok r ∧ ReadIWI sortSort F' = Outcome.ok r' ∧
        r'.Info = r.Info ∧ r'.Data = r.Data) := by
  have b0 : 28 ≤ leInt32At F 12 ∧ leInt32At F 12 ≤ (F.length : Int) := hofs 0 (by omega)
  have b1 : 28 ≤ leInt32At F (12 + 4) ∧ leInt32At F (12 + 4) ≤ (F.length : Int) :=
    hofs 1 (by omega)
  have b2 : 28 ≤ leInt32At F (12 + 8) ∧ leInt32At F (12 + 8) ≤ (F.length : Int) :=
    hofs 2 (by omega)
  have b3 : 28 ≤ leInt32At F (12 + 12) ∧ leInt32At F (12 + 12) ≤ (F.length : Int) :=
    hofs 3 (by omega)
  have t0 : leInt32At F' 16 = leInt32At F 12 + 4 := htab 0 (by omega)
  have t1 : leInt32At F' (16 + 4) = leInt32At F (12 + 4) + 4 := htab 1 (by omega)
  have t2 : leInt32At F' (16 + 8) = leInt32At F (12 + 8) + 4 := htab 2 (by omega)
  have t3 : leInt32At F' (16 + 12) = leInt32At F (12 + 12) + 4 := htab 3 (by omega)
  have r0 := (leInt32At_range F' 16).2
  have r1 := (leInt32At_range F' (16 + 4)).2
  have r2 := (leInt32At_range F' (16 + 8)).2
  have r3 := (leInt32At_range F' (16 + 12)).2
  rw [t0] at r0
  rw [t1] at r1
  rw [t2] at r2
  rw [t3] at r3
  have hL : 28 ≤ F.length := by omega
  have hH' : (headerOf F').Magic = (headerOf F).Magic := by
    unfold headerOf
    simp only [hmagic' 0 (by omega), hmagic' 1 (by omega), hmagic' 2 (by omega)]
  have hsucc : (F.getD 0 0 = 73 ∧ F.getD 1 0 = 87 ∧ F.getD 2 0 = 105) →
      ∃ r r', ReadIWI sortSort F = Outcome.ok r ∧ ReadIWI sortSort F' = Outcome.ok r' ∧
        r'.Info = r.Info ∧ r'.Data = r.Data := by
    intro hmagic
    have hsF : (headerOf F).isSupported = true :=
      (isSupported_iff (headerOf F)).mpr ⟨hmagic, Or.inl hv⟩
    have hsF' : (headerOf F').isSupported = true :=
      (isSupported_iff (headerOf F')).mpr ⟨by
        have e0 : F'.getD 0 0 = 73 := by rw [hmagic' 0 (by omega)]; exact hmagic.1
        have e1 : F'.getD 1 0 = 87 := by rw [hmagic' 1 (by omega)]; exact hmagic.2.1
        have e2 : F'.getD 2 0 = 105 := by rw [hmagic' 2 (by omega)]; exact hmagic.2.2
        exact ⟨e0, e1, e2⟩, Or.inr (Or.inr (Or.inl hv'))⟩
    have hT : tablePos (0x05 : Byte) = 12 ∧ tableLen (0x05 : Byte) = 4 ∧
        metaPos (0x05 : Byte) = 4 ∧ tablePos (0x08 : Byte) = 16 ∧
        tableLen (0x08 : Byte) = 4 ∧ metaPos (0x08 : Byte) = 8 := by decide
    obtain ⟨hT1, hT2, hT3, hT4, hT5, hT6⟩ := hT
    have ht := readTable_ok F hsF (by rw [hv, hT1, hT2]; omega)
    have ht' := readTable_ok F' hsF' (by rw [hv', hT4, hT5]; omega)
    have hinfo : infoAt F' 8 = infoAt F 4 :=
      infoAt_shift F F' 4 8 (fun k hk => by
        have := hmeta (4 + k) (by omega) (by omega)
        rw [show 4 + k + 4 = 8 + k by omega] at this
        exact this)
    rw [hv, hT1, hT2, hT3, tableAt_four] at ht
    rw [hv', hT4, hT5, hT6, tableAt_four, hinfo, t0, t1, t2, t3] at ht'
    generalize leInt32At F 12 = o0 at *
    generalize leInt32At F (12 + 4) = o1 at *
    generalize leInt32At F (12 + 8) = o2 at *
    generalize leInt32At F (12 + 12) = o3 at *
    obtain ⟨mm, rest, hm, hmem, _, h0⟩ := sortedMips_head sortSort hs F _ _ _ _ _ ht
    have hsz : int32 (Reader.Size ⟨F, 12 + 4 * 4⟩) = int32 (F.length : Int) := rfl
    have hsz' : int32 (Reader.Size ⟨F', 16 + 4 * 4⟩) = int32 ((F.length : Int) + 4) := by
      simp only [Reader.Size, hlen', Nat.cast_add, Nat.cast_ofNat]
    have hc : int32 ((12 + 4 * 4 : Nat) : Int) = int32 28 := rfl
    have hc' : int32 ((16 + 4 * 4 : Nat) : Int) = int32 32 := rfl
    have hm' : sortedMips sortSort [o0 + 4, o1 + 4, o2 + 4, o3 + 4]
        ((16 + 4 * 4 : Nat) : Int) ⟨F', 16 + 4 * 4⟩ =
        (fun m : mipmap => if m.offset = 0 then m else ⟨m.offset + 4, m.size⟩) mm ::
          rest.map (fun m : mipmap => if m.offset = 0 then m else ⟨m.offset + 4, m.size⟩) := by
      unfold sortedMips at hm ⊢
      rw [hsz', hc', mipMaps_shift o0 o1 o2 o3 (F.length : Int) b0 b1 b2 r0 r1 r2,
        hu _ _ _ (fun a b => by
          simp only [sortReverse, mipmaps.Less]
          split <;> split <;> rfl),
        ← hc, ← hsz, hm, List.map_cons]
    rw [hsz, hc, mipMaps_four] at hmem
    have e28 : int32 28 = 28 := by decide
    rw [e28] at hmem
    have key : ∀ a : Int, mm.offset = a → (a = 0 → mm.size = 0) → (a ≠ 0 → 28 ≤ a) →
        a + mm.size ≤ (F.length : Int) →
        ∃ r r', ReadIWI sortSort F = Outcome.ok r ∧ ReadIWI sortSort F' = Outcome.ok r' ∧
          r'.Info = r.Info ∧ r'.Data = r.Data := by
      intro a ha hz hnz hfit
      have k1 := ReadIWI_ok_of_head sortSort F _ _ _ _ _ mm rest ht hm (by
        rw [ha]
        by_cases h : a = 0
        · omega
        · have := hnz h
          omega) h0 (Or.inr (by rw [ha]; exact hfit))
      by_cases h : a = 0
      · have hmm0 : mm.offset = 0 := by rw [ha, h]
        have hg : (fun m : mipmap => if m.offset = 0 then m else ⟨m.offset + 4, m.size⟩) mm
            = mm := by
          simp only [hmm0, if_true]
        rw [hg] at hm'
        have k2 := ReadIWI_ok_of_head sortSort F' _ _ _ _ _ mm _ ht' hm' (by omega) h0
          (Or.inl (hz h))
        refine ⟨_, _, k1, k2, rfl, ?_⟩
        simp only [hz h, Int.toNat_zero, List.take_zero]
      · have hmm0 : ¬ mm.offset = 0 := by rw [ha]; exact h
        have hg : (fun m : mipmap => if m.offset = 0 then m else ⟨m.offset + 4, m.size⟩) mm
            = ⟨mm.offset + 4, mm.size⟩ := by
          simp only [hmm0, if_false]
        rw [hg] at hm'
        have h28 := hnz h
        have k2 := ReadIWI_ok_of_head sortSort F' _ _ _ _ _ ⟨mm.offset + 4, mm.size⟩ _ ht' hm'
          (by simp only []; omega) h0
          (Or.inr (by simp only [hlen', Nat.cast_add, Nat.cast_ofNat]; omega))
        refine ⟨_, _, k1, k2, rfl, ?_⟩
        simp only []
        have e : (mm.offset + 4).toNat = mm.offset.toNat + 4 := by omega
        rw [e, drop_shift F F' 28 mm.offset.toNat hlen' hpay (by omega)]
    simp only [List.mem_cons, List.mem_singleton, List.not_mem_nil, or_false] at hmem
    rcases hmem with hz | hz | hz | hz | hd | hd | hd | hd
    · exact key 0 (by rw [hz]) (fun _ => by rw [hz]) (fun h => absurd rfl h) (by
        rw [hz]; simp only []; omega)
    · exact key 0 (by rw [hz]) (fun _ => by rw [hz]) (fun h => absurd rfl h) (by
        rw [hz]; simp only []; omega)
    · exact key 0 (by rw [hz]) (fun _ => by rw [hz]) (fun h => absurd rfl h) (by
        rw [hz]; simp only []; omega)
    · exact key 0 (by rw [hz]) (fun _ => by rw [hz]) (fun h => absurd rfl h) (by
        rw [hz]; simp only []; omega)
    · have hsize : mm.size = int32 (int32 (F.length : Int) - o0) := by rw [hd]
      exact key o0 (by rw [hd]) (fun h => by omega) (fun _ => b0.1) (by
        rw [hsize] at h0 ⊢
        exact first_entry_fits (F.length : Int) o0 b0.2 h0)
    · have hsize : mm.size = int32 (o0 - o1) := by rw [hd]
      exact key o1 (by rw [hd]) (fun h => by omega) (fun _ => b1.1) (by
        rw [hsize, int32_of_range _ (by omega) (by omega)]
        omega)
    · have hsize : mm.size = int32 (o1 - o2) := by rw [hd]
      exact key o2 (by rw [hd]) (fun h => by omega) (fun _ => b2.1) (by
        rw [hsize, int32_of_range _ (by omega) (by omega)]
        omega)
    · have hsize : mm.size = int32 (o3 - 28) := by rw [hd]
      exact key 28 (by rw [hd]) (fun h => by omega) (fun _ => le_refl _) (by
        rw [hsize, int32_of_range _ (by omega) (by omega)]
        omega)
  refine ⟨?_, hsucc⟩
  by_cases hmagic : F.getD 0 0 = 73 ∧ F.getD 1 0 = 87 ∧ F.getD 2 0 = 105
  · exact Or.inl (hsucc hmagic)
  · right
    have hns : (headerOf F).isSupported = false := by
      cases hb : (headerOf F).isSupported
      · rfl
      · exact absurd ((isSupported_iff (headerOf F)).mp hb).1 hmagic
    have hns' : (headerOf F').isSupported = false := by
      cases hb : (headerOf F').isSupported
      · rfl
      · have := ((isSupported_iff (headerOf F')).mp hb).1
        rw [hH'] at this
        exact absurd this hmagic
    obtain ⟨e, he⟩ := readTable_error F (Or.inr (Or.inl hns))
    obtain ⟨e', he'⟩ := readTable_error F' (Or.inr (Or.inl hns'))
    exact ⟨⟨e, ReadIWI_of_table_error sortSort F e he⟩,
      ⟨e', ReadIWI_of_table_error sortSort F' e' he'⟩⟩

/-- Witness of C13: `posTieInput` (version 0x05, table 33, 28, 28, 28) and its
version-0x08 counterpart `posTieInputMW2` (gap bytes 9, 9, 9, 9, table 37, 32,
32, 32) both decode, with the same info and the same data 6, 7, 8, 9, 10. -/
theorem ReadIWI_gap_version_witness :
    ReadIWI insertionSort posTieInput =
      Outcome.ok ⟨headerOf posTieInput, infoAt posTieInput 4, [6, 7, 8, 9, 10]⟩ ∧
    ReadIWI insertionSort posTieInputMW2 =
      Outcome.ok ⟨headerOf posTieInputMW2, infoAt posTieInputMW2 8, [6, 7, 8, 9, 10]⟩ ∧
    ∃ r r', ReadIWI insertionSort posTieInput = Outcome.ok r ∧
      ReadIWI insertionSort posTieInputMW2 = Outcome.ok r' ∧
      r'.Info = r.Info ∧ r'.Data = r.Data :=
  ⟨by decide, by decide,
   (ReadIWI_gap_version insertionSort insertionSort_contract insertionSort_uniform
      posTieInput posTieInputMW2 (by decide)
      (by
        intro j hj
        interval_cases j <;> decide)
      (by decide)
      (by
        intro k hk
        interval_cases k <;> rfl)
      (by decide)
      (by
        intro k h1 h2
        interval_cases k <;> rfl)
      (by
        intro j hj
        interval_cases j <;> decide)
      (by
        intro k hk
        by_cases h38 : k < 38
        · interval_cases k <;> rfl
        · rw [List.getD_eq_default _ _ (by simp [posTieInputMW2]; omega),
            List.getD_eq_default _ _ (by simp [posTieInput]; omega)])).2 (by decide)⟩

end iwi
